import Mathlib

/-!
# Verification of the enoki reverse-mode AD tape (`src/autodiff/autodiff.cpp`)

This file shallowly embeds the tape engine of `Tape<Value>` and proves the
frozen claims about it.  The source is a C++ template instantiated at scalar
types (`float`, `double`) and at dynamic array types
(`DynamicArray<Packet<float>>`, ...).  We embed it twice, mirroring the two
instantiation families:

* the *dynamic* model (`Enoki` namespace): `Value` is a list of IEEE-like
  lanes (`FP`), so broadcasting, `hsum` collapse, gather/scatter and the
  `Special` pull-backs are all present (the `if constexpr (is_dynamic_v)`
  branches of the source are taken);
* the *scalar* model (`EnokiS` namespace): `Value` is a single exact number
  (`ℚ`), mirroring `Tape<float>` where the dynamic branches are compiled out.
  Finite arithmetic is modeled exactly (no rounding); this is the arithmetic
  model licensed by the spec's "up to floating-point associativity".

Machine integers (`Index` = `uint32_t`) are modeled as `ℕ`; none of the claims
concern counter wrap-around.  C++ exceptions are modeled with `Except`.
Unbounded recursions of the source (DFS, edge contraction, `dec_ref` cascades)
are given explicit fuel; running out of fuel is a distinguished error, so an
`Except.ok` result always corresponds to a faithful, complete C++ execution.
-/

namespace Enoki

/-- One IEEE-like scalar lane: exact finite rationals plus `inf`, `-inf`,
`nan`.  Finite arithmetic is exact (no rounding/overflow); the special-value
propagation (`0 * inf = nan`, `nan` absorbing, `nan ≠ nan`) follows IEEE 754,
which is what the `safe_mul`/`safe_fmadd` masking in the source is about. -/
inductive FP where
  | fin (q : ℚ)
  | inf
  | ninf
  | nan
deriving DecidableEq

namespace FP

/-- IEEE-like multiplication on lanes. -/
def mul : FP → FP → FP
  | nan, _ => nan
  | _, nan => nan
  | fin a, fin b => fin (a * b)
  | fin a, inf => if a > 0 then inf else if a < 0 then ninf else nan
  | fin a, ninf => if a > 0 then ninf else if a < 0 then inf else nan
  | inf, fin b => if b > 0 then inf else if b < 0 then ninf else nan
  | ninf, fin b => if b > 0 then ninf else if b < 0 then inf else nan
  | inf, inf => inf
  | inf, ninf => ninf
  | ninf, inf => ninf
  | ninf, ninf => inf

/-- IEEE-like addition on lanes. -/
def add : FP → FP → FP
  | nan, _ => nan
  | _, nan => nan
  | fin a, fin b => fin (a + b)
  | fin _, inf => inf
  | fin _, ninf => ninf
  | inf, fin _ => inf
  | ninf, fin _ => ninf
  | inf, inf => inf
  | inf, ninf => nan
  | ninf, inf => nan
  | ninf, ninf => inf

/-- IEEE comparison `==`: `nan` compares unequal to everything (including
itself). -/
def feq : FP → FP → Bool
  | fin a, fin b => a == b
  | inf, inf => true
  | ninf, ninf => true
  | _, _ => false

/-- `eq(v, zero)`: the test `safe_mul`/`safe_fmadd` perform per lane. -/
def isZero (v : FP) : Bool := feq v (fin 0)

end FP

/-- The dynamic `Value` type: a dynamically sized vector of lanes.
Length 1 is "scalar-shaped" and broadcasts against any other length. -/
abbrev Value := List FP

/-- `zero<Value>(n)`. -/
def zeroV (n : ℕ) : Value := List.replicate n (.fin 0)

/-- `full<Value>(c, n)`. -/
def fullV (c : FP) (n : ℕ) : Value := List.replicate n c

/-- Broadcast two values against each other, producing the lane pairs an
enoki binary operation acts on: equal lengths act lanewise, a length-1
operand broadcasts. -/
def bpairs (a b : Value) : List (FP × FP) :=
  if a.length = b.length then List.zipWith Prod.mk a b
  else if a.length = 1 then b.map (fun y => (a.headD .nan, y))
  else if b.length = 1 then a.map (fun x => (x, b.headD .nan))
  else List.zipWith Prod.mk a b

/-- Lanewise binary operation with broadcasting. -/
def lift2 (f : FP → FP → FP) (a b : Value) : Value :=
  (bpairs a b).map (fun p => f p.1 p.2)

/-- `Value + Value` (used by `edge->weight += weight`,
`grad_source += gather(...)`). -/
def addV (a b : Value) : Value := lift2 .add a b

/-- `Value * Value`: the nominal (unmasked) product, for comparison with
`safe_mul`. -/
def mulV (a b : Value) : Value := lift2 .mul a b

/-- `hsum(v)`: horizontal sum, producing a scalar-shaped (length-1) value. -/
def hsumV (v : Value) : Value := [v.foldl .add (.fin 0)]

/-- `safe_mul(value1, value2)` (non-CUDA branch, lines 800-812):
`tentative = value1 * value2; is_zero = eq(value1,0) || eq(value2,0);
select(is_zero, 0, tentative)`, all lanewise with broadcasting. -/
def safe_mul (v1 v2 : Value) : Value :=
  (bpairs v1 v2).map (fun p =>
    if p.1.isZero || p.2.isZero then .fin 0 else p.1.mul p.2)

/-- `safe_fmadd(value1, value2, value3)` (non-CUDA branch, lines 814-826):
`tentative = fmadd(value1, value2, value3); is_zero = eq(value1,0) ||
eq(value2,0); select(is_zero, value3, tentative)`.  The third operand is
broadcast against the pair lanes; in the exact model the fused multiply-add
is `mul` followed by `add`. -/
def safe_fmadd (v1 v2 v3 : Value) : Value :=
  let pairs := bpairs v1 v2
  let tri := if pairs.length = v3.length then
      List.zipWith (fun p c => (p, c)) pairs v3
    else if pairs.length = 1 then v3.map (fun c => (pairs.headD (.nan, .nan), c))
    else if v3.length = 1 then pairs.map (fun p => (p, v3.headD .nan))
    else List.zipWith (fun p c => (p, c)) pairs v3
  tri.map (fun pc =>
    if pc.1.1.isZero || pc.1.2.isZero then pc.2 else (pc.1.1.mul pc.1.2).add pc.2)

end Enoki

namespace Enoki

/-- Node identifier (`Index` = `uint32_t`; `0` is reserved as "none"). -/
abbrev Index := ℕ

/-- Offsets of gather/scatter operations (`Int64` lanes used as indices). -/
abbrev Offsets := List ℕ

/-- A lanewise mask. -/
abbrev Mask := List Bool

/-- `scatter(buf, src, offset, mask)`: sequentially writes `src`'s lane `j`
(broadcast if `src` is scalar-shaped) at position `offset[j]` of `buf` for
every lane with `mask[j]` set.  Later writes win, matching the source. -/
def scatterV (buf src : Value) (offset : Offsets) (mask : Mask) : Value :=
  (List.range offset.length).foldl
    (fun b j =>
      if mask.getD j false then
        b.set (offset.getD j 0) (if src.length = 1 then src.headD .nan else src.getD j .nan)
      else b)
    buf

/-- `scatter_add(buf, src, offset, mask)`: like `scatterV` but accumulating. -/
def scatterAddV (buf src : Value) (offset : Offsets) (mask : Mask) : Value :=
  (List.range offset.length).foldl
    (fun b j =>
      if mask.getD j false then
        b.set (offset.getD j 0)
          ((b.getD (offset.getD j 0) (.fin 0)).add
            (if src.length = 1 then src.headD .nan else src.getD j .nan))
      else b)
    buf

/-- `gather<Value>(buf, offset, mask)`: masked-off lanes produce `0`. -/
def gatherV (buf : Value) (offset : Offsets) (mask : Mask) : Value :=
  (List.range offset.length).map
    (fun j => if mask.getD j false then buf.getD (offset.getD j 0) (.fin 0) else .fin 0)

/-- A `Special` pull-back object.  `gather` captures
`{offset, mask, size, permute}` (from `Tape::append_gather`); `scat` captures
`{offset, mask}` and is the pull-back installed by both `append_scatter` and
`append_scatter_add` (their local `Scatter` structs have identical
`compute_gradients` bodies). -/
inductive Special where
  | gather (offset : Offsets) (mask : Mask) (size : ℕ) (permute : Bool)
  | scat (offset : Offsets) (mask : Mask)
deriving DecidableEq

/-- An edge of the tape.  `Edge(source, weight)` leaves `special` null;
`Edge(source, special)` leaves `weight` default-constructed (the empty
dynamic array). -/
structure Edge where
  source : Index
  weight : Value := []
  special : Option Special := none
deriving DecidableEq

/-- A tape node.  `grad` is default-constructed (the empty dynamic array)
until written; `ref_count` starts at 0 and is immediately bumped by
`append_node`'s `inc_ref`. -/
structure Node where
  label : String := ""
  grad : Value := []
  edges : List Edge := []
  ref_count : ℕ := 0
  size : ℕ
deriving DecidableEq

/-- `Node::is_scalar`. -/
def Node.is_scalar (n : Node) : Bool := n.size == 1

/-- `Node::degree`: length of the edge list. -/
def Node.degree (n : Node) : ℕ := n.edges.length

/-- `Node::has_special`. -/
def Node.hasSpecial (n : Node) : Bool := n.edges.any (fun e => e.special.isSome)

/-- `Node::append_edge`: walks to the end of the singly-linked list and
installs the new edge there (tail insertion). -/
def Node.appendEdgeRaw (n : Node) (e : Edge) : Node :=
  { n with edges := n.edges ++ [e] }

/-- The fatal error kinds of the tape (§7 of the spec), plus the artificial
`outOfFuel` marker for exhausted recursion fuel (never raised by runs that
correspond to terminating C++ executions). -/
inductive Err where
  | unknownNode (i : Index)
  | useAfterFree (i : Index)
  | noGradient
  | prefixUnderflow
  | outOfFuel
deriving DecidableEq

/-- Ordered duplicate-free insertion, modeling `std::set<uint32_t>::insert`
on a sorted representation. -/
def sinsert (k : Index) : List Index → List Index
  | [] => [k]
  | x :: xs =>
    if k < x then k :: x :: xs
    else if k = x then x :: xs
    else x :: sinsert k xs

/-- The tape state (`Tape::Detail`).  The node store is an association list
keyed by `Index`; `scheduled` is kept sorted ascending (the iteration order
of `std::set`).  `sgSlot` models the `Index` slot the scatter/gather context
pointer `scatter_gather_index` points at (`none` = null pointer). -/
structure TapeState where
  node_counter : ℕ := 1
  nodes : List (Index × Node) := []
  scheduled : List Index := []
  prefixes : List String := []
  sgSlot : Option Index := none
  sgSize : ℕ := 0
  sgPermute : Bool := false
  contract_edges : Bool := true
deriving DecidableEq

/-- Store lookup. -/
def TapeState.find? (st : TapeState) (i : Index) : Option Node :=
  (st.nodes.find? (fun p => p.1 == i)).map (fun p => p.2)

/-- Replace the node stored at key `i` (no-op if absent; all uses are on
present keys). -/
def TapeState.setNode (st : TapeState) (i : Index) (n : Node) : TapeState :=
  { st with nodes := st.nodes.map (fun p => if p.1 = i then (i, n) else p) }

/-- Erase key `i` from the store. -/
def TapeState.eraseNode (st : TapeState) (i : Index) : TapeState :=
  { st with nodes := st.nodes.filter (fun p => p.1 ≠ i) }

/-- `Detail::node(index)`: lookup that throws `UnknownNode` on a miss. -/
def getNode (st : TapeState) (i : Index) : Except Err Node :=
  match st.find? i with
  | some n => .ok n
  | none => .error (.unknownNode i)

/-- `Tape::inc_ref` (lines 562-571): no-op at index 0, otherwise bump the
node's reference count. -/
def incRef (st : TapeState) (i : Index) : Except Err TapeState :=
  if i = 0 then .ok st
  else do
    let n ← getNode st i
    .ok (st.setNode i { n with ref_count := n.ref_count + 1 })

/-- `Tape::dec_ref` (lines 573-588): no-op at index 0; `UseAfterFree` when
the count is already zero; otherwise pre-decrement and, on transition to
zero, free the node.  The body of `Tape::free_node` (lines 590-609) — walk
the edge list calling `dec_ref` on each edge's source (possibly cascading),
then erase the node — is inlined here so that the recursion is structural on
the fuel; `freeNode` below is the same body as a standalone entry point. -/
def decRef : ℕ → TapeState → Index → Except Err TapeState
  | _, st, 0 => .ok st
  | 0, _, _ => .error .outOfFuel
  | fuel + 1, st, i =>
    match st.find? i with
    | none => .error (.unknownNode i)
    | some n =>
      if n.ref_count = 0 then .error (.useAfterFree i)
      else
        let st' := st.setNode i { n with ref_count := n.ref_count - 1 }
        if n.ref_count - 1 = 0 then
          match st'.find? i with
          | none => .error (.unknownNode i)
          | some n' => do
            let st'' ← n'.edges.foldlM (fun s e => decRef fuel s e.source) st'
            .ok (st''.eraseNode i)
        else .ok st'

/-- `Tape::free_node` (lines 590-609): walk the node's edge list calling
`dec_ref` on each edge's source, then erase the node from the store. -/
def freeNode (fuel : ℕ) (st : TapeState) (i : Index) : Except Err TapeState :=
  match st.find? i with
  | none => .error (.unknownNode i)
  | some n => do
    let st' ← n.edges.foldlM (fun s e => decRef fuel s e.source) st
    .ok (st'.eraseNode i)

end Enoki

namespace Enoki

/-- `Tape::append_node` (lines 245-261): allocate the next id, install a node
whose label is prefixed by the prefix stack (outermost first), and take the
caller's reference (`inc_ref(idx)` on the freshly inserted node, which cannot
fail). -/
def appendNode (st : TapeState) (size : ℕ) (label : String) : Index × TapeState :=
  let idx := st.node_counter
  let lbl := st.prefixes.foldr (fun p acc => p ++ "/" ++ acc) label
  let node : Node := { label := lbl, size := size, ref_count := 1 }
  (idx, { st with node_counter := idx + 1, nodes := (idx, node) :: st.nodes })

/-- `Tape::append_leaf` (lines 263-269): a fresh `'unnamed'` node whose grad
is immediately initialized to `zero<Value>(size)`. -/
def appendLeaf (st : TapeState) (size : ℕ) : Except Err (Index × TapeState) := do
  let (idx, st₁) := appendNode st size "'unnamed'"
  let n ← getNode st₁ idx
  .ok (idx, st₁.setNode idx { n with grad := zeroV n.size })

/-- Update the first edge with the given source by applying `f` to its
weight (the merge scan of `append_edge`/`append_edge_prod`). -/
def mergeWeight (es : List Edge) (src : Index) (f : Value → Value) : List Edge :=
  match es with
  | [] => []
  | e :: rest =>
    if e.source = src then { e with weight := f e.weight } :: rest
    else e :: mergeWeight rest src f

/-- `Tape::append_edge_prod` (lines 495-559), with explicit recursion fuel.
In the contraction branch the grandparent edges of the *snapshot* of
`source.edges` are folded into `target` (the recursive calls only modify
`target`'s edge list and reference counts, so the snapshot matches the C++
live iteration); the merge branch updates the first (unique) matching edge
with `safe_fmadd(weight1, weight2, edge.weight)`; otherwise a fresh edge of
weight `safe_mul(weight1, weight2)` is tail-appended and the source's
reference count is bumped. -/
def appendEdgeProd : ℕ → TapeState → Index → Index → Value → Value →
    Except Err TapeState
  | 0, _, _, _, _, _ => .error .outOfFuel
  | fuel + 1, st, src, tgt, w1, w2 =>
    if src = 0 then .ok st
    else do
    let source ← getNode st src
    let target ← getNode st tgt
    if ¬source.hasSpecial ∧ source.size = target.size ∧ 0 < source.degree ∧
        st.contract_edges then
      source.edges.foldlM
        (fun s e => appendEdgeProd fuel s e.source tgt (safe_mul w1 w2) e.weight) st
    else if target.edges.any (fun e => e.source == src) then
      .ok (st.setNode tgt { target with
        edges := mergeWeight target.edges src (safe_fmadd w1 w2) })
    else do
      let st₁ := st.setNode tgt (target.appendEdgeRaw { source := src, weight := safe_mul w1 w2 })
      incRef st₁ src

end Enoki

namespace Enoki

/-- `Tape::append_edge` (lines 431-493), with explicit recursion fuel for the
contraction recursion (which proceeds through `append_edge_prod`).  Structure:
early return at source 0; contraction when enabled, the source has incoming
edges, sizes match and no incoming edge is special; otherwise merge into an
existing edge from the same source (`edge->weight += weight`); otherwise
tail-append a fresh edge and `inc_ref` the source. -/
def appendEdge (fuel : ℕ) (st : TapeState) (src tgt : Index) (weight : Value) :
    Except Err TapeState :=
  if src = 0 then .ok st
  else do
    let source ← getNode st src
    let target ← getNode st tgt
    if ¬source.hasSpecial ∧ source.size = target.size ∧ 0 < source.degree ∧
        st.contract_edges then
      source.edges.foldlM
        (fun s e => appendEdgeProd fuel s e.source tgt weight e.weight) st
    else if target.edges.any (fun e => e.source == src) then
      .ok (st.setNode tgt { target with
        edges := mergeWeight target.edges src (fun w => addV w weight) })
    else do
      let st₁ := st.setNode tgt (target.appendEdgeRaw { source := src, weight := weight })
      incRef st₁ src

/-- `Tape::append` with one parent (lines 198-210).  The fuel passed to the
edge recursion is `idx` (sufficient: contraction descends through strictly
decreasing ids). -/
def append1 (st : TapeState) (label : String) (size : ℕ) (i1 : Index)
    (w1 : Value) : Except Err (Index × TapeState) :=
  if i1 = 0 then .ok (0, st)
  else do
    let (idx, st₁) := appendNode st size label
    let st₂ ← appendEdge idx st₁ i1 idx w1
    .ok (idx, st₂)

/-- `Tape::append` with two parents (lines 212-226). -/
def append2 (st : TapeState) (label : String) (size : ℕ) (i1 i2 : Index)
    (w1 w2 : Value) : Except Err (Index × TapeState) :=
  if i1 = 0 ∧ i2 = 0 then .ok (0, st)
  else do
    let (idx, st₁) := appendNode st size label
    let st₂ ← appendEdge idx st₁ i1 idx w1
    let st₃ ← appendEdge idx st₂ i2 idx w2
    .ok (idx, st₃)

/-- `Tape::append` with three parents (lines 228-243). -/
def append3 (st : TapeState) (label : String) (size : ℕ) (i1 i2 i3 : Index)
    (w1 w2 w3 : Value) : Except Err (Index × TapeState) :=
  if i1 = 0 ∧ i2 = 0 ∧ i3 = 0 then .ok (0, st)
  else do
    let (idx, st₁) := appendNode st size label
    let st₂ ← appendEdge idx st₁ i1 idx w1
    let st₃ ← appendEdge idx st₂ i2 idx w2
    let st₄ ← appendEdge idx st₃ i3 idx w3
    .ok (idx, st₄)

/-- `Tape::push_prefix`. -/
def pushPrefix (st : TapeState) (s : String) : TapeState :=
  { st with prefixes := st.prefixes ++ [s] }

/-- `Tape::pop_prefix`: error on an empty prefix stack. -/
def popPrefix (st : TapeState) : Except Err TapeState :=
  if st.prefixes = [] then .error .prefixUnderflow
  else .ok { st with prefixes := st.prefixes.dropLast }

/-- `Tape::set_scatter_gather_operand` (lines 621-627).  The C++ stores a raw
pointer into caller-owned storage; the model keeps the pointee value in the
state (`none` models the null pointer). -/
def setScatterGatherOperand (st : TapeState) (slot : Option Index) (size : ℕ)
    (permute : Bool) : TapeState :=
  { st with sgSlot := slot, sgSize := size, sgPermute := permute }

/-- `Tape::append_gather` (lines 286-333, dynamic branch): returns 0 without
context (null pointer or zero index); otherwise creates a `"gather"` node of
size `slices(offset)` with a single special edge from the context buffer,
capturing `{offset, mask, source size, permute}`. -/
def appendGather (st : TapeState) (offset : Offsets) (mask : Mask) :
    Except Err (Index × TapeState) :=
  match st.sgSlot with
  | none => .ok (0, st)
  | some source =>
    if source = 0 then .ok (0, st)
    else do
      let srcNode ← getNode st source
      let (target, st₁) := appendNode st offset.length "gather"
      let tn ← getNode st₁ target
      let st₂ := st₁.setNode target (tn.appendEdgeRaw
        { source := source,
          special := some (.gather offset mask srcNode.size st.sgPermute) })
      let st₃ ← incRef st₂ source
      .ok (target, st₃)

/-- `Tape::append_scatter` (lines 335-383, dynamic branch).  A `"scatter"`
node of the context size is created with a special edge from `source`; if the
context buffer was already differentiable (`target_orig != 0`), a
`"scatter_combine"` node combines the two with weights `(1, weight)` where
`weight` is `1` for permuting scatters and otherwise a vector of ones with
zeros scattered at the masked positions; the internal references to the
scatter node and the old buffer are then dropped.  The context slot receives
the resulting id. -/
def appendScatter (st : TapeState) (source : Index) (offset : Offsets)
    (mask : Mask) : Except Err TapeState :=
  match st.sgSlot with
  | none => .ok st
  | some target_orig => do
    let (target_new, st₁) := appendNode st st.sgSize "scatter"
    let tn ← getNode st₁ target_new
    let st₂ := st₁.setNode target_new
      (tn.appendEdgeRaw { source := source, special := some (.scat offset mask) })
    let st₃ ← incRef st₂ source
    if target_orig = 0 then
      .ok { st₃ with sgSlot := some target_new }
    else do
      let weight : Value :=
        if st.sgPermute then [.fin 1]
        else scatterV (fullV (.fin 1) st.sgSize) [.fin 0] offset mask
      let (combined, st₄) ← append2 st₃ "scatter_combine" st.sgSize
        target_new target_orig [.fin 1] weight
      let st₅ ← decRef st₄.node_counter st₄ target_new
      let st₆ ← decRef st₅.node_counter st₅ target_orig
      .ok { st₆ with sgSlot := some combined }

/-- `Tape::append_scatter_add` (lines 385-429, dynamic branch): like
`append_scatter` but the pull-back never permutes and the combination with
the old buffer is a plain `"add"` with weights `(1, 1)`. -/
def appendScatterAdd (st : TapeState) (source : Index) (offset : Offsets)
    (mask : Mask) : Except Err TapeState :=
  match st.sgSlot with
  | none => .ok st
  | some target_orig => do
    let (target_new, st₁) := appendNode st st.sgSize "scatter_add"
    let tn ← getNode st₁ target_new
    let st₂ := st₁.setNode target_new
      (tn.appendEdgeRaw { source := source, special := some (.scat offset mask) })
    let st₃ ← incRef st₂ source
    if target_orig = 0 then
      .ok { st₃ with sgSlot := some target_new }
    else do
      let (combined, st₄) ← append2 st₃ "add" st.sgSize
        target_new target_orig [.fin 1] [.fin 1]
      let st₅ ← decRef st₄.node_counter st₄ target_new
      let st₆ ← decRef st₅.node_counter st₅ target_orig
      .ok { st₆ with sgSlot := some combined }

end Enoki

namespace Enoki

/-- `Special::compute_gradients`.  The `Gather` pull-back scatters (or
scatter-adds) `grad[target]` into `grad[source]`; the `Scatter` pull-back of
both scatter variants accumulates `gather(grad[target], offset, mask)` into
`grad[source]`. -/
def computeGradients (st : TapeState) (sp : Special) (target : Index)
    (e : Edge) : Except Err TapeState := do
  let tn ← getNode st target
  let sn ← getNode st e.source
  match sp with
  | .gather offset mask _size permute =>
    let g := if permute then scatterV sn.grad tn.grad offset mask
             else scatterAddV sn.grad tn.grad offset mask
    .ok (st.setNode e.source { sn with grad := g })
  | .scat offset mask =>
    .ok (st.setNode e.source { sn with grad := addV sn.grad (gatherV tn.grad offset mask) })

/-- `Tape::Detail::dfs` (lines 151-167): return immediately if the index is
already scheduled, otherwise insert it, clear its grad to
`zero<Value>(size)` when `clear_grad` is set, and recurse into every edge
source.  The membership test precedes both the insertion and the grad
clear.  Fuel bounds the recursion depth (ids strictly decrease along edges,
so `k + 1` always suffices on well-formed tapes). -/
def dfs : ℕ → Index → Bool → TapeState → Except Err TapeState
  | 0, _, _, _ => .error .outOfFuel
  | fuel + 1, k, clear_grad, st =>
    if k ∈ st.scheduled then .ok st
    else do
      let st₁ := { st with scheduled := sinsert k st.scheduled }
      let n ← getNode st₁ k
      let st₂ := if clear_grad then st₁.setNode k { n with grad := zeroV n.size } else st₁
      n.edges.foldlM (fun s e => dfs fuel e.source clear_grad s) st₂

/-- `Tape::set_gradient` (lines 637-646): error at index 0; otherwise DFS
with `clear_grad = true` from the index, then overwrite the seeded node's
grad with the given value. -/
def setGradient (st : TapeState) (i : Index) (v : Value) :
    Except Err TapeState :=
  if i = 0 then .error .noGradient
  else do
    let st₁ ← dfs (i + 1) i true st
    let n ← getNode st₁ i
    .ok (st₁.setNode i { n with grad := v })

/-- `Tape::gradient` (lines 629-635). -/
def gradientOf (st : TapeState) (i : Index) : Except Err Value :=
  if i = 0 then .error .noGradient
  else do
    let n ← getNode st i
    .ok n.grad

/-- One iteration of the reverse sweep of `Tape::backward` (lines 659-692)
for the target `tgt`: collapse a vector-shaped grad on a scalar-shaped node
by horizontal sum, then walk the edge list — pointwise edges perform
`grad[source] := safe_fmadd(weight, grad[target], grad[source])`, special
edges delegate to their pull-back — releasing each edge's source reference
when `free_graph` is set, and finally (under `free_graph`) clear the edge
list and drop the target's reference. -/
def processTarget (fuel : ℕ) (st : TapeState) (free_graph : Bool)
    (tgt : Index) : Except Err TapeState := do
  let target ← getNode st tgt
  let st ← .ok (if target.is_scalar ∧ target.grad.length ≠ 1 then
      st.setNode tgt { target with grad := hsumV target.grad } else st)
  let target ← getNode st tgt
  let st ← target.edges.foldlM
    (fun s e => do
      match e.special with
      | none => do
        let tn ← getNode s tgt
        let source ← getNode s e.source
        let s := s.setNode e.source
          { source with grad := safe_fmadd e.weight tn.grad source.grad }
        if free_graph then decRef fuel s e.source else .ok s
      | some sp => do
        let s ← computeGradients s sp tgt e
        if free_graph then decRef fuel s e.source else .ok s)
    st
  if free_graph then do
    let tn ← getNode st tgt
    let st := st.setNode tgt { tn with edges := [] }
    decRef fuel st tgt
  else .ok st

/-- `Tape::backward` (lines 648-707): when `free_graph` is set, first take an
extra reference on every scheduled id; then process the scheduled ids from
largest to smallest (`std::set` reverse iteration); finally clear the
scheduled set. -/
def backward (st : TapeState) (free_graph : Bool) : Except Err TapeState := do
  let sched := st.scheduled
  let st ← if free_graph then sched.reverse.foldlM incRef st else .ok st
  let st ← sched.reverse.foldlM
    (fun s t => processTarget s.node_counter s free_graph t) st
  .ok { st with scheduled := [] }

/-- The state effect of `Tape::graphviz` (lines 709-798): a DFS with
`clear_grad = false` from every root into the *same* `scheduled` set the
sweep uses, followed by `indices.clear()` at the end.  The DOT text itself is
pure output built from reads of the store and is not modeled. -/
def graphvizState (st : TapeState) (roots : List Index) :
    Except Err TapeState := do
  let st₁ ← roots.foldlM (fun s i => dfs (i + 1) i false s) st
  .ok { st₁ with scheduled := [] }

/-- The initial tape state (a fresh `Detail`). -/
def initTape : TapeState := {}

end Enoki

namespace Enoki

/-- The nominal (unmasked) `fmadd(value1, value2, value3)`, with the same
triple broadcasting as `safe_fmadd`, for comparison against the masked
version. -/
def fmaddV (v1 v2 v3 : Value) : Value :=
  let pairs := bpairs v1 v2
  let tri := if pairs.length = v3.length then
      List.zipWith (fun p c => (p, c)) pairs v3
    else if pairs.length = 1 then v3.map (fun c => (pairs.headD (.nan, .nan), c))
    else if v3.length = 1 then pairs.map (fun p => (p, v3.headD .nan))
    else List.zipWith (fun p c => (p, c)) pairs v3
  tri.map (fun pc => (pc.1.1.mul pc.1.2).add pc.2)

theorem isZero_fin_zero : FP.isZero (.fin 0) = true := by decide

theorem bpairs_zero_left (y z : FP) (ys : List FP) :
    bpairs [.fin 0] (y :: z :: ys) = (y :: z :: ys).map (fun t => (FP.fin 0, t)) := by
  simp [bpairs]

theorem safe_mul_zero_left (v : Value) :
    safe_mul [.fin 0] v = zeroV v.length := by
  match v with
  | [] => rfl
  | [y] =>
    show safe_mul [.fin 0] [y] = zeroV 1
    simp [safe_mul, bpairs, zeroV, isZero_fin_zero]
  | y :: z :: ys =>
    unfold safe_mul
    rw [bpairs_zero_left, List.map_map]
    have key : ∀ (l : List FP),
        l.map ((fun p : FP × FP =>
            if p.1.isZero || p.2.isZero then FP.fin 0 else p.1.mul p.2) ∘
          (fun t => (FP.fin 0, t))) = List.replicate l.length (FP.fin 0) := by
      intro l
      induction l with
      | nil => rfl
      | cons a l ih =>
        simp only [List.map_cons, Function.comp_apply, List.length_cons,
          List.replicate_succ, isZero_fin_zero, Bool.true_or, if_pos rfl, ih,
          if_true]
    rw [key]
    rfl

end Enoki

namespace Enoki

theorem safe_mul_lane (a b : Value) (i : ℕ) (h : i < (bpairs a b).length) :
    (safe_mul a b).getD i .nan =
      if ((bpairs a b).getD i (.nan, .nan)).1.isZero ∨
          ((bpairs a b).getD i (.nan, .nan)).2.isZero
      then .fin 0 else (mulV a b).getD i .nan := by
  have h1 : i < (safe_mul a b).length := by simpa [safe_mul] using h
  have h2 : i < (mulV a b).length := by simpa [mulV, lift2] using h
  rw [List.getD_eq_getElem _ _ h1, List.getD_eq_getElem _ _ h2,
    List.getD_eq_getElem _ _ h]
  simp only [safe_mul, mulV, lift2, List.getElem_map]
  by_cases hz : (((bpairs a b)[i].1).isZero || ((bpairs a b)[i].2).isZero) = true
  · rw [if_pos hz, if_pos (by simpa [Bool.or_eq_true] using hz)]
  · rw [if_neg hz, if_neg (by simpa [Bool.or_eq_true] using hz)]

theorem safe_fmadd_lane (v1 v2 v3 : Value)
    (hlen : (bpairs v1 v2).length = v3.length) (i : ℕ) (h : i < v3.length) :
    (safe_fmadd v1 v2 v3).getD i .nan =
      if ((bpairs v1 v2).getD i (.nan, .nan)).1.isZero ∨
          ((bpairs v1 v2).getD i (.nan, .nan)).2.isZero
      then v3.getD i .nan
      else (fmaddV v1 v2 v3).getD i .nan := by
  have hp : i < (bpairs v1 v2).length := hlen ▸ h
  have h1 : i < (safe_fmadd v1 v2 v3).length := by
    simp [safe_fmadd, if_pos hlen, hlen, h]
  have h2 : i < (fmaddV v1 v2 v3).length := by
    simp [fmaddV, if_pos hlen, hlen, h]
  rw [List.getD_eq_getElem _ _ h1, List.getD_eq_getElem _ _ h2,
    List.getD_eq_getElem _ _ hp, List.getD_eq_getElem _ _ h]
  simp only [safe_fmadd, fmaddV, if_pos hlen, List.getElem_map,
    List.getElem_zipWith]
  by_cases hz : (((bpairs v1 v2)[i].1).isZero || ((bpairs v1 v2)[i].2).isZero) = true
  · rw [if_pos hz]
    have hor : (bpairs v1 v2)[i].1.isZero = true ∨ (bpairs v1 v2)[i].2.isZero = true := by
      simpa [Bool.or_eq_true] using hz
    rcases hor with ha | hb
    · simp [ha]
    · simp [hb]
  · rw [if_neg hz]
    have hab : (bpairs v1 v2)[i].1.isZero = false ∧ (bpairs v1 v2)[i].2.isZero = false := by
      simpa [Bool.or_eq_true] using hz
    simp [hab.1, hab.2]

/-- **C5.** `safe_mul(a,b)` equals the nominal product `a*b` except that
lanes where `a == 0` or `b == 0` are masked back to `0`; `safe_fmadd(a,b,c)`
equals `fmadd(a,b,c)` except that such lanes are masked back to `c`; and in
particular `safe_mul(0, v) = 0` (of `v`'s shape) for every `v`, including
values containing `nan` or `inf` lanes. -/
theorem claim_C5 :
    (∀ (a b : Value) (i : ℕ), i < (bpairs a b).length →
      (safe_mul a b).getD i .nan =
        (if ((bpairs a b).getD i (.nan, .nan)).1.isZero ∨
            ((bpairs a b).getD i (.nan, .nan)).2.isZero
         then .fin 0 else (mulV a b).getD i .nan)) ∧
    (∀ (v1 v2 v3 : Value), (bpairs v1 v2).length = v3.length →
      ∀ i : ℕ, i < v3.length →
      (safe_fmadd v1 v2 v3).getD i .nan =
        (if ((bpairs v1 v2).getD i (.nan, .nan)).1.isZero ∨
            ((bpairs v1 v2).getD i (.nan, .nan)).2.isZero
         then v3.getD i .nan
         else (fmaddV v1 v2 v3).getD i .nan)) ∧
    (∀ v : Value, safe_mul [.fin 0] v = zeroV v.length) :=
  ⟨fun a b i h => safe_mul_lane a b i h,
   fun v1 v2 v3 hlen i h => safe_fmadd_lane v1 v2 v3 hlen i h,
   fun v => safe_mul_zero_left v⟩

/-- Witness for C5: the masking at work on concrete `nan`/`inf` lanes. -/
theorem claim_C5_witness :
    (safe_mul [.fin 0, .fin 2] [.nan, .fin 3]).getD 0 .nan = .fin 0 ∧
    (safe_fmadd [.fin 0, .fin 2] [.nan, .fin 3] [.fin 7, .fin 9]).getD 0 .nan
      = .fin 7 ∧
    safe_mul [.fin 0] [.nan, .inf] = zeroV 2 := by
  refine ⟨?_, ?_, claim_C5.2.2 [.nan, .inf]⟩
  · rw [claim_C5.1 [.fin 0, .fin 2] [.nan, .fin 3] 0 (by decide)]; decide
  · rw [claim_C5.2.1 [.fin 0, .fin 2] [.nan, .fin 3] [.fin 7, .fin 9]
      (by decide) 0 (by decide)]
    decide

end Enoki

namespace Enoki

/-! ### Store lemmas -/

theorem find?_map_set (l : List (Index × Node)) (i : Index) (m : Node) :
    ((l.map (fun p => if p.1 = i then (i, m) else p)).find?
        (fun p => p.1 == i)).map (fun p => p.2)
      = ((l.find? (fun p => p.1 == i)).map (fun p => p.2)).map (fun _ => m) := by
  induction l with
  | nil => rfl
  | cons p l ih =>
    by_cases hp : p.1 = i
    · rw [List.map_cons, if_pos hp,
        List.find?_cons_of_pos _ (by simp),
        List.find?_cons_of_pos _ (by simpa using hp)]
      rfl
    · rw [List.map_cons, if_neg hp,
        List.find?_cons_of_neg _ (by simpa using hp),
        List.find?_cons_of_neg _ (by simpa using hp)]
      exact ih

theorem find?_map_set_ne (l : List (Index × Node)) {i j : Index} (m : Node)
    (h : j ≠ i) :
    ((l.map (fun p => if p.1 = i then (i, m) else p)).find?
        (fun p => p.1 == j)).map (fun p => p.2)
      = (l.find? (fun p => p.1 == j)).map (fun p => p.2) := by
  induction l with
  | nil => rfl
  | cons p l ih =>
    by_cases hpj : p.1 = j
    · have hpi : ¬p.1 = i := by rw [hpj]; exact h
      rw [List.map_cons, if_neg hpi,
        List.find?_cons_of_pos _ (by simpa using hpj),
        List.find?_cons_of_pos _ (by simpa using hpj)]
    · rw [List.map_cons]
      by_cases hpi : p.1 = i
      · rw [if_pos hpi,
          List.find?_cons_of_neg _ (by simpa using Ne.symm h),
          List.find?_cons_of_neg _ (by simpa using hpj)]
        exact ih
      · rw [if_neg hpi,
          List.find?_cons_of_neg _ (by simpa using hpj),
          List.find?_cons_of_neg _ (by simpa using hpj)]
        exact ih

theorem find?_setNode_self {st : TapeState} {i : Index} {n m : Node}
    (h : st.find? i = some n) : (st.setNode i m).find? i = some m := by
  have key := find?_map_set st.nodes i m
  show ((st.nodes.map (fun p => if p.1 = i then (i, m) else p)).find?
      (fun p => p.1 == i)).map (fun p => p.2) = some m
  rw [key]
  show (st.find? i).map (fun _ => m) = some m
  rw [h]
  rfl

theorem find?_setNode_ne {st : TapeState} {i j : Index} (m : Node)
    (h : j ≠ i) : (st.setNode i m).find? j = st.find? j := by
  exact find?_map_set_ne st.nodes m h

theorem scheduled_setNode (st : TapeState) (i : Index) (n : Node) :
    (st.setNode i n).scheduled = st.scheduled := rfl

theorem counter_setNode (st : TapeState) (i : Index) (n : Node) :
    (st.setNode i n).node_counter = st.node_counter := rfl

theorem getNode_ok {st : TapeState} {i : Index} {n : Node} :
    getNode st i = .ok n ↔ st.find? i = some n := by
  unfold getNode
  cases h : st.find? i <;> simp

/-! ### `sinsert` lemmas -/

theorem mem_sinsert_iff (j k : Index) (l : List Index) :
    j ∈ sinsert k l ↔ j = k ∨ j ∈ l := by
  induction l with
  | nil => simp [sinsert]
  | cons x xs ih =>
    unfold sinsert
    by_cases h1 : k < x
    · simp [if_pos h1, List.mem_cons]
    · by_cases h2 : k = x
      · subst h2
        rw [if_neg h1, if_pos rfl]
        simp only [List.mem_cons]
        tauto
      · simp only [if_neg h1, if_neg h2, List.mem_cons, ih]
        tauto

theorem mem_sinsert_self (k : Index) (l : List Index) : k ∈ sinsert k l :=
  (mem_sinsert_iff k k l).mpr (Or.inl rfl)

theorem mem_sinsert_of_mem {j : Index} (k : Index) {l : List Index}
    (h : j ∈ l) : j ∈ sinsert k l :=
  (mem_sinsert_iff j k l).mpr (Or.inr h)

/-! ### A generic induction principle for `foldlM` over `Except` -/

theorem foldlM_ind {σ α : Type} {step : σ → α → Except Err σ}
    {P : σ → σ → Prop}
    (hrefl : ∀ s, P s s)
    (htrans : ∀ a b c, P a b → P b c → P a c)
    (hstep : ∀ s a s', step s a = .ok s' → P s s') :
    ∀ (l : List α) (s s' : σ), l.foldlM step s = .ok s' → P s s' := by
  intro l
  induction l with
  | nil =>
    intro s s' h
    rw [List.foldlM_nil] at h
    cases h
    exact hrefl s
  | cons a l ih =>
    intro s s' h
    rw [List.foldlM_cons] at h
    cases hs : step s a with
    | error e => rw [hs] at h; exact Except.noConfusion h
    | ok s₁ =>
      rw [hs] at h
      exact htrans _ _ _ (hstep s a s₁ hs) (ih s₁ s' h)

end Enoki

namespace Enoki

/-! ### DFS lemmas (for C1 and C9) -/

/-- Postcondition of `dfs` with `clear_grad = true`: the scheduled set only
grows, nodes that were already scheduled are untouched, and every newly
scheduled node has had its grad cleared to zero of its size. -/
def DfsP (s s' : TapeState) : Prop :=
  (∀ j, j ∈ s.scheduled → j ∈ s'.scheduled) ∧
  (∀ j, j ∈ s.scheduled → s'.find? j = s.find? j) ∧
  (∀ j, j ∈ s'.scheduled → j ∉ s.scheduled →
    ∃ n, s'.find? j = some n ∧ n.grad = zeroV n.size)

theorem dfsP_refl (s : TapeState) : DfsP s s :=
  ⟨fun _ h => h, fun _ _ => rfl, fun _ hj hj' => absurd hj hj'⟩

theorem dfsP_trans {a b c : TapeState} (h1 : DfsP a b) (h2 : DfsP b c) :
    DfsP a c := by
  refine ⟨fun j hj => h2.1 j (h1.1 j hj),
    fun j hj => (h2.2.1 j (h1.1 j hj)).trans (h1.2.1 j hj), ?_⟩
  intro j hj hj'
  by_cases hb : j ∈ b.scheduled
  · obtain ⟨n, hn, hg⟩ := h1.2.2 j hb hj'
    exact ⟨n, (h2.2.1 j hb).trans hn, hg⟩
  · exact h2.2.2 j hj hb

theorem dfs_mem_noop {fuel : ℕ} {k : Index} {c : Bool} {st : TapeState}
    (h : k ∈ st.scheduled) : dfs (fuel + 1) k c st = .ok st := by
  unfold dfs
  rw [if_pos h]

theorem dfs_succ_not_mem {fuel : ℕ} {k : Index} {c : Bool} {st : TapeState}
    (hk : k ∉ st.scheduled) :
    dfs (fuel + 1) k c st =
      (getNode { st with scheduled := sinsert k st.scheduled } k) >>= fun n =>
        n.edges.foldlM (fun s e => dfs fuel e.source c s)
          (if c then
            TapeState.setNode { st with scheduled := sinsert k st.scheduled } k
              { n with grad := zeroV n.size }
          else { st with scheduled := sinsert k st.scheduled }) := by
  conv_lhs => rw [dfs]
  rw [if_neg hk]

theorem dfs_spec : ∀ (fuel : ℕ) (k : Index) (st st' : TapeState),
    dfs fuel k true st = .ok st' → DfsP st st' ∧ k ∈ st'.scheduled := by
  intro fuel
  induction fuel with
  | zero =>
    intro k st st' h
    exact Except.noConfusion h
  | succ fuel ih =>
    intro k st st' h
    by_cases hk : k ∈ st.scheduled
    · rw [dfs_mem_noop hk] at h
      cases h
      exact ⟨dfsP_refl st, hk⟩
    · rw [dfs_succ_not_mem hk] at h
      set st₁ : TapeState := { st with scheduled := sinsert k st.scheduled } with hst₁
      cases hn : getNode st₁ k with
      | error e =>
        rw [hn] at h
        exact Except.noConfusion h
      | ok n =>
        rw [hn] at h
        set n' : Node := { n with grad := zeroV n.size } with hn'
        set st₂ : TapeState := st₁.setNode k n' with hst₂
        have h' : n.edges.foldlM (fun s e => dfs fuel e.source true s) st₂
            = .ok st' := h
        have hfind₁ : st₁.find? k = some n := getNode_ok.mp hn
        have hP12 : DfsP st st₂ := by
          refine ⟨?_, ?_, ?_⟩
          · intro j hj
            exact mem_sinsert_of_mem k hj
          · intro j hj
            have hjk : j ≠ k := fun e => hk (e ▸ hj)
            calc (st₂.find? j) = st₁.find? j := find?_setNode_ne n' hjk
              _ = st.find? j := rfl
          · intro j hj hj'
            have hjk : j = k := by
              rcases (mem_sinsert_iff j k st.scheduled).mp hj with h'' | h''
              · exact h''
              · exact absurd h'' hj'
            subst hjk
            exact ⟨n', find?_setNode_self hfind₁, rfl⟩
        have hfold : DfsP st₂ st' := by
          refine foldlM_ind (P := DfsP) dfsP_refl
            (fun a b c hab hbc => dfsP_trans hab hbc) ?_ n.edges st₂ st' h'
          intro s e s' hs
          exact (ih e.source s s' hs).1
        refine ⟨dfsP_trans hP12 hfold, ?_⟩
        exact hfold.1 k (mem_sinsert_self k st.scheduled)

end Enoki

namespace Enoki

/-- **C1, counterexample.**  Concrete run refuting the claim as stated: node
1 is a leaf, node 2 depends on it (its only edge points at node 1), and
`set_gradient(1, 5)` schedules node 1 with grad `[5]`.  The second call
`set_gradient(2, 7)` has node 1 reachable from its seed, yet does *not*
re-zero node 1's grad: the DFS checks the scheduled set *before* clearing,
so node 1 keeps grad `[5]` (the claim predicts `[0]`). -/
theorem claim_C1_counterexample :
    (do
      let (i1, s1) ← appendLeaf initTape 1
      let (i2, s2) ← append1 s1 "f" 1 i1 [.fin 2]
      let s3 ← setGradient s2 i1 [.fin 5]
      let s4 ← setGradient s3 i2 [.fin 7]
      let g1 ← gradientOf s4 i1
      let n2 ← getNode s4 i2
      .ok (i1, i2, s3.scheduled, g1, n2.edges.map (fun e => e.source))
      : Except Err (Index × Index × List Index × Value × List Index))
      = .ok (1, 2, [1], [.fin 5], [1]) ∧
    ([.fin 5] : Value) ≠ zeroV 1 := by
  constructor
  · rfl
  · decide

/-- **C1, amended.**  `set_gradient`'s DFS deduplicates against the
scheduled set *before* clearing: a node that an earlier `set_gradient` call
already scheduled is skipped entirely, keeping its grad; only nodes newly
inserted into the scheduled set are cleared to zero of their size; and the
seed value is then written into the seeded node's grad. -/
theorem claim_C1 {st st' : TapeState} {i : Index} {v : Value}
    (h : setGradient st i v = .ok st') :
    (∀ j, j ∈ st.scheduled → j ≠ i → st'.find? j = st.find? j) ∧
    (∃ n, st'.find? i = some n ∧ n.grad = v) ∧
    (∀ j, j ∈ st'.scheduled → j ∉ st.scheduled → j ≠ i →
      ∃ n, st'.find? j = some n ∧ n.grad = zeroV n.size) := by
  unfold setGradient at h
  by_cases hi : i = 0
  · rw [if_pos hi] at h
    exact Except.noConfusion h
  · rw [if_neg hi] at h
    cases hd : dfs (i + 1) i true st with
    | error e => rw [hd] at h; exact Except.noConfusion h
    | ok st₁ =>
      rw [hd] at h
      have h2 : (getNode st₁ i >>= fun n =>
          (.ok (st₁.setNode i { n with grad := v }) : Except Err TapeState))
          = .ok st' := h
      cases hn : getNode st₁ i with
      | error e => rw [hn] at h2; exact Except.noConfusion h2
      | ok n =>
        rw [hn] at h2
        have h3 : (.ok (st₁.setNode i { n with grad := v })
            : Except Err TapeState) = .ok st' := h2
        have hst' : st' = st₁.setNode i { n with grad := v } :=
          (Except.ok.inj h3).symm
        obtain ⟨hP, hmem⟩ := dfs_spec (i + 1) i st st₁ hd
        have hfind₁ : st₁.find? i = some n := getNode_ok.mp hn
        subst hst'
        refine ⟨?_, ?_, ?_⟩
        · intro j hj hji
          calc (st₁.setNode i { n with grad := v }).find? j
              = st₁.find? j := find?_setNode_ne _ hji
            _ = st.find? j := hP.2.1 j hj
        · exact ⟨{ n with grad := v }, find?_setNode_self hfind₁, rfl⟩
        · intro j hj hj' hji
          obtain ⟨m, hm, hg⟩ := hP.2.2 j hj hj'
          exact ⟨m, (find?_setNode_ne _ hji).trans hm, hg⟩

/-- Concrete pre-state for the C1 witness: the tape after `append_leaf(1)`,
`append("f", 1, node 1, weight [2])` and `set_gradient(1, [5])`. -/
def c1Pre : TapeState :=
  { node_counter := 3
    nodes := [
      (2, { label := "f"
            grad := []
            edges := [{ source := 1, weight := [.fin 2] }]
            ref_count := 1
            size := 1 }),
      (1, { label := "\'unnamed\'"
            grad := [.fin 5]
            edges := []
            ref_count := 2
            size := 1 })]
    scheduled := [1] }

/-- The state `c1Pre` reaches after a second call `set_gradient(2, [7])`:
node 2 is scheduled and seeded, node 1 keeps grad `[5]`. -/
def c1Post : TapeState :=
  { c1Pre with
    nodes := [
      (2, { label := "f"
            grad := [.fin 7]
            edges := [{ source := 1, weight := [.fin 2] }]
            ref_count := 1
            size := 1 }),
      (1, { label := "\'unnamed\'"
            grad := [.fin 5]
            edges := []
            ref_count := 2
            size := 1 })]
    scheduled := [1, 2] }

/-- Witness for C1 (amended): the theorem applied to the concrete state of
the counterexample (after `set_gradient(1, 5)`), seeding node 2.  Node 1,
already scheduled, keeps its grad `[5]`; node 2 receives the seed `[7]`. -/
theorem claim_C1_witness :
    setGradient c1Pre 2 [.fin 7] = .ok c1Post ∧
    (∃ n, c1Post.find? 2 = some n ∧ n.grad = [.fin 7]) ∧
    c1Post.find? 1 = c1Pre.find? 1 := by
  have hrun : setGradient c1Pre 2 [.fin 7] = .ok c1Post := by rfl
  exact ⟨hrun, (claim_C1 hrun).2.1, (claim_C1 hrun).1 1 (by decide) (by decide)⟩

end Enoki

namespace Enoki

/-- **C2, counterexample.**  Concrete run refuting head-insertion: two
leaves and `append("s", 1, 1, 2, [3], [4])`.  Both edges miss contraction
(leaf sources) and merging (distinct sources).  After inserting the edge
from node 2, the head of node 3's edge list is still the *first* inserted
edge (source 1): `Node::append_edge` walks to the end of the list, so the
fresh edge is appended at the tail, not installed at the head. -/
theorem claim_C2_counterexample :
    (do
      let (i1, s1) ← appendLeaf initTape 1
      let (i2, s2) ← appendLeaf s1 1
      let (i3, s3) ← append2 s2 "s" 1 i1 i2 [.fin 3] [.fin 4]
      let n3 ← getNode s3 i3
      .ok (i3, n3.edges.map (fun e => e.source))
      : Except Err (Index × List Index))
      = .ok (3, [1, 2]) ∧
    ([1, 2] : List Index) ≠ [2, 1] := ⟨by rfl, by decide⟩

/-- `append_edge` when both rewrites miss: the fresh edge `(src, w)` is
appended at the tail of `tgt`'s edge list and the source's reference count
is bumped exactly once. -/
theorem appendEdge_fresh {fuel : ℕ} {st : TapeState} {src tgt : Index} {w : Value}
    {sn tn : Node}
    (hsrc : st.find? src = some sn) (htgt : st.find? tgt = some tn)
    (hsrc0 : src ≠ 0) (hne : src ≠ tgt)
    (hnocontract : ¬(¬sn.hasSpecial ∧ sn.size = tn.size ∧ 0 < sn.degree ∧
      st.contract_edges))
    (hnomerge : ∀ e ∈ tn.edges, e.source ≠ src) :
    appendEdge fuel st src tgt w =
      .ok ((st.setNode tgt
        { tn with edges := tn.edges ++ [{ source := src, weight := w }] }).setNode
          src { sn with ref_count := sn.ref_count + 1 }) := by
  have h1 : getNode st src = .ok sn := getNode_ok.mpr hsrc
  have h2 : getNode st tgt = .ok tn := getNode_ok.mpr htgt
  have hmerge : tn.edges.any (fun e => e.source == src) = false := by
    rw [List.any_eq_false]
    intro e he
    simpa using hnomerge e he
  unfold appendEdge
  rw [if_neg hsrc0, h1, h2]
  show (if ¬sn.hasSpecial ∧ sn.size = tn.size ∧ 0 < sn.degree ∧
          st.contract_edges then
        sn.edges.foldlM (fun s e => appendEdgeProd fuel s e.source tgt w e.weight) st
      else if tn.edges.any (fun e => e.source == src) then
        .ok (st.setNode tgt { tn with edges := mergeWeight tn.edges src (fun x => addV x w) })
      else
        incRef (st.setNode tgt (tn.appendEdgeRaw { source := src, weight := w })) src)
      = _
  rw [if_neg hnocontract, hmerge]
  show incRef (st.setNode tgt (tn.appendEdgeRaw { source := src, weight := w })) src = _
  unfold incRef
  rw [if_neg hsrc0]
  have h3 : getNode (st.setNode tgt (tn.appendEdgeRaw { source := src, weight := w })) src
      = .ok sn := by
    rw [getNode_ok]
    rw [find?_setNode_ne _ hne]
    exact hsrc
  rw [h3]
  rfl

/-- **C2, amended.**  When `append_edge(src, tgt, w)` triggers neither edge
contraction nor edge merging, it materializes a fresh edge `(src, w)` that is
appended at the **tail** of `tgt`'s edge list (its `next` pointer is null —
the C++ `Edge(Index, const Value&)` constructor leaves `next` empty and
`Node::append_edge` walks to the end of the list), and it issues exactly one
`inc_ref(src)` on behalf of that edge. -/
theorem claim_C2 {fuel : ℕ} {st : TapeState} {src tgt : Index} {w : Value}
    {sn tn : Node}
    (hsrc : st.find? src = some sn) (htgt : st.find? tgt = some tn)
    (hsrc0 : src ≠ 0) (hne : src ≠ tgt)
    (hnocontract : ¬(¬sn.hasSpecial ∧ sn.size = tn.size ∧ 0 < sn.degree ∧
      st.contract_edges))
    (hnomerge : ∀ e ∈ tn.edges, e.source ≠ src) :
    appendEdge fuel st src tgt w =
      .ok ((st.setNode tgt
        { tn with edges := tn.edges ++ [{ source := src, weight := w }] }).setNode
          src { sn with ref_count := sn.ref_count + 1 }) :=
  appendEdge_fresh hsrc htgt hsrc0 hne hnocontract hnomerge

/-- Witness for C2 (amended): the theorem applied at the state of the
counterexample just before the second edge is inserted. -/
theorem claim_C2_witness :
    appendEdge 3
      { node_counter := 4
        nodes := [
          (3, { label := "s"
                grad := []
                edges := [{ source := 1, weight := [.fin 3] }]
                ref_count := 1
                size := 1 }),
          (2, { label := "'unnamed'"
                grad := [.fin 0]
                edges := []
                ref_count := 1
                size := 1 }),
          (1, { label := "'unnamed'"
                grad := [.fin 0]
                edges := []
                ref_count := 2
                size := 1 })] } 2 3 [.fin 4]
      = .ok (((TapeState.setNode
          { node_counter := 4
            nodes := [
              (3, { label := "s"
                    grad := []
                    edges := [{ source := 1, weight := [.fin 3] }]
                    ref_count := 1
                    size := 1 }),
              (2, { label := "'unnamed'"
                    grad := [.fin 0]
                    edges := []
                    ref_count := 1
                    size := 1 }),
              (1, { label := "'unnamed'"
                    grad := [.fin 0]
                    edges := []
                    ref_count := 2
                    size := 1 })] } 3
          { label := "s"
            grad := []
            edges := [{ source := 1, weight := [.fin 3] },
                      { source := 2, weight := [.fin 4] }]
            ref_count := 1
            size := 1 }).setNode 2
          { label := "'unnamed'"
            grad := [.fin 0]
            edges := []
            ref_count := 2
            size := 1 })) := by
  exact @claim_C2 3
    { node_counter := 4
      nodes := [
        (3, { label := "s"
              grad := []
              edges := [{ source := 1, weight := [.fin 3] }]
              ref_count := 1
              size := 1 }),
        (2, { label := "'unnamed'"
              grad := [.fin 0]
              edges := []
              ref_count := 1
              size := 1 }),
        (1, { label := "'unnamed'"
              grad := [.fin 0]
              edges := []
              ref_count := 2
              size := 1 })] } 2 3 [.fin 4]
    { label := "'unnamed'"
      grad := [.fin 0]
      edges := []
      ref_count := 1
      size := 1 }
    { label := "s"
      grad := []
      edges := [{ source := 1, weight := [.fin 3] }]
      ref_count := 1
      size := 1 }
    (by rfl) (by rfl) (by decide) (by decide) (by decide) (by decide)

end Enoki

namespace Enoki

/-! ### Gradient preservation of graph construction (for C10) -/

theorem appendEdgeProd_succ (fuel : ℕ) (st : TapeState) (src tgt : Index)
    (w1 w2 : Value) (hsrc : src ≠ 0) :
    appendEdgeProd (fuel + 1) st src tgt w1 w2 =
      (getNode st src >>= fun source => getNode st tgt >>= fun target =>
        if ¬source.hasSpecial ∧ source.size = target.size ∧ 0 < source.degree ∧
            st.contract_edges then
          source.edges.foldlM
            (fun s e => appendEdgeProd fuel s e.source tgt (safe_mul w1 w2) e.weight) st
        else if target.edges.any (fun e => e.source == src) then
          .ok (st.setNode tgt { target with
            edges := mergeWeight target.edges src (safe_fmadd w1 w2) })
        else
          incRef (st.setNode tgt
            (target.appendEdgeRaw { source := src, weight := safe_mul w1 w2 })) src) := by
  conv_lhs => rw [appendEdgeProd]
  rw [if_neg hsrc]

/-- Two tape states with the same stored gradient at every index. -/
def GradsEq (s s' : TapeState) : Prop :=
  ∀ j, (s'.find? j).map Node.grad = (s.find? j).map Node.grad

theorem gradsEq_refl (s : TapeState) : GradsEq s s := fun _ => rfl

theorem gradsEq_trans {a b c : TapeState} (h1 : GradsEq a b) (h2 : GradsEq b c) :
    GradsEq a c := fun j => (h2 j).trans (h1 j)

theorem gradsEq_setNode {st : TapeState} {i : Index} {n m : Node}
    (h : st.find? i = some n) (hg : m.grad = n.grad) :
    GradsEq st (st.setNode i m) := by
  intro j
  by_cases hj : j = i
  · subst hj
    rw [find?_setNode_self h, h]
    simpa using hg
  · rw [find?_setNode_ne _ hj]

theorem gradsEq_incRef {st st' : TapeState} {i : Index}
    (h : incRef st i = .ok st') : GradsEq st st' := by
  unfold incRef at h
  by_cases hi : i = 0
  · rw [if_pos hi] at h
    cases h
    exact gradsEq_refl st
  · rw [if_neg hi] at h
    cases hn : getNode st i with
    | error e => rw [hn] at h; exact Except.noConfusion h
    | ok n =>
      rw [hn] at h
      have h2 : (.ok (st.setNode i { n with ref_count := n.ref_count + 1 })
          : Except Err TapeState) = .ok st' := h
      cases Except.ok.inj h2
      exact gradsEq_setNode (getNode_ok.mp hn) rfl

theorem appendEdgeProd_grads : ∀ (fuel : ℕ) (st : TapeState)
    (src tgt : Index) (w1 w2 : Value) (st' : TapeState),
    appendEdgeProd fuel st src tgt w1 w2 = .ok st' → GradsEq st st' := by
  intro fuel
  induction fuel with
  | zero =>
    intro st src tgt w1 w2 st' h
    exact Except.noConfusion h
  | succ fuel ih =>
    intro st src tgt w1 w2 st' h
    by_cases hsrc : src = 0
    · subst hsrc
      unfold appendEdgeProd at h
      rw [if_pos rfl] at h
      cases h
      exact gradsEq_refl st
    · rw [appendEdgeProd_succ fuel st src tgt w1 w2 hsrc] at h
      cases h1 : getNode st src with
      | error e => rw [h1] at h; exact Except.noConfusion h
      | ok source =>
        rw [h1] at h
        have h2' : (getNode st tgt >>= fun target =>
            (if ¬source.hasSpecial ∧ source.size = target.size ∧
                0 < source.degree ∧ st.contract_edges then
              source.edges.foldlM
                (fun s e => appendEdgeProd fuel s e.source tgt (safe_mul w1 w2) e.weight) st
            else if target.edges.any (fun e => e.source == src) then
              .ok (st.setNode tgt { target with
                edges := mergeWeight target.edges src (safe_fmadd w1 w2) })
            else
              incRef (st.setNode tgt
                (target.appendEdgeRaw { source := src, weight := safe_mul w1 w2 })) src))
            = .ok st' := h
        cases h2 : getNode st tgt with
        | error e => rw [h2] at h2'; exact Except.noConfusion h2'
        | ok target =>
          rw [h2] at h2'
          have h3 : (if ¬source.hasSpecial ∧ source.size = target.size ∧
                0 < source.degree ∧ st.contract_edges then
              source.edges.foldlM
                (fun s e => appendEdgeProd fuel s e.source tgt (safe_mul w1 w2) e.weight) st
            else if target.edges.any (fun e => e.source == src) then
              .ok (st.setNode tgt { target with
                edges := mergeWeight target.edges src (safe_fmadd w1 w2) })
            else
              incRef (st.setNode tgt
                (target.appendEdgeRaw { source := src, weight := safe_mul w1 w2 })) src)
              = .ok st' := h2'
          by_cases hc : ¬source.hasSpecial ∧ source.size = target.size ∧
              0 < source.degree ∧ st.contract_edges
          · rw [if_pos hc] at h3
            exact foldlM_ind (P := GradsEq) gradsEq_refl
              (fun a b c hab hbc => gradsEq_trans hab hbc)
              (fun s e s' hs => ih s e.source tgt (safe_mul w1 w2) e.weight s' hs)
              source.edges st st' h3
          · rw [if_neg hc] at h3
            by_cases hm : target.edges.any (fun e => e.source == src) = true
            · rw [if_pos hm] at h3
              cases Except.ok.inj h3
              exact gradsEq_setNode (getNode_ok.mp h2) rfl
            · rw [if_neg hm] at h3
              exact gradsEq_trans
                (@gradsEq_setNode st tgt target
                  (target.appendEdgeRaw { source := src, weight := safe_mul w1 w2 })
                  (getNode_ok.mp h2) rfl)
                (gradsEq_incRef h3)

theorem appendEdge_grads {fuel : ℕ} {st : TapeState} {src tgt : Index}
    {w : Value} {st' : TapeState}
    (h : appendEdge fuel st src tgt w = .ok st') : GradsEq st st' := by
  unfold appendEdge at h
  by_cases hsrc : src = 0
  · rw [if_pos hsrc] at h
    cases h
    exact gradsEq_refl st
  · rw [if_neg hsrc] at h
    cases h1 : getNode st src with
    | error e => rw [h1] at h; exact Except.noConfusion h
    | ok source =>
      rw [h1] at h
      have h2' : (getNode st tgt >>= fun target =>
          (if ¬source.hasSpecial ∧ source.size = target.size ∧
              0 < source.degree ∧ st.contract_edges then
            source.edges.foldlM
              (fun s e => appendEdgeProd fuel s e.source tgt w e.weight) st
          else if target.edges.any (fun e => e.source == src) then
            .ok (st.setNode tgt { target with
              edges := mergeWeight target.edges src (fun x => addV x w) })
          else
            incRef (st.setNode tgt
              (target.appendEdgeRaw { source := src, weight := w })) src))
          = .ok st' := h
      cases h2 : getNode st tgt with
      | error e => rw [h2] at h2'; exact Except.noConfusion h2'
      | ok target =>
        rw [h2] at h2'
        have h3 : (if ¬source.hasSpecial ∧ source.size = target.size ∧
              0 < source.degree ∧ st.contract_edges then
            source.edges.foldlM
              (fun s e => appendEdgeProd fuel s e.source tgt w e.weight) st
          else if target.edges.any (fun e => e.source == src) then
            .ok (st.setNode tgt { target with
              edges := mergeWeight target.edges src (fun x => addV x w) })
          else
            incRef (st.setNode tgt
              (target.appendEdgeRaw { source := src, weight := w })) src)
            = .ok st' := h2'
        by_cases hc : ¬source.hasSpecial ∧ source.size = target.size ∧
            0 < source.degree ∧ st.contract_edges
        · rw [if_pos hc] at h3
          exact foldlM_ind (P := GradsEq) gradsEq_refl
            (fun a b c hab hbc => gradsEq_trans hab hbc)
            (fun s e s' hs => appendEdgeProd_grads fuel s e.source tgt w e.weight s' hs)
            source.edges st st' h3
        · rw [if_neg hc] at h3
          by_cases hm : target.edges.any (fun e => e.source == src) = true
          · rw [if_pos hm] at h3
            cases Except.ok.inj h3
            exact gradsEq_setNode (getNode_ok.mp h2) rfl
          · rw [if_neg hm] at h3
            exact gradsEq_trans
              (@gradsEq_setNode st tgt target
                (target.appendEdgeRaw { source := src, weight := w })
                (getNode_ok.mp h2) rfl)
              (gradsEq_incRef h3)

theorem find?_cons_self (st : TapeState) (i : Index) (n : Node) (l : List (Index × Node))
    (h : st.nodes = (i, n) :: l) : st.find? i = some n := by
  unfold TapeState.find?
  rw [h, List.find?_cons_of_pos _ (by simp)]
  rfl

end Enoki

namespace Enoki

/-- **C10.**  `append_leaf(size)` initializes the fresh node's grad to
`zero<Value>(size)` at creation, so `gradient(i)` on a fresh leaf returns a
zero value of that shape before any `set_gradient`/`backward`; interior
nodes created by `append` keep the default-constructed grad (the empty
dynamic array) — `append_edge` never touches gradients. -/
theorem claim_C10 :
    (∀ (st : TapeState) (size : ℕ) (idx : Index) (st' : TapeState),
      appendLeaf st size = .ok (idx, st') →
      idx = st.node_counter ∧
      (∃ n, st'.find? idx = some n ∧ n.grad = zeroV size ∧ n.size = size) ∧
      (idx ≠ 0 → gradientOf st' idx = .ok (zeroV size))) ∧
    (∀ (st : TapeState) (label : String) (size : ℕ) (i1 : Index) (w1 : Value)
        (idx : Index) (st' : TapeState),
      append1 st label size i1 w1 = .ok (idx, st') → idx ≠ 0 →
      ∃ n, st'.find? idx = some n ∧ n.grad = ([] : Value)) := by
  constructor
  · intro st size idx st' h
    set node : Node := { label := st.prefixes.foldr (fun p acc => p ++ "/" ++ acc) "'unnamed'", size := size, ref_count := 1 } with hnode
    set st₁ : TapeState := { st with node_counter := st.node_counter + 1, nodes := (st.node_counter, node) :: st.nodes } with hst₁
    have hfind₁ : st₁.find? st.node_counter = some node :=
      find?_cons_self st₁ st.node_counter node st.nodes rfl
    have h' : (getNode st₁ st.node_counter >>= fun n =>
        (.ok (st.node_counter, st₁.setNode st.node_counter { n with grad := zeroV n.size })
          : Except Err (Index × TapeState))) = .ok (idx, st') := h
    rw [getNode_ok.mpr hfind₁] at h'
    have h2 : (.ok (st.node_counter,
        st₁.setNode st.node_counter { node with grad := zeroV node.size })
        : Except Err (Index × TapeState)) = .ok (idx, st') := h'
    have h3 := Except.ok.inj h2
    have hidx : idx = st.node_counter := (congrArg Prod.fst h3).symm
    have hst' : st' = st₁.setNode st.node_counter { node with grad := zeroV node.size } :=
      (congrArg Prod.snd h3).symm
    have hfind' : st'.find? st.node_counter = some { node with grad := zeroV node.size } := by
      rw [hst']
      exact find?_setNode_self hfind₁
    refine ⟨hidx, ⟨{ node with grad := zeroV node.size }, ?_, rfl, rfl⟩, ?_⟩
    · rw [hidx]
      exact hfind'
    · intro h0
      unfold gradientOf
      rw [if_neg h0, hidx, getNode_ok.mpr hfind']
      rfl
  · intro st label size i1 w1 idx st' h h0
    by_cases h1 : i1 = 0
    · have h' : (.ok (0, st) : Except Err (Index × TapeState)) = .ok (idx, st') := by
        rw [show ((.ok (0, st) : Except Err (Index × TapeState)) = .ok (idx, st'))
          = (append1 st label size i1 w1 = .ok (idx, st')) from ?_]
        · exact h
        · unfold append1
          rw [if_pos h1]
      have h2 := Except.ok.inj h'
      exact absurd (congrArg Prod.fst h2).symm h0
    · set node : Node := { label := st.prefixes.foldr (fun p acc => p ++ "/" ++ acc) label, size := size, ref_count := 1 } with hnode
      set st₁ : TapeState := { st with node_counter := st.node_counter + 1, nodes := (st.node_counter, node) :: st.nodes } with hst₁
      have h' : append1 st label size i1 w1 =
          (appendEdge st.node_counter st₁ i1 st.node_counter w1 >>= fun st₂ =>
            (.ok (st.node_counter, st₂) : Except Err (Index × TapeState))) := by
        unfold append1
        rw [if_neg h1]
        rfl
      rw [h'] at h
      cases h3 : appendEdge st.node_counter st₁ i1 st.node_counter w1 with
      | error e => rw [h3] at h; exact Except.noConfusion h
      | ok st₂ =>
        rw [h3] at h
        have h4 := Except.ok.inj h
        have hidx : idx = st.node_counter := (congrArg Prod.fst h4).symm
        have hst' : st' = st₂ := (congrArg Prod.snd h4).symm
        have hge : GradsEq st₁ st₂ := appendEdge_grads h3
        have hfind₁ : st₁.find? st.node_counter = some node :=
          find?_cons_self st₁ st.node_counter node st.nodes rfl
        have hthis := hge st.node_counter
        rw [hfind₁] at hthis
        cases hfd : st₂.find? st.node_counter with
        | none => rw [hfd] at hthis; exact Option.noConfusion hthis
        | some m =>
          rw [hfd] at hthis
          have hg : m.grad = node.grad := Option.some.inj hthis
          refine ⟨m, ?_, hg⟩
          rw [hst', hidx]
          exact hfd

/-- Witness for C10: a leaf of size 2 in the empty tape, and an interior
`append` over it. -/
theorem claim_C10_witness :
    (appendLeaf initTape 2 =
      .ok (1, { node_counter := 2
                nodes := [(1, { label := "'unnamed'"
                                grad := [.fin 0, .fin 0]
                                edges := []
                                ref_count := 1
                                size := 2 })] }) ∧
      (∃ n, TapeState.find?
          { node_counter := 2
            nodes := [(1, { label := "'unnamed'"
                            grad := [.fin 0, .fin 0]
                            edges := []
                            ref_count := 1
                            size := 2 })] } 1 = some n ∧
        n.grad = zeroV 2 ∧ n.size = 2)) ∧
    (∃ n, TapeState.find?
        { node_counter := 3
          nodes := [
            (2, { label := "g"
                  grad := []
                  edges := [{ source := 1, weight := [.fin 4, .fin 5] }]
                  ref_count := 1
                  size := 2 }),
            (1, { label := "'unnamed'"
                  grad := [.fin 0, .fin 0]
                  edges := []
                  ref_count := 2
                  size := 2 })] } 2 = some n ∧ n.grad = ([] : Value)) := by
  refine ⟨⟨by rfl, ?_⟩, ?_⟩
  · exact (claim_C10.1 initTape 2 1 _ (by rfl)).2.1
  · exact claim_C10.2
      { node_counter := 2
        nodes := [(1, { label := "'unnamed'"
                        grad := [.fin 0, .fin 0]
                        edges := []
                        ref_count := 1
                        size := 2 })] } "g" 2 1 [.fin 4, .fin 5] 2 _ (by rfl)
      (by decide)

end Enoki

namespace Enoki

/-! ### C7: `dec_ref` / `free_node` -/

theorem decRef_zero (fuel : ℕ) (st : TapeState) : decRef fuel st 0 = .ok st := by
  rw [decRef]

theorem decRef_succ_found {fuel : ℕ} {st : TapeState} {i : Index} {n : Node}
    (hi : i ≠ 0) (hf : st.find? i = some n) :
    decRef (fuel + 1) st i =
      (if n.ref_count = 0 then .error (.useAfterFree i)
       else
        if n.ref_count - 1 = 0 then
          freeNode fuel (st.setNode i { n with ref_count := n.ref_count - 1 }) i
        else .ok (st.setNode i { n with ref_count := n.ref_count - 1 })) := by
  rw [decRef]
  · rw [hf]
    rfl
  · exact fun e => hi e

theorem freeNode_found {fuel : ℕ} {st : TapeState} {i : Index} {n : Node}
    (hf : st.find? i = some n) :
    freeNode fuel st i =
      (n.edges.foldlM (fun s e => decRef fuel s e.source) st) >>= fun s =>
        .ok (s.eraseNode i) := by
  rw [freeNode, hf]

/-- **C7.**  `dec_ref(i)` is a no-op for `i = 0`; for `i ≠ 0` it fails with
`UseAfterFree` when the node's reference count is already zero; otherwise it
decrements the count and, on transition to zero, invokes `free_node(i)`,
which calls `dec_ref(edge.source)` on every edge of the node's list (with
the cascade recursing into freed sources) and then erases `i` from the
store. -/
theorem claim_C7 :
    (∀ (fuel : ℕ) (st : TapeState), decRef fuel st 0 = .ok st) ∧
    (∀ (fuel : ℕ) (st : TapeState) (i : Index) (n : Node),
      st.find? i = some n → i ≠ 0 →
      ((n.ref_count = 0 → decRef (fuel + 1) st i = .error (.useAfterFree i)) ∧
       (n.ref_count ≠ 0 →
         decRef (fuel + 1) st i =
           (if n.ref_count - 1 = 0 then
             freeNode fuel (st.setNode i { n with ref_count := n.ref_count - 1 }) i
            else .ok (st.setNode i { n with ref_count := n.ref_count - 1 }))))) ∧
    (∀ (fuel : ℕ) (st : TapeState) (i : Index) (n : Node),
      st.find? i = some n →
      freeNode fuel st i =
        (n.edges.foldlM (fun s e => decRef fuel s e.source) st) >>= fun s =>
          .ok (s.eraseNode i)) := by
  refine ⟨decRef_zero, ?_, ?_⟩
  · intro fuel st i n hf hi
    rw [decRef_succ_found hi hf]
    constructor
    · intro h0
      rw [if_pos h0]
    · intro h0
      rw [if_neg h0]
  · intro fuel st i n hf
    rw [freeNode_found hf]

/-- Concrete state for the C7 witness: node 2 (externally held once) owns
an edge to node 1 (held only by that edge); node 9 has a zero count. -/
def c7St : TapeState :=
  { node_counter := 10
    nodes := [
      (9, { label := "z", grad := [], edges := [], ref_count := 0, size := 1 }),
      (2, { label := "b"
            grad := []
            edges := [{ source := 1, weight := [.fin 2] }]
            ref_count := 1
            size := 1 }),
      (1, { label := "a", grad := [], edges := [], ref_count := 1, size := 1 })] }

/-- Witness for C7: `dec_ref(0)` is a no-op; `dec_ref(9)` fails with
`UseAfterFree`; `dec_ref(2)` transitions to zero and cascades through
`free_node`, freeing node 1 as well, leaving only node 9 in the store. -/
theorem claim_C7_witness :
    decRef 3 c7St 0 = .ok c7St ∧
    decRef 3 c7St 9 = .error (.useAfterFree 9) ∧
    decRef 3 c7St 2 =
      (if (1 : ℕ) - 1 = 0 then
        freeNode 2 (c7St.setNode 2
          { label := "b"
            grad := []
            edges := [{ source := 1, weight := [.fin 2] }]
            ref_count := 0
            size := 1 }) 2
       else .ok (c7St.setNode 2
          { label := "b"
            grad := []
            edges := [{ source := 1, weight := [.fin 2] }]
            ref_count := 0
            size := 1 })) ∧
    decRef 3 c7St 2 = .ok { c7St with
      nodes := [(9, { label := "z", grad := [], edges := [], ref_count := 0, size := 1 })] } := by
  refine ⟨claim_C7.1 3 c7St, ?_, ?_, by rfl⟩
  · exact (claim_C7.2.1 2 c7St 9
      { label := "z", grad := [], edges := [], ref_count := 0, size := 1 }
      (by rfl) (by decide)).1 rfl
  · exact (claim_C7.2.1 2 c7St 2
      { label := "b"
        grad := []
        edges := [{ source := 1, weight := [.fin 2] }]
        ref_count := 1
        size := 1 }
      (by rfl) (by decide)).2 (by decide)

end Enoki

namespace Enoki

/-! ### C9: `graphviz` and the scheduled set -/

theorem dfs_false_nodes : ∀ (fuel : ℕ) (k : Index) (st st' : TapeState),
    dfs fuel k false st = .ok st' → st'.nodes = st.nodes := by
  intro fuel
  induction fuel with
  | zero =>
    intro k st st' h
    exact Except.noConfusion h
  | succ fuel ih =>
    intro k st st' h
    by_cases hk : k ∈ st.scheduled
    · rw [dfs_mem_noop hk] at h
      cases h
      rfl
    · rw [dfs_succ_not_mem hk] at h
      set st₁ : TapeState := { st with scheduled := sinsert k st.scheduled } with hst₁
      cases hn : getNode st₁ k with
      | error e => rw [hn] at h; exact Except.noConfusion h
      | ok n =>
        rw [hn] at h
        have h' : n.edges.foldlM (fun s e => dfs fuel e.source false s) st₁
            = .ok st' := h
        have : st'.nodes = st₁.nodes := by
          refine foldlM_ind (P := fun (a b : TapeState) => b.nodes = a.nodes) (fun _ => rfl)
            (fun (a b c : TapeState) hab hbc => hbc.trans hab) ?_ n.edges st₁ st' h'
          intro s e s' hs
          exact ih e.source s s' hs
        exact this

/-- **C9.**  `Tape::graphviz` runs its DFS (with `clear_grad = false`, so no
grad is touched) into the *same* `scheduled` set that `set_gradient`
populates and `backward` consumes, and unconditionally clears that set
before returning.  Hence after a successful `graphviz` call the scheduled
set is empty, the node store (gradients included) is exactly as before, and
a subsequent `backward` — with or without `free_graph` — processes no nodes
and leaves the state unchanged. -/
theorem claim_C9 {st st' : TapeState} {roots : List Index}
    (h : graphvizState st roots = .ok st') :
    st'.scheduled = [] ∧ st'.nodes = st.nodes ∧
    (∀ fg, backward st' fg = .ok st') := by
  unfold graphvizState at h
  cases hf : roots.foldlM (fun s i => dfs (i + 1) i false s) st with
  | error e => rw [hf] at h; exact Except.noConfusion h
  | ok st₁ =>
    rw [hf] at h
    have h2 : (.ok { st₁ with scheduled := [] } : Except Err TapeState) = .ok st' := h
    cases Except.ok.inj h2
    have hnodes : st₁.nodes = st.nodes := by
      refine foldlM_ind (P := fun (a b : TapeState) => b.nodes = a.nodes) (fun _ => rfl)
        (fun (a b c : TapeState) hab hbc => hbc.trans hab) ?_ roots st st₁ hf
      intro s i s' hs
      exact dfs_false_nodes (i + 1) i s s' hs
    refine ⟨rfl, hnodes, ?_⟩
    intro fg
    cases fg <;> rfl

/-- Concrete state for the C9 witness: two nodes with pending scheduled ids
`[1, 2]`, as left by `set_gradient`. -/
def c9Pre : TapeState :=
  { node_counter := 3
    nodes := [
      (2, { label := "f"
            grad := [.fin 7]
            edges := [{ source := 1, weight := [.fin 2] }]
            ref_count := 1
            size := 1 }),
      (1, { label := "'unnamed'"
            grad := [.fin 5]
            edges := []
            ref_count := 2
            size := 1 })]
    scheduled := [1, 2] }

/-- Witness for C9: `graphviz([2])` on a state with pending scheduled ids
empties the scheduled set, leaves every node (and grad) as it was, and the
following `backward` is a no-op. -/
theorem claim_C9_witness :
    graphvizState c9Pre [2] = .ok { c9Pre with scheduled := [] } ∧
    ({ c9Pre with scheduled := [] } : TapeState).nodes = c9Pre.nodes ∧
    backward { c9Pre with scheduled := [] } false
      = .ok { c9Pre with scheduled := [] } := by
  have h : graphvizState c9Pre [2] = .ok { c9Pre with scheduled := [] } := by rfl
  exact ⟨h, (claim_C9 h).2.1, (claim_C9 h).2.2 false⟩

end Enoki

namespace Enoki

/-! ### C8: `append_scatter` with an existing differentiable buffer -/

theorem getD_replicate_lt {α : Type} (j n : ℕ) (a d : α) (h : j < n) :
    (List.replicate n a).getD j d = a := by
  rw [List.getD_eq_getElem _ _ (by simpa using h), List.getElem_replicate]

theorem scatter_fold_single (c : FP) (buf : Value) (offset : Offsets)
    (mask : Mask) (j : ℕ) (hj : j < buf.length) :
    ∀ n : ℕ,
      (((List.range n).foldl
          (fun b k => if mask.getD k false then b.set (offset.getD k 0) c else b)
          buf).getD j .nan =
        (if (List.range n).any
            (fun k => mask.getD k false && (offset.getD k 0 == j))
         then c else buf.getD j .nan)) ∧
      ((List.range n).foldl
          (fun b k => if mask.getD k false then b.set (offset.getD k 0) c else b)
          buf).length = buf.length := by
  intro n
  induction n with
  | zero => exact ⟨rfl, rfl⟩
  | succ n ih =>
    obtain ⟨ihg, ihl⟩ := ih
    rw [List.range_succ, List.foldl_append, List.any_append]
    simp only [List.foldl_cons, List.foldl_nil, List.any_cons, List.any_nil,
      Bool.or_false]
    set B : Value := (List.range n).foldl
      (fun b k => if mask.getD k false then b.set (offset.getD k 0) c else b) buf
      with hB
    by_cases hm : mask.getD n false
    · rw [if_pos (by exact hm), hm, Bool.true_and]
      constructor
      · have hjB : j < (B.set (offset.getD n 0) c).length := by
          rw [List.length_set, ihl]; exact hj
        rw [List.getD_eq_getElem _ _ hjB, List.getElem_set]
        by_cases hp : offset.getD n 0 = j
        · rw [if_pos hp]
          have : (offset.getD n 0 == j) = true := by simpa using hp
          rw [this, Bool.or_true, if_pos rfl]
        · rw [if_neg hp]
          have : (offset.getD n 0 == j) = false := by simpa using hp
          rw [this, Bool.or_false]
          have hjB' : j < B.length := by rw [ihl]; exact hj
          rw [← List.getD_eq_getElem _ (.nan) hjB']
          exact ihg
      · rw [List.length_set, ihl]
    · have hm' : mask.getD n false = false := by simpa using hm
      rw [if_neg hm, hm', Bool.false_and, Bool.or_false]
      exact ⟨ihg, ihl⟩

theorem scatterV_single_getD (c : FP) (buf : Value) (offset : Offsets)
    (mask : Mask) (j : ℕ) (hj : j < buf.length) :
    (scatterV buf [c] offset mask).getD j .nan =
      (if (List.range offset.length).any
          (fun k => mask.getD k false && (offset.getD k 0 == j))
       then c else buf.getD j .nan) := by
  have key := (scatter_fold_single c buf offset mask j hj offset.length).1
  have heq : scatterV buf [c] offset mask =
      (List.range offset.length).foldl
        (fun b k => if mask.getD k false then b.set (offset.getD k 0) c else b)
        buf := rfl
  rw [heq]
  exact key

end Enoki

namespace Enoki

/-- **C8.**  `append_scatter` on a context whose slot holds a nonzero buffer
id `t_orig`.  The tape state is a representative store — buffer node 2
(`t_orig`) and source node 1, both leaves of the context size — while the
offsets, mask, permute flag, labels, gradients, reference counts, schedule
and the `contract_edges` toggle are all universally quantified.  The run
creates the `"scatter"` node 3 (special pull-back edge from the source) and
the `"scatter_combine"` node 4 with parents `(3, 2)` — i.e. `(t_new,
t_orig)` — and weights `(1, mask_weight)`; `mask_weight` is `1` when
`permute` and otherwise `full(1, ctx_size)` with zeros scattered at the
masked positions; afterwards the internal references to `t_new` and the old
`t_orig` are dropped (node 3 ends at ref count 1, node 2 back at its
original count) and the context slot holds the combined id 4. -/
theorem claim_C8 (offset : Offsets) (mask : Mask) (perm : Bool)
    (sched : List Index) (lo ls : String) (go gs : Value) (ro rs : ℕ)
    (ce : Bool) :
    (appendScatter
      { node_counter := 3
        nodes := [
          (2, { label := lo, grad := go, edges := [], ref_count := ro + 1, size := 4 }),
          (1, { label := ls, grad := gs, edges := [], ref_count := rs, size := 4 })]
        scheduled := sched
        sgSlot := some 2
        sgSize := 4
        sgPermute := perm
        contract_edges := ce } 1 offset mask
    = .ok
      { node_counter := 5
        nodes := [
          (4, { label := "scatter_combine"
                grad := []
                edges := [{ source := 3, weight := [.fin 1] },
                          { source := 2,
                            weight := if perm then [.fin 1]
                              else scatterV (fullV (.fin 1) 4) [.fin 0] offset mask }]
                ref_count := 1
                size := 4 }),
          (3, { label := "scatter"
                grad := []
                edges := [{ source := 1, weight := [],
                            special := some (.scat offset mask) }]
                ref_count := 1
                size := 4 }),
          (2, { label := lo, grad := go, edges := [], ref_count := ro + 1, size := 4 }),
          (1, { label := ls, grad := gs, edges := [], ref_count := rs + 1, size := 4 })]
        scheduled := sched
        sgSlot := some 4
        sgSize := 4
        sgPermute := perm
        contract_edges := ce }) ∧
    (perm = true → (if perm then ([.fin 1] : Value)
        else scatterV (fullV (.fin 1) 4) [.fin 0] offset mask) = [.fin 1]) ∧
    (perm = false → ∀ j : ℕ, j < 4 →
      (if perm then ([.fin 1] : Value)
        else scatterV (fullV (.fin 1) 4) [.fin 0] offset mask).getD j .nan =
      (if (List.range offset.length).any
          (fun k => mask.getD k false && (offset.getD k 0 == j))
       then .fin 0 else .fin 1)) := by
  refine ⟨rfl, ?_, ?_⟩
  · intro hp
    rw [if_pos hp]
  · intro hp j hj
    rw [if_neg (by rw [hp]; exact Bool.false_ne_true)]
    rw [scatterV_single_getD (.fin 0) (fullV (.fin 1) 4) offset mask j
      (by simpa [fullV] using hj)]
    by_cases hs : (List.range offset.length).any
        (fun k => mask.getD k false && (offset.getD k 0 == j)) = true
    · rw [if_pos hs, if_pos hs]
    · rw [if_neg hs, if_neg hs]
      exact getD_replicate_lt j 4 (FP.fin 1) FP.nan hj

/-- Witness for C8: concrete non-permuting scatter at offsets `[1, 3]` with
mask `[true, false]` — position 1 of the mask weight is zeroed, position 3
stays 1 because its mask lane is off. -/
theorem claim_C8_witness :
    (appendScatter
      { node_counter := 3
        nodes := [
          (2, { label := "buf", grad := [], edges := [], ref_count := 1, size := 4 }),
          (1, { label := "src", grad := [], edges := [], ref_count := 1, size := 4 })]
        sgSlot := some 2
        sgSize := 4
        sgPermute := false } 1 [1, 3] [true, false]
    = .ok
      { node_counter := 5
        nodes := [
          (4, { label := "scatter_combine"
                grad := []
                edges := [{ source := 3, weight := [.fin 1] },
                          { source := 2,
                            weight := if false then [.fin 1]
                              else scatterV (fullV (.fin 1) 4) [.fin 0] [1, 3]
                                [true, false] }]
                ref_count := 1
                size := 4 }),
          (3, { label := "scatter"
                grad := []
                edges := [{ source := 1, weight := [],
                            special := some (.scat [1, 3] [true, false]) }]
                ref_count := 1
                size := 4 }),
          (2, { label := "buf", grad := [], edges := [], ref_count := 1, size := 4 }),
          (1, { label := "src", grad := [], edges := [], ref_count := 2, size := 4 })]
        sgSlot := some 4
        sgSize := 4
        sgPermute := false }) ∧
    (if false then ([.fin 1] : Value)
      else scatterV (fullV (.fin 1) 4) [.fin 0] [1, 3] [true, false]).getD 1 .nan
      = .fin 0 ∧
    (if false then ([.fin 1] : Value)
      else scatterV (fullV (.fin 1) 4) [.fin 0] [1, 3] [true, false]).getD 3 .nan
      = .fin 1 := by
  have h := claim_C8 [1, 3] [true, false] false [] "buf" "src" [] [] 0 1 true
  refine ⟨h.1, ?_, ?_⟩
  · rw [(h.2.2 rfl 1 (by decide))]
    decide
  · rw [(h.2.2 rfl 3 (by decide))]
    decide

end Enoki

namespace Enoki

/-! ### C3: the reverse sweep -/

theorem sinsert_sorted {k : Index} {l : List Index}
    (h : List.Sorted (· < ·) l) : List.Sorted (· < ·) (sinsert k l) := by
  induction l with
  | nil => simp [sinsert]
  | cons x xs ih =>
    obtain ⟨hx, hxs⟩ := List.sorted_cons.mp h
    unfold sinsert
    by_cases h1 : k < x
    · rw [if_pos h1]
      exact List.sorted_cons.mpr ⟨fun b hb => by
        rcases List.mem_cons.mp hb with rfl | hb
        · exact h1
        · exact h1.trans (hx b hb), h⟩
    · by_cases h2 : k = x
      · rw [if_neg h1, if_pos h2]
        exact h
      · rw [if_neg h1, if_neg h2]
        refine List.sorted_cons.mpr ⟨fun b hb => ?_, ih hxs⟩
        rcases (mem_sinsert_iff b k xs).mp hb with rfl | hb
        · exact lt_of_le_of_ne (Nat.le_of_not_lt h1) (Ne.symm h2)
        · exact hx b hb

/-- A version of `foldlM_ind` whose step hypothesis only covers the
elements of the list. -/
theorem foldlM_ind_mem {σ α : Type} {step : σ → α → Except Err σ}
    {P : σ → σ → Prop} (l : List α)
    (hrefl : ∀ s, P s s)
    (htrans : ∀ a b c, P a b → P b c → P a c)
    (hstep : ∀ s a s', a ∈ l → step s a = .ok s' → P s s') :
    ∀ (s s' : σ), l.foldlM step s = .ok s' → P s s' := by
  induction l with
  | nil =>
    intro s s' h
    rw [List.foldlM_nil] at h
    cases h
    exact hrefl s
  | cons a l ih =>
    intro s s' h
    rw [List.foldlM_cons] at h
    cases hs : step s a with
    | error e => rw [hs] at h; exact Except.noConfusion h
    | ok s₁ =>
      rw [hs] at h
      exact htrans _ _ _ (hstep s a s₁ (List.mem_cons_self a l) hs)
        (ih (fun s a s' ha => hstep s a s' (List.mem_cons_of_mem _ ha)) s₁ s' h)

theorem dfs_sorted : ∀ (fuel : ℕ) (k : Index) (c : Bool) (st st' : TapeState),
    dfs fuel k c st = .ok st' → List.Sorted (· < ·) st.scheduled →
    List.Sorted (· < ·) st'.scheduled := by
  intro fuel
  induction fuel with
  | zero =>
    intro k c st st' h
    exact Except.noConfusion h
  | succ fuel ih =>
    intro k c st st' h hs
    by_cases hk : k ∈ st.scheduled
    · rw [dfs_mem_noop hk] at h
      cases h
      exact hs
    · rw [dfs_succ_not_mem hk] at h
      set st₁ : TapeState := { st with scheduled := sinsert k st.scheduled } with hst₁
      cases hn : getNode st₁ k with
      | error e => rw [hn] at h; exact Except.noConfusion h
      | ok n =>
        rw [hn] at h
        have h' : n.edges.foldlM (fun s e => dfs fuel e.source c s)
            (if c then st₁.setNode k { n with grad := zeroV n.size } else st₁)
            = .ok st' := h
        have hs₂ : List.Sorted (· < ·)
            (if c then st₁.setNode k { n with grad := zeroV n.size } else st₁).scheduled := by
          cases c
          · exact sinsert_sorted hs
          · exact sinsert_sorted hs
        refine foldlM_ind (P := fun (a b : TapeState) =>
            List.Sorted (· < ·) a.scheduled → List.Sorted (· < ·) b.scheduled)
          (fun _ hp => hp) (fun a b c hab hbc hp => hbc (hab hp)) ?_
          n.edges _ st' h' hs₂
        intro s e s' hsx
        exact fun hp => ih e.source c s s' hsx hp

/-- `compute_gradients` only writes the gradient of the edge's source. -/
theorem computeGradients_frame {st st' : TapeState} {sp : Special}
    {tgt : Index} {e : Edge} (h : computeGradients st sp tgt e = .ok st') :
    ∀ j, j ≠ e.source → st'.find? j = st.find? j := by
  unfold computeGradients at h
  cases htn : getNode st tgt with
  | error er => rw [htn] at h; exact Except.noConfusion h
  | ok tn =>
    rw [htn] at h
    cases hsn : getNode st e.source with
    | error er =>
      rw [hsn] at h
      cases sp <;> exact Except.noConfusion h
    | ok sn =>
      rw [hsn] at h
      cases sp with
      | gather offset mask size permute =>
        have h2 : (.ok (st.setNode e.source { sn with
            grad := if permute then scatterV sn.grad tn.grad offset mask
                    else scatterAddV sn.grad tn.grad offset mask })
            : Except Err TapeState) = .ok st' := h
        cases Except.ok.inj h2
        intro j hj
        exact find?_setNode_ne _ hj
      | scat offset mask =>
        have h2 : (.ok (st.setNode e.source { sn with
            grad := addV sn.grad (gatherV tn.grad offset mask) })
            : Except Err TapeState) = .ok st' := h
        cases Except.ok.inj h2
        intro j hj
        exact find?_setNode_ne _ hj

/-- Two tape states storing the same edge lists (and the same keys). -/
def EdgesEq (s s' : TapeState) : Prop :=
  ∀ j, (s'.find? j).map Node.edges = (s.find? j).map Node.edges

theorem edgesEq_refl (s : TapeState) : EdgesEq s s := fun _ => rfl

theorem edgesEq_trans {a b c : TapeState} (h1 : EdgesEq a b) (h2 : EdgesEq b c) :
    EdgesEq a c := fun j => (h2 j).trans (h1 j)

theorem edgesEq_setNode {st : TapeState} {i : Index} {n m : Node}
    (h : st.find? i = some n) (hg : m.edges = n.edges) :
    EdgesEq st (st.setNode i m) := by
  intro j
  by_cases hj : j = i
  · subst hj
    rw [find?_setNode_self h, h]
    simpa using hg
  · rw [find?_setNode_ne _ hj]

end Enoki

namespace Enoki

/-- The per-edge body of the reverse sweep's edge loop (the loop of
`Tape::backward`, lines 666-686), factored out of `processTarget` for the
lemmas below; `processTarget_eq` checks the factoring is definitional. -/
def edgeStep (fuel : ℕ) (free_graph : Bool) (tgt : Index)
    (s : TapeState) (e : Edge) : Except Err TapeState := do
  match e.special with
  | none => do
    let tn ← getNode s tgt
    let source ← getNode s e.source
    let s := s.setNode e.source
      { source with grad := safe_fmadd e.weight tn.grad source.grad }
    if free_graph then decRef fuel s e.source else .ok s
  | some sp => do
    let s ← computeGradients s sp tgt e
    if free_graph then decRef fuel s e.source else .ok s

theorem processTarget_eq (fuel : ℕ) (st : TapeState) (free_graph : Bool)
    (tgt : Index) : processTarget fuel st free_graph tgt =
    (do
      let target ← getNode st tgt
      let st ← .ok (if target.is_scalar ∧ target.grad.length ≠ 1 then
          st.setNode tgt { target with grad := hsumV target.grad } else st)
      let target ← getNode st tgt
      let st ← target.edges.foldlM (edgeStep fuel free_graph tgt) st
      if free_graph then do
        let tn ← getNode st tgt
        let st := st.setNode tgt { tn with edges := [] }
        decRef fuel st tgt
      else .ok st) := rfl

end Enoki

namespace Enoki

theorem computeGradients_edgesEq {st st' : TapeState} {sp : Special}
    {tgt : Index} {e : Edge} (h : computeGradients st sp tgt e = .ok st') :
    EdgesEq st st' := by
  unfold computeGradients at h
  cases htn : getNode st tgt with
  | error er => rw [htn] at h; exact Except.noConfusion h
  | ok tn =>
    rw [htn] at h
    cases hsn : getNode st e.source with
    | error er =>
      rw [hsn] at h
      cases sp <;> exact Except.noConfusion h
    | ok sn =>
      rw [hsn] at h
      cases sp with
      | gather offset mask size permute =>
        have h2 : (.ok (st.setNode e.source { sn with
            grad := if permute then scatterV sn.grad tn.grad offset mask
                    else scatterAddV sn.grad tn.grad offset mask })
            : Except Err TapeState) = .ok st' := h
        cases Except.ok.inj h2
        exact edgesEq_setNode (getNode_ok.mp hsn) rfl
      | scat offset mask =>
        have h2 : (.ok (st.setNode e.source { sn with
            grad := addV sn.grad (gatherV tn.grad offset mask) })
            : Except Err TapeState) = .ok st' := h
        cases Except.ok.inj h2
        exact edgesEq_setNode (getNode_ok.mp hsn) rfl

theorem edgeStep_false_frame {fuel : ℕ} {tgt : Index} {s s' : TapeState}
    {e : Edge} (h : edgeStep fuel false tgt s e = .ok s') :
    ∀ j, j ≠ e.source → s'.find? j = s.find? j := by
  unfold edgeStep at h
  cases hsp : e.special with
  | none =>
    rw [hsp] at h
    cases htn : getNode s tgt with
    | error er => rw [htn] at h; exact Except.noConfusion h
    | ok tn =>
      rw [htn] at h
      cases hsn : getNode s e.source with
      | error er => rw [hsn] at h; exact Except.noConfusion h
      | ok sn =>
        rw [hsn] at h
        have h2 : (.ok (s.setNode e.source { sn with
            grad := safe_fmadd e.weight tn.grad sn.grad })
            : Except Err TapeState) = .ok s' := h
        cases Except.ok.inj h2
        intro j hj
        exact find?_setNode_ne _ hj
  | some sp =>
    rw [hsp] at h
    have h1 : (computeGradients s sp tgt e).bind
        (fun s₁ => if false then decRef fuel s₁ e.source else .ok s₁)
        = .ok s' := h
    cases hcg : computeGradients s sp tgt e with
    | error er => rw [hcg] at h1; exact Except.noConfusion h1
    | ok s₁ =>
      rw [hcg] at h1
      have h2 : (.ok s₁ : Except Err TapeState) = .ok s' := h1
      cases Except.ok.inj h2
      exact computeGradients_frame hcg

theorem edgeStep_false_edgesEq {fuel : ℕ} {tgt : Index} {s s' : TapeState}
    {e : Edge} (h : edgeStep fuel false tgt s e = .ok s') :
    EdgesEq s s' := by
  unfold edgeStep at h
  cases hsp : e.special with
  | none =>
    rw [hsp] at h
    cases htn : getNode s tgt with
    | error er => rw [htn] at h; exact Except.noConfusion h
    | ok tn =>
      rw [htn] at h
      cases hsn : getNode s e.source with
      | error er => rw [hsn] at h; exact Except.noConfusion h
      | ok sn =>
        rw [hsn] at h
        have h2 : (.ok (s.setNode e.source { sn with
            grad := safe_fmadd e.weight tn.grad sn.grad })
            : Except Err TapeState) = .ok s' := h
        cases Except.ok.inj h2
        exact edgesEq_setNode (getNode_ok.mp hsn) rfl
  | some sp =>
    rw [hsp] at h
    have h1 : (computeGradients s sp tgt e).bind
        (fun s₁ => if false then decRef fuel s₁ e.source else .ok s₁)
        = .ok s' := h
    cases hcg : computeGradients s sp tgt e with
    | error er => rw [hcg] at h1; exact Except.noConfusion h1
    | ok s₁ =>
      rw [hcg] at h1
      have h2 : (.ok s₁ : Except Err TapeState) = .ok s' := h1
      cases Except.ok.inj h2
      exact computeGradients_edgesEq hcg

/-- A pointwise (non-special) edge step performs exactly one `safe_fmadd`
write into the source's gradient. -/
theorem edgeStep_false_none_char {fuel : ℕ} {tgt : Index} {s s' : TapeState}
    {e : Edge} {tn : Node} (h : edgeStep fuel false tgt s e = .ok s')
    (hsp : e.special = none) (htn : s.find? tgt = some tn) :
    ∃ sn, s.find? e.source = some sn ∧
      s'.find? e.source = some { sn with
        grad := safe_fmadd e.weight tn.grad sn.grad } := by
  unfold edgeStep at h
  rw [hsp] at h
  rw [getNode_ok.mpr htn] at h
  cases hsn : getNode s e.source with
  | error er => rw [hsn] at h; exact Except.noConfusion h
  | ok sn =>
    rw [hsn] at h
    have h2 : (.ok (s.setNode e.source { sn with
        grad := safe_fmadd e.weight tn.grad sn.grad })
        : Except Err TapeState) = .ok s' := h
    cases Except.ok.inj h2
    exact ⟨sn, getNode_ok.mp hsn, find?_setNode_self (getNode_ok.mp hsn)⟩

theorem edgeFold_false_frame {fuel : ℕ} {tgt : Index} {es : List Edge}
    {s s' : TapeState}
    (h : es.foldlM (edgeStep fuel false tgt) s = .ok s')
    (j : Index) (hj : ∀ e ∈ es, j ≠ e.source) :
    s'.find? j = s.find? j := by
  refine foldlM_ind_mem (P := fun (a b : TapeState) => b.find? j = a.find? j)
    es (fun _ => rfl) (fun a b c hab hbc => hbc.trans hab) ?_ s s' h
  intro s a s' ha hs
  exact edgeStep_false_frame hs j (hj a ha)

theorem edgeFold_false_edgesEq {fuel : ℕ} {tgt : Index} {es : List Edge}
    {s s' : TapeState}
    (h : es.foldlM (edgeStep fuel false tgt) s = .ok s') :
    EdgesEq s s' := by
  refine foldlM_ind_mem (P := EdgesEq)
    es edgesEq_refl (fun a b c => edgesEq_trans) ?_ s s' h
  intro s a s' _ hs
  exact edgeStep_false_edgesEq hs

/-- Running the edge loop with `free_graph = false` over edges with
pairwise-distinct sources, all strictly below the target: every non-special
edge's source ends with `safe_fmadd(weight, grad[target], grad[source])`
computed from the pre-loop gradients. -/
theorem edgeFold_false_char (fuel : ℕ) (tgt : Index) :
    ∀ (es : List Edge) (s s' : TapeState) (tn : Node),
    s.find? tgt = some tn →
    (∀ e ∈ es, e.source < tgt) →
    List.Pairwise (fun e f => e.source ≠ f.source) es →
    es.foldlM (edgeStep fuel false tgt) s = .ok s' →
    ∀ e ∈ es, e.special = none →
      ∃ sn, s.find? e.source = some sn ∧
        s'.find? e.source = some { sn with
          grad := safe_fmadd e.weight tn.grad sn.grad } := by
  intro es
  induction es with
  | nil =>
    intro s s' tn _ _ _ _ e he
    exact absurd he (List.not_mem_nil e)
  | cons e es ih =>
    intro s s' tn htn hlt hp h
    rw [List.foldlM_cons] at h
    cases hs : edgeStep fuel false tgt s e with
    | error er => rw [hs] at h; exact Except.noConfusion h
    | ok s₁ =>
      rw [hs] at h
      have hframe1 : ∀ j, j ≠ e.source → s₁.find? j = s.find? j :=
        edgeStep_false_frame hs
      have htn₁ : s₁.find? tgt = some tn := by
        rw [hframe1 tgt (Nat.ne_of_gt (hlt e (List.mem_cons_self e es)))]
        exact htn
      obtain ⟨hpe, hpes⟩ := List.pairwise_cons.mp hp
      intro f hf hsp
      rcases List.mem_cons.mp hf with rfl | hf'
      · obtain ⟨sn, hsn, hs₁⟩ := edgeStep_false_none_char hs hsp htn
        refine ⟨sn, hsn, ?_⟩
        rw [edgeFold_false_frame h f.source (fun g hg => hpe g hg), hs₁]
      · obtain ⟨sn, hsn₁, hres⟩ := ih s₁ s' tn htn₁
          (fun g hg => hlt g (List.mem_cons_of_mem e hg)) hpes h f hf' hsp
        refine ⟨sn, ?_, hres⟩
        rw [← hframe1 f.source (fun hc => hpe f hf' hc.symm)]
        exact hsn₁

end Enoki

namespace Enoki

/-- A strictly reverse-topological store: every stored edge points at a
strictly smaller id than the node holding it. -/
def EdgeInv (st : TapeState) : Prop :=
  ∀ u n, st.find? u = some n → ∀ e ∈ n.edges, e.source < u

theorem EdgeInv.of_edgesEq {s s' : TapeState} (h : EdgeInv s)
    (he : EdgesEq s s') : EdgeInv s' := by
  intro u n' hn' e hee
  have hm := he u
  rw [hn'] at hm
  cases hs : s.find? u with
  | none => rw [hs] at hm; exact Option.noConfusion hm
  | some m =>
    rw [hs] at hm
    have hedges : n'.edges = m.edges := Option.some.inj hm
    exact h u m hs e (hedges ▸ hee)

theorem sorted_reverse_gt {l : List Index} (h : List.Sorted (· < ·) l) :
    List.Sorted (· > ·) l.reverse :=
  List.pairwise_reverse.mpr (h.imp fun hab => hab)

/-- One reverse-sweep step with `free_graph = false`: the target's grad is
collapsed by horizontal sum exactly when the node is scalar-shaped with a
non-singleton grad, and each non-special edge deposits
`safe_fmadd(weight, grad[target], grad[source])` into its source. -/
theorem processTarget_false_char {fuel : ℕ} {st st' : TapeState} {tgt : Index}
    {n : Node} (hn : st.find? tgt = some n)
    (hlt : ∀ e ∈ n.edges, e.source < tgt)
    (hp : List.Pairwise (fun e f => e.source ≠ f.source) n.edges)
    (h : processTarget fuel st false tgt = .ok st') :
    st'.find? tgt = some { n with grad :=
        if n.is_scalar ∧ n.grad.length ≠ 1 then hsumV n.grad else n.grad } ∧
    ∀ e ∈ n.edges, e.special = none →
      ∃ sn, st.find? e.source = some sn ∧
        st'.find? e.source = some
          { sn with grad := safe_fmadd e.weight (if n.is_scalar ∧
                n.grad.length ≠ 1 then hsumV n.grad else n.grad) sn.grad } := by
  rw [processTarget_eq, getNode_ok.mpr hn] at h
  set g : Value := if n.is_scalar ∧ n.grad.length ≠ 1 then hsumV n.grad
    else n.grad with hg
  set st₀ : TapeState := if n.is_scalar ∧ n.grad.length ≠ 1 then
      st.setNode tgt { n with grad := hsumV n.grad } else st with hst₀
  have h0tgt : st₀.find? tgt = some { n with grad := g } := by
    rw [hst₀, hg]
    by_cases hc : (n.is_scalar : Prop) ∧ n.grad.length ≠ 1
    · rw [if_pos hc, if_pos hc]
      exact find?_setNode_self hn
    · rw [if_neg hc, if_neg hc]
      exact hn
  have h0ne : ∀ j, j ≠ tgt → st₀.find? j = st.find? j := by
    intro j hj
    rw [hst₀]
    by_cases hc : (n.is_scalar : Prop) ∧ n.grad.length ≠ 1
    · rw [if_pos hc]; exact find?_setNode_ne _ hj
    · rw [if_neg hc]
  have h2 : (getNode st₀ tgt).bind (fun t₁ =>
      (t₁.edges.foldlM (edgeStep fuel false tgt) st₀).bind (fun st₁ =>
        if false then
          (getNode st₁ tgt).bind (fun tn =>
            decRef fuel (st₁.setNode tgt { tn with edges := [] }) tgt)
        else .ok st₁)) = .ok st' := h
  rw [getNode_ok.mpr h0tgt] at h2
  have h3 : (n.edges.foldlM (edgeStep fuel false tgt) st₀).bind (fun st₁ =>
      if false then
        (getNode st₁ tgt).bind (fun tn =>
          decRef fuel (st₁.setNode tgt { tn with edges := [] }) tgt)
      else .ok st₁) = .ok st' := h2
  cases hf : n.edges.foldlM (edgeStep fuel false tgt) st₀ with
  | error er => rw [hf] at h3; exact Except.noConfusion h3
  | ok st₁ =>
    rw [hf] at h3
    have h4 : (.ok st₁ : Except Err TapeState) = .ok st' := h3
    cases Except.ok.inj h4
    constructor
    · rw [edgeFold_false_frame hf tgt (fun e he => Nat.ne_of_gt (hlt e he))]
      exact h0tgt
    · intro e he hsp
      obtain ⟨sn, hsn₀, hres⟩ :=
        edgeFold_false_char fuel tgt n.edges st₀ st' { n with grad := g }
          h0tgt hlt hp hf e he hsp
      refine ⟨sn, ?_, hres⟩
      rw [← h0ne e.source (Nat.ne_of_lt (hlt e he))]
      exact hsn₀

/-- Processing a target with `free_graph = false` leaves every node with a
strictly larger id untouched. -/
theorem processTarget_false_frame {fuel : ℕ} {st st' : TapeState}
    {tgt : Index} {n : Node} (hn : st.find? tgt = some n)
    (hlt : ∀ e ∈ n.edges, e.source < tgt)
    (h : processTarget fuel st false tgt = .ok st') :
    ∀ j, tgt < j → st'.find? j = st.find? j := by
  intro j hj
  rw [processTarget_eq, getNode_ok.mpr hn] at h
  set st₀ : TapeState := if n.is_scalar ∧ n.grad.length ≠ 1 then
      st.setNode tgt { n with grad := hsumV n.grad } else st with hst₀
  have h0tgt : st₀.find? tgt = some { n with grad :=
      if n.is_scalar ∧ n.grad.length ≠ 1 then hsumV n.grad else n.grad } := by
    rw [hst₀]
    by_cases hc : (n.is_scalar : Prop) ∧ n.grad.length ≠ 1
    · rw [if_pos hc, if_pos hc]
      exact find?_setNode_self hn
    · rw [if_neg hc, if_neg hc]
      exact hn
  have h0ne : st₀.find? j = st.find? j := by
    rw [hst₀]
    by_cases hc : (n.is_scalar : Prop) ∧ n.grad.length ≠ 1
    · rw [if_pos hc]; exact find?_setNode_ne _ (Nat.ne_of_gt hj)
    · rw [if_neg hc]
  have h2 : (getNode st₀ tgt).bind (fun t₁ =>
      (t₁.edges.foldlM (edgeStep fuel false tgt) st₀).bind (fun st₁ =>
        if false then
          (getNode st₁ tgt).bind (fun tn =>
            decRef fuel (st₁.setNode tgt { tn with edges := [] }) tgt)
        else .ok st₁)) = .ok st' := h
  rw [getNode_ok.mpr h0tgt] at h2
  have h3 : (n.edges.foldlM (edgeStep fuel false tgt) st₀).bind (fun st₁ =>
      if false then
        (getNode st₁ tgt).bind (fun tn =>
          decRef fuel (st₁.setNode tgt { tn with edges := [] }) tgt)
      else .ok st₁) = .ok st' := h2
  cases hf : n.edges.foldlM (edgeStep fuel false tgt) st₀ with
  | error er => rw [hf] at h3; exact Except.noConfusion h3
  | ok st₁ =>
    rw [hf] at h3
    have h4 : (.ok st₁ : Except Err TapeState) = .ok st' := h3
    cases Except.ok.inj h4
    rw [edgeFold_false_frame hf j
      (fun e he => Nat.ne_of_gt ((hlt e he).trans hj))]
    exact h0ne

/-- Processing a target with `free_graph = false` only rewrites gradients:
every stored edge list survives unchanged. -/
theorem processTarget_false_edgesEq {fuel : ℕ} {st st' : TapeState}
    {tgt : Index} (h : processTarget fuel st false tgt = .ok st') :
    EdgesEq st st' := by
  rw [processTarget_eq] at h
  cases hg : getNode st tgt with
  | error er => rw [hg] at h; exact Except.noConfusion h
  | ok n =>
    rw [hg] at h
    set st₀ : TapeState := if n.is_scalar ∧ n.grad.length ≠ 1 then
        st.setNode tgt { n with grad := hsumV n.grad } else st with hst₀
    have he0 : EdgesEq st st₀ := by
      rw [hst₀]
      by_cases hc : (n.is_scalar : Prop) ∧ n.grad.length ≠ 1
      · rw [if_pos hc]
        exact edgesEq_setNode (getNode_ok.mp hg) rfl
      · rw [if_neg hc]
        exact edgesEq_refl st
    have h2 : (getNode st₀ tgt).bind (fun t₁ =>
        (t₁.edges.foldlM (edgeStep fuel false tgt) st₀).bind (fun st₁ =>
          if false then
            (getNode st₁ tgt).bind (fun tn =>
              decRef fuel (st₁.setNode tgt { tn with edges := [] }) tgt)
          else .ok st₁)) = .ok st' := h
    cases hg1 : getNode st₀ tgt with
    | error er => rw [hg1] at h2; exact Except.noConfusion h2
    | ok t₁ =>
      rw [hg1] at h2
      have h3 : (t₁.edges.foldlM (edgeStep fuel false tgt) st₀).bind
          (fun st₁ =>
            if false then
              (getNode st₁ tgt).bind (fun tn =>
                decRef fuel (st₁.setNode tgt { tn with edges := [] }) tgt)
            else .ok st₁) = .ok st' := h2
      cases hf : t₁.edges.foldlM (edgeStep fuel false tgt) st₀ with
      | error er => rw [hf] at h3; exact Except.noConfusion h3
      | ok st₁ =>
        rw [hf] at h3
        have h4 : (.ok st₁ : Except Err TapeState) = .ok st' := h3
        cases Except.ok.inj h4
        exact edgesEq_trans he0 (edgeFold_false_edgesEq hf)

end Enoki

namespace Enoki

theorem processTarget_ok_find? {fuel : ℕ} {s s' : TapeState} {u : Index}
    (h : processTarget fuel s false u = .ok s') : ∃ n, s.find? u = some n := by
  rw [processTarget_eq] at h
  cases hg : getNode s u with
  | error er => rw [hg] at h; exact Except.noConfusion h
  | ok n => exact ⟨n, getNode_ok.mp hg⟩

/-- **C3.** `Tape::backward` (without graph freeing) iterates the scheduled
ids from largest to smallest: (a) the iteration list — the reverse of the
ascending scheduled set — is sorted strictly descending; (b) one sweep step
on a target first collapses a vector-shaped gradient on a scalar-shaped
node (`size == 1` but `grad.length ≠ 1`) by horizontal sum and then, for
every non-special edge, performs
`grad[source] := safe_fmadd(weight, grad[target], grad[source])` on the
pre-step gradients; (c) in a store whose edges all point at strictly
smaller ids, once a target has been consumed the remaining (strictly
smaller) targets never change it again, so every target has received all
of its incoming contributions before being consumed. -/
theorem claim_C3 (st st' : TapeState)
    (hsorted : List.Sorted (· < ·) st.scheduled)
    (hinv : EdgeInv st)
    (hb : backward st false = .ok st') :
    List.Sorted (· > ·) st.scheduled.reverse ∧
    (∀ (fuel : ℕ) (s s₂ : TapeState) (u : Index) (n : Node),
      s.find? u = some n →
      (∀ e ∈ n.edges, e.source < u) →
      List.Pairwise (fun e f => e.source ≠ f.source) n.edges →
      processTarget fuel s false u = .ok s₂ →
      s₂.find? u = some { n with grad :=
          if n.is_scalar ∧ n.grad.length ≠ 1 then hsumV n.grad else n.grad } ∧
      ∀ e ∈ n.edges, e.special = none →
        ∃ sn, s.find? e.source = some sn ∧
          s₂.find? e.source = some
            { sn with grad := safe_fmadd e.weight (if n.is_scalar ∧
                  n.grad.length ≠ 1 then hsumV n.grad else n.grad) sn.grad }) ∧
    (∀ t ∈ st.scheduled, ∀ (L₁ L₂ : List Index) (stm : TapeState),
      st.scheduled.reverse = L₁ ++ t :: L₂ →
      (L₁ ++ [t]).foldlM
        (fun s u => processTarget s.node_counter s false u) st = .ok stm →
      st'.find? t = stm.find? t) := by
  refine ⟨sorted_reverse_gt hsorted, ?_, ?_⟩
  · intro fuel s s₂ u n hn hlt hp h
    exact processTarget_false_char hn hlt hp h
  · intro t ht L₁ L₂ stm hsplit hpre
    have h1 : (st.scheduled.reverse.foldlM
        (fun s u => processTarget s.node_counter s false u) st).bind
        (fun stf => (.ok { stf with scheduled := [] } : Except Err TapeState))
        = .ok st' := hb
    cases hfold : st.scheduled.reverse.foldlM
        (fun s u => processTarget s.node_counter s false u) st with
    | error er => rw [hfold] at h1; exact Except.noConfusion h1
    | ok stf =>
      rw [hfold] at h1
      have h2 : (.ok { stf with scheduled := [] } : Except Err TapeState)
          = .ok st' := h1
      cases Except.ok.inj h2
      rw [hsplit, List.append_cons, List.foldlM_append, hpre] at hfold
      have h3 : L₂.foldlM
          (fun s u => processTarget s.node_counter s false u) stm
          = .ok stf := hfold
      have hdesc := sorted_reverse_gt hsorted
      rw [hsplit] at hdesc
      have hsub : List.Pairwise (· > ·) (t :: L₂) :=
        hdesc.sublist (List.sublist_append_right L₁ (t :: L₂))
      have hL₂ : ∀ u ∈ L₂, u < t :=
        fun u hu => (List.pairwise_cons.mp hsub).1 u hu
      have hpreEq : EdgesEq st stm := by
        refine foldlM_ind (P := EdgesEq) edgesEq_refl
          (fun a b c => edgesEq_trans) ?_ (L₁ ++ [t]) st stm hpre
        intro s a s' hs
        exact processTarget_false_edgesEq hs
      have hinvm : EdgeInv stm := hinv.of_edgesEq hpreEq
      have main := foldlM_ind_mem
        (P := fun (a b : TapeState) =>
          EdgeInv a → EdgeInv b ∧ b.find? t = a.find? t)
        L₂ (fun s hs => ⟨hs, rfl⟩)
        (fun a b c hab hbc hia => by
          obtain ⟨hib, eab⟩ := hab hia
          obtain ⟨hic, ebc⟩ := hbc hib
          exact ⟨hic, ebc.trans eab⟩)
        (fun s u s' hu hs hinvS => by
          obtain ⟨n, hn⟩ := processTarget_ok_find? hs
          refine ⟨hinvS.of_edgesEq (processTarget_false_edgesEq hs), ?_⟩
          exact processTarget_false_frame hn (hinvS u n hn) hs t (hL₂ u hu))
        stm stf h3
      exact (main hinvm).2

end Enoki

namespace Enoki

/-- A decidable sufficient condition for `EdgeInv` on a concrete store. -/
theorem edgeInv_of_all (st : TapeState)
    (h : st.nodes.all
      (fun p => p.2.edges.all (fun e => decide (e.source < p.1))) = true) :
    EdgeInv st := by
  intro u n hn e he
  unfold TapeState.find? at hn
  cases hf : st.nodes.find? (fun p => p.1 == u) with
  | none => rw [hf] at hn; exact Option.noConfusion hn
  | some pr =>
    rw [hf] at hn
    have hpr : pr.2 = n := Option.some.inj hn
    have hmem := List.mem_of_find?_eq_some hf
    have hu : pr.1 = u := by simpa using List.find?_some hf
    have h1 := (List.all_eq_true.mp h) pr hmem
    have h2 := (List.all_eq_true.mp h1) e (by rw [hpr]; exact he)
    rw [← hu]
    simpa using h2

/-- A two-node tape — a leaf `1` and a node `2` with one pointwise edge of
weight `0` onto the leaf — seeded with `grad[2] = 1` and both ids
scheduled. -/
def c3St : TapeState :=
  { node_counter := 3
    nodes := [(1, { label := "x", grad := [.fin 5], ref_count := 1,
                    size := 1 }),
      (2, { label := "y", grad := [.fin 1],
            edges := [{ source := 1, weight := [.fin 0] }], ref_count := 1,
            size := 1 })]
    scheduled := [1, 2] }

/-- The state `backward c3St false` produces: `safe_fmadd` with a zero
weight keeps the leaf's gradient, and the scheduled set is cleared. -/
def c3Res : TapeState :=
  { node_counter := 3
    nodes := [(1, { label := "x", grad := [.fin 5], ref_count := 1,
                    size := 1 }),
      (2, { label := "y", grad := [.fin 1],
            edges := [{ source := 1, weight := [.fin 0] }], ref_count := 1,
            size := 1 })]
    scheduled := [] }

theorem claim_C3_witness : List.Sorted (· > ·) c3St.scheduled.reverse :=
  (claim_C3 c3St c3Res (by decide)
    (edgeInv_of_all c3St (by decide)) (by rfl)).1

end Enoki


namespace Enoki

/-! ### C6: graph invariants.  List-level store lemmas first: the store is
`st.nodes : List (Index × Node)` and `TapeState.find?`, `setNode`,
`eraseNode` are `findVal`, a key-guarded `map` and a key-guarded `filter`
on it. -/

/-- `TapeState.find?` at the list level. -/
def findVal (l : List (Index × Node)) (t : Index) : Option Node :=
  (l.find? (fun p => p.1 == t)).map (fun p => p.2)

theorem find?_eq_findVal (st : TapeState) (t : Index) :
    st.find? t = findVal st.nodes t := rfl

/-- The key-guarded map `setNode` performs on the store. -/
def substNode (i : Index) (m : Node) (l : List (Index × Node)) :
    List (Index × Node) :=
  l.map (fun q => if q.1 = i then (i, m) else q)

theorem setNode_nodes (st : TapeState) (i : Index) (m : Node) :
    (st.setNode i m).nodes = substNode i m st.nodes := rfl

theorem eraseNode_nodes (st : TapeState) (i : Index) :
    (st.eraseNode i).nodes = st.nodes.filter (fun q => q.1 ≠ i) := rfl

theorem substNode_id {i : Index} {m : Node} {l : List (Index × Node)}
    (h : ∀ q ∈ l, q.1 ≠ i) : substNode i m l = l := by
  induction l with
  | nil => rfl
  | cons q l ih =>
    unfold substNode
    rw [List.map_cons, if_neg (h q (List.mem_cons_self q l))]
    show q :: substNode i m l = q :: l
    rw [ih (fun r hr => h r (List.mem_cons_of_mem q hr))]

theorem findVal_cons_self {q : Index × Node} {l : List (Index × Node)} :
    findVal (q :: l) q.1 = some q.2 := by
  unfold findVal
  rw [List.find?_cons_of_pos _ (by simp)]
  rfl

theorem findVal_cons_ne {q : Index × Node} {l : List (Index × Node)}
    {t : Index} (h : q.1 ≠ t) : findVal (q :: l) t = findVal l t := by
  unfold findVal
  rw [List.find?_cons_of_neg _ (by simpa using h)]

/-- First key hit with duplicate-free keys: a stored pair IS what `findVal`
returns at its key. -/
theorem findVal_of_mem {l : List (Index × Node)}
    (hnd : (l.map Prod.fst).Nodup) {p : Index × Node} (hp : p ∈ l) :
    findVal l p.1 = some p.2 := by
  induction l with
  | nil => exact absurd hp (List.not_mem_nil p)
  | cons q l ih =>
    rw [List.map_cons] at hnd
    obtain ⟨hq, hl⟩ := List.nodup_cons.mp hnd
    rcases List.mem_cons.mp hp with rfl | hp'
    · exact findVal_cons_self
    · have hne : q.1 ≠ p.1 := fun he =>
        hq (he ▸ List.mem_map_of_mem Prod.fst hp')
      rw [findVal_cons_ne hne]
      exact ih hl hp'

theorem findVal_mem {l : List (Index × Node)} {t : Index} {n : Node}
    (h : findVal l t = some n) : (t, n) ∈ l := by
  unfold findVal at h
  cases hf : l.find? (fun p => p.1 == t) with
  | none => rw [hf] at h; exact Option.noConfusion h
  | some pr =>
    rw [hf] at h
    have h2 : pr.2 = n := Option.some.inj h
    have h1 : pr.1 = t := by simpa using List.find?_some hf
    have := List.mem_of_find?_eq_some hf
    rwa [← h1, ← h2]

theorem findVal_subst_self {l : List (Index × Node)} {i : Index} {n : Node}
    (m : Node) (h : findVal l i = some n) :
    findVal (substNode i m l) i = some m := by
  induction l with
  | nil => exact Option.noConfusion h
  | cons q l ih =>
    unfold substNode
    rw [List.map_cons]
    by_cases hq : q.1 = i
    · rw [if_pos hq]
      exact findVal_cons_self
    · rw [if_neg hq]
      rw [findVal_cons_ne hq] at h
      show findVal (q :: substNode i m l) i = some m
      rw [findVal_cons_ne hq]
      exact ih h

theorem findVal_subst_ne {l : List (Index × Node)} {i j : Index} (m : Node)
    (h : j ≠ i) : findVal (substNode i m l) j = findVal l j := by
  induction l with
  | nil => rfl
  | cons q l ih =>
    unfold substNode
    rw [List.map_cons]
    by_cases hq : q.1 = i
    · rw [if_pos hq]
      show findVal ((i, m) :: substNode i m l) j = findVal (q :: l) j
      rw [findVal_cons_ne (Ne.symm h), findVal_cons_ne (by rw [hq]; exact fun e => h e.symm)]
      exact ih
    · rw [if_neg hq]
      show findVal (q :: substNode i m l) j = findVal (q :: l) j
      by_cases hqj : q.1 = j
      · rw [← hqj, findVal_cons_self, findVal_cons_self]
      · rw [findVal_cons_ne hqj, findVal_cons_ne hqj]
        exact ih

theorem findVal_erase_self (l : List (Index × Node)) (i : Index) :
    findVal (l.filter (fun q => q.1 ≠ i)) i = none := by
  induction l with
  | nil => rfl
  | cons q l ih =>
    rw [List.filter_cons]
    by_cases hq : q.1 = i
    · simpa [hq] using ih
    · rw [if_pos (by simpa using hq), findVal_cons_ne hq]
      exact ih

theorem findVal_erase_ne (l : List (Index × Node)) {i j : Index}
    (h : j ≠ i) : findVal (l.filter (fun q => q.1 ≠ i)) j = findVal l j := by
  induction l with
  | nil => rfl
  | cons q l ih =>
    rw [List.filter_cons]
    by_cases hq : q.1 = i
    · rw [if_neg (by simpa using hq), findVal_cons_ne (by rw [hq]; exact fun e => h e.symm)]
      exact ih
    · rw [if_pos (by simpa using hq)]
      by_cases hqj : q.1 = j
      · rw [← hqj, findVal_cons_self, findVal_cons_self]
      · rw [findVal_cons_ne hqj, findVal_cons_ne hqj]
        exact ih

theorem keys_substNode (i : Index) (m : Node) (l : List (Index × Node)) :
    (substNode i m l).map Prod.fst = l.map Prod.fst := by
  unfold substNode
  rw [List.map_map]
  refine List.map_congr_left ?_
  intro p _
  by_cases hp : p.1 = i
  · simp [hp]
  · simp [hp]

theorem keys_erase (i : Index) (l : List (Index × Node)) :
    (l.filter (fun q => q.1 ≠ i)).map Prod.fst
      = (l.map Prod.fst).filter (fun k => k ≠ i) := by
  induction l with
  | nil => rfl
  | cons q l ih =>
    rw [List.filter_cons, List.map_cons, List.filter_cons]
    by_cases hq : q.1 = i
    · rw [if_neg (by simpa using hq), if_neg (by simpa using hq)]
      exact ih
    · rw [if_pos (by simpa using hq), if_pos (by simpa using hq),
        List.map_cons, ih]

/-- Swapping the node at a present key moves a store `countP` by the
difference of the predicate on the old and the new pair. -/
theorem countP_subst {l : List (Index × Node)} {i : Index} {n : Node}
    (m : Node) (p : Index × Node → Bool)
    (hnd : (l.map Prod.fst).Nodup) (hf : findVal l i = some n) :
    (substNode i m l).countP p + (if p (i, n) then 1 else 0)
      = l.countP p + (if p (i, m) then 1 else 0) := by
  induction l with
  | nil => exact Option.noConfusion hf
  | cons q l ih =>
    rw [List.map_cons] at hnd
    obtain ⟨hq, hl⟩ := List.nodup_cons.mp hnd
    unfold substNode
    rw [List.map_cons]
    by_cases hqi : q.1 = i
    · have hqn : q = (i, n) := by
        have h1 : findVal (q :: l) q.1 = some q.2 := findVal_cons_self
        rw [hqi] at h1
        rw [h1] at hf
        exact Prod.ext hqi (Option.some.inj hf)
      rw [if_pos hqi]
      have hli : ∀ r ∈ l, r.1 ≠ i := by
        intro r hr he
        have hm : r.1 ∈ List.map Prod.fst l := List.mem_map_of_mem Prod.fst hr
        rw [he, ← hqi] at hm
        exact hq hm
      show ((i, m) :: substNode i m l).countP p + _ = _
      rw [substNode_id hli, List.countP_cons, List.countP_cons, hqn]
      omega
    · rw [if_neg hqi]
      rw [findVal_cons_ne hqi] at hf
      show (q :: substNode i m l).countP p + _ = _
      rw [List.countP_cons, List.countP_cons]
      have := ih hl hf
      omega

/-- Erasing a present key (duplicate-free keys) removes exactly that pair's
contribution from a store `countP`. -/
theorem countP_erase {l : List (Index × Node)} {i : Index} {n : Node}
    (p : Index × Node → Bool)
    (hnd : (l.map Prod.fst).Nodup) (hf : findVal l i = some n) :
    (l.filter (fun q => q.1 ≠ i)).countP p + (if p (i, n) then 1 else 0)
      = l.countP p := by
  induction l with
  | nil => exact Option.noConfusion hf
  | cons q l ih =>
    rw [List.map_cons] at hnd
    obtain ⟨hq, hl⟩ := List.nodup_cons.mp hnd
    rw [List.filter_cons]
    by_cases hqi : q.1 = i
    · have hqn : q = (i, n) := by
        have h1 : findVal (q :: l) q.1 = some q.2 := findVal_cons_self
        rw [hqi] at h1
        rw [h1] at hf
        exact Prod.ext hqi (Option.some.inj hf)
      have hli : ∀ r ∈ l, r.1 ≠ i := by
        intro r hr he
        have hm : r.1 ∈ List.map Prod.fst l := List.mem_map_of_mem Prod.fst hr
        rw [he, ← hqi] at hm
        exact hq hm
      rw [if_neg (by simpa using hqi), List.filter_eq_self.mpr
        (fun r hr => by simpa using hli r hr), List.countP_cons, hqn]
    · rw [if_pos (by simpa using hqi), List.countP_cons, List.countP_cons]
      rw [findVal_cons_ne hqi] at hf
      have := ih hl hf
      omega

end Enoki

namespace Enoki

/-- Does the stored pair own at least one edge whose source is `j`? -/
def ownsEdge (p : Index × Node) (j : Index) : Bool :=
  p.2.edges.any (fun e => e.source == j)

/-- Number of stored nodes holding an edge into `j` (with at most one edge
per (source, target) pair this is the number of references the graph's
edges hold on `j`). -/
def edgeRefs (st : TapeState) (j : Index) : ℕ :=
  st.nodes.countP (fun p => ownsEdge p j)

/-- The stored reference count of `j` (`0` when absent). -/
def rcOf (st : TapeState) (j : Index) : ℕ :=
  ((st.find? j).map Node.ref_count).getD 0

/-- How many entries of the release ledger target `j`. -/
def dcount (D : List (Index × Index)) (j : Index) : ℕ :=
  D.countP (fun q => q.2 == j)

theorem dcount_append (D E : List (Index × Index)) (j : Index) :
    dcount (D ++ E) j = dcount D j + dcount E j :=
  List.countP_append _ D E

/-- The graph invariants, relativized to a release ledger `D`: an entry
`(o, x) ∈ D` records that the dying node `o` has already released the
reference its (still physically present) edge into `x` was holding.
Outside a `dec_ref` cascade the ledger is empty and `epres` states that
every edge's source is present in the store. -/
structure InvD (st : TapeState) (D : List (Index × Index)) : Prop where
  cpos : 0 < st.node_counter
  keys : ∀ k ∈ st.nodes.map Prod.fst, k ≠ 0 ∧ k < st.node_counter
  knodup : (st.nodes.map Prod.fst).Nodup
  eord : ∀ t n, st.find? t = some n → ∀ e ∈ n.edges,
    e.source < t ∧ e.source ≠ 0
  epres : ∀ t n, st.find? t = some n → ∀ e ∈ n.edges,
    (st.find? e.source).isSome ∨ (t, e.source) ∈ D
  euniq : ∀ t n, st.find? t = some n →
    List.Pairwise (fun e f => e.source ≠ f.source) n.edges
  refs : ∀ j, edgeRefs st j ≤ rcOf st j + dcount D j
  dphys : ∀ q ∈ D, ∃ n, st.find? q.1 = some n ∧
    n.edges.any (fun e => e.source == q.2) = true
  dnodup : D.Nodup
  drc : ∀ q ∈ D, rcOf st q.1 = 0

/-- The graph invariants proper (empty ledger). -/
def Inv (st : TapeState) : Prop := InvD st []

theorem edgeRefs_setNode {st : TapeState} {i : Index} {n : Node} (m : Node)
    (hnd : (st.nodes.map Prod.fst).Nodup) (hf : st.find? i = some n)
    {j : Index} (he : ownsEdge (i, m) j = ownsEdge (i, n) j) :
    edgeRefs (st.setNode i m) j = edgeRefs st j := by
  have key := countP_subst (l := st.nodes) (i := i) (n := n) m
    (fun p => ownsEdge p j) hnd hf
  unfold edgeRefs
  rw [setNode_nodes]
  simp only [he] at key
  omega

theorem edgeRefs_setNode_flip {st : TapeState} {i : Index} {n : Node}
    (m : Node) (hnd : (st.nodes.map Prod.fst).Nodup)
    (hf : st.find? i = some n) {j : Index}
    (hn : ownsEdge (i, n) j = false) (hm : ownsEdge (i, m) j = true) :
    edgeRefs (st.setNode i m) j = edgeRefs st j + 1 := by
  have key := countP_subst (l := st.nodes) (i := i) (n := n) m
    (fun p => ownsEdge p j) hnd hf
  unfold edgeRefs
  rw [setNode_nodes]
  simp at key
  simp only [hn, hm] at key
  simp at key
  omega

theorem edgeRefs_eraseNode {st : TapeState} {i : Index} {n : Node}
    (hnd : (st.nodes.map Prod.fst).Nodup) (hf : st.find? i = some n)
    (j : Index) :
    edgeRefs (st.eraseNode i) j + (if ownsEdge (i, n) j then 1 else 0)
      = edgeRefs st j :=
  countP_erase (fun p => ownsEdge p j) hnd hf

theorem rcOf_setNode_self {st : TapeState} {i : Index} {n : Node} (m : Node)
    (hf : st.find? i = some n) : rcOf (st.setNode i m) i = m.ref_count := by
  unfold rcOf
  rw [find?_setNode_self hf]
  rfl

theorem rcOf_setNode_ne {st : TapeState} {i j : Index} (m : Node)
    (h : j ≠ i) : rcOf (st.setNode i m) j = rcOf st j := by
  unfold rcOf
  rw [find?_setNode_ne _ h]

theorem find?_eraseNode (st : TapeState) (i j : Index) :
    (st.eraseNode i).find? j = if j = i then none else st.find? j := by
  by_cases h : j = i
  · subst h
    rw [if_pos rfl, find?_eq_findVal, eraseNode_nodes, findVal_erase_self]
  · rw [if_neg h, find?_eq_findVal, eraseNode_nodes, findVal_erase_ne _ h,
      find?_eq_findVal]

theorem rcOf_eraseNode_self (st : TapeState) (i : Index) :
    rcOf (st.eraseNode i) i = 0 := by
  unfold rcOf
  rw [find?_eraseNode, if_pos rfl]
  rfl

theorem rcOf_eraseNode_ne (st : TapeState) {i j : Index} (h : j ≠ i) :
    rcOf (st.eraseNode i) j = rcOf st j := by
  unfold rcOf
  rw [find?_eraseNode, if_neg h]

theorem isSome_setNode {st : TapeState} {i : Index} {n : Node} (m : Node)
    (hf : st.find? i = some n) (j : Index) :
    ((st.setNode i m).find? j).isSome = (st.find? j).isSome := by
  by_cases h : j = i
  · subst h
    rw [find?_setNode_self hf, hf]
    rfl
  · rw [find?_setNode_ne _ h]

end Enoki

namespace Enoki

/-- Just the reverse-topological ordering clause: every stored edge points
at a strictly smaller id.  `dec_ref` preserves it unconditionally (it never
rewrites an edge list), which is what the frame lemma below needs. -/
def Eord (st : TapeState) : Prop :=
  ∀ t n, st.find? t = some n → ∀ e ∈ n.edges, e.source < t

theorem InvD.toEord {st : TapeState} {D : List (Index × Index)}
    (h : InvD st D) : Eord st :=
  fun t n hf e he => (h.eord t n hf e he).1

theorem eord_setNode {st : TapeState} {i : Index} {n m : Node}
    (hE : Eord st) (hf : st.find? i = some n) (he : m.edges = n.edges) :
    Eord (st.setNode i m) := by
  intro t n' hf' e he'
  by_cases ht : t = i
  · subst ht
    rw [find?_setNode_self hf] at hf'
    cases Option.some.inj hf'
    rw [he] at he'
    exact hE t n hf e he'
  · rw [find?_setNode_ne _ ht] at hf'
    exact hE t n' hf' e he'

theorem eord_erase {st : TapeState} {i : Index} (hE : Eord st) :
    Eord (st.eraseNode i) := by
  intro t n hf e he
  rw [find?_eraseNode] at hf
  by_cases ht : t = i
  · rw [if_pos ht] at hf; exact Option.noConfusion hf
  · rw [if_neg ht] at hf; exact hE t n hf e he

theorem decRef_succ_notfound {fuel : ℕ} {st : TapeState} {i : Index}
    (hi : i ≠ 0) (hf : st.find? i = none) :
    decRef (fuel + 1) st i = .error (.unknownNode i) := by
  rw [decRef]
  · rw [hf]
  · exact fun e => hi e

/-- `dec_ref` never rewrites an edge list, so on a reverse-topologically
ordered store it preserves that ordering and — since the cascade only
descends through strictly smaller ids — leaves every node above the
decremented id untouched. -/
theorem decRef_frame : ∀ (fuel : ℕ) (i : Index) (s s' : TapeState),
    Eord s → decRef fuel s i = .ok s' →
    Eord s' ∧ ∀ j, i < j → s'.find? j = s.find? j := by
  intro fuel
  induction fuel with
  | zero =>
    intro i s s' hE h
    cases i with
    | zero =>
      rw [decRef_zero] at h
      cases Except.ok.inj h
      exact ⟨hE, fun j _ => rfl⟩
    | succ k => exact Except.noConfusion h
  | succ fuel ih =>
    intro i s s' hE h
    cases i with
    | zero =>
      rw [decRef_zero] at h
      cases Except.ok.inj h
      exact ⟨hE, fun j _ => rfl⟩
    | succ k =>
      cases hf : s.find? (k + 1) with
      | none =>
        rw [decRef_succ_notfound (Nat.succ_ne_zero k) hf] at h
        exact Except.noConfusion h
      | some n =>
        rw [decRef_succ_found (Nat.succ_ne_zero k) hf] at h
        by_cases hrc : n.ref_count = 0
        · rw [if_pos hrc] at h
          exact Except.noConfusion h
        · rw [if_neg hrc] at h
          have hE₁ : Eord (s.setNode (k + 1)
              { n with ref_count := n.ref_count - 1 }) :=
            eord_setNode hE hf rfl
          have hfr₁ : ∀ j, j ≠ k + 1 →
              (s.setNode (k + 1) { n with ref_count := n.ref_count - 1 }).find? j
                = s.find? j :=
            fun j hj => find?_setNode_ne _ hj
          by_cases hz : n.ref_count - 1 = 0
          · rw [if_pos hz] at h
            have hf₁ : (s.setNode (k + 1)
                { n with ref_count := n.ref_count - 1 }).find? (k + 1)
                = some { n with ref_count := n.ref_count - 1 } :=
              find?_setNode_self hf
            rw [freeNode_found hf₁] at h
            have hsrc : ∀ e ∈ ({ n with ref_count := n.ref_count - 1 }
                : Node).edges, e.source < k + 1 :=
              hE₁ _ _ hf₁
            have fold_frame : ∀ (es : List Edge),
                (∀ e ∈ es, e.source < k + 1) →
                ∀ s₀ s₁, Eord s₀ →
                es.foldlM (fun s e => decRef fuel s e.source) s₀ = .ok s₁ →
                Eord s₁ ∧ ∀ j, k + 1 ≤ j → s₁.find? j = s₀.find? j := by
              intro es
              induction es with
              | nil =>
                intro _ s₀ s₁ hE₀ hh
                rw [List.foldlM_nil] at hh
                cases Except.ok.inj hh
                exact ⟨hE₀, fun j _ => rfl⟩
              | cons e es ihe =>
                intro hlt s₀ s₁ hE₀ hh
                rw [List.foldlM_cons] at hh
                cases hs : decRef fuel s₀ e.source with
                | error er => rw [hs] at hh; exact Except.noConfusion hh
                | ok s₂ =>
                  rw [hs] at hh
                  obtain ⟨hE₂, hfr₂⟩ := ih e.source s₀ s₂ hE₀ hs
                  obtain ⟨hE₃, hfr₃⟩ := ihe
                    (fun f hf' => hlt f (List.mem_cons_of_mem _ hf'))
                    s₂ s₁ hE₂ hh
                  refine ⟨hE₃, fun j hj => ?_⟩
                  rw [hfr₃ j hj, hfr₂ j
                    (lt_of_lt_of_le (hlt e (List.mem_cons_self e es)) hj)]
            cases hfold : ({ n with ref_count := n.ref_count - 1 }
                : Node).edges.foldlM (fun s e => decRef fuel s e.source)
                (s.setNode (k + 1) { n with ref_count := n.ref_count - 1 }) with
            | error er => rw [hfold] at h; exact Except.noConfusion h
            | ok sf =>
              rw [hfold] at h
              have h2 : (.ok (sf.eraseNode (k + 1))
                  : Except Err TapeState) = .ok s' := h
              cases Except.ok.inj h2
              obtain ⟨hEf, hfrf⟩ := fold_frame _ hsrc _ sf hE₁ hfold
              refine ⟨eord_erase hEf, fun j hj => ?_⟩
              rw [find?_eraseNode, if_neg (Nat.ne_of_gt hj),
                hfrf j (Nat.le_of_lt hj), hfr₁ j (Nat.ne_of_gt hj)]
          · rw [if_neg hz] at h
            cases Except.ok.inj h
            exact ⟨hE₁, fun j hj => hfr₁ j (Nat.ne_of_gt hj)⟩

end Enoki

namespace Enoki

theorem nodup_append_single {α : Type} {D : List α} {x : α}
    (h : D.Nodup) (hx : x ∉ D) : (D ++ [x]).Nodup := by
  simp [List.nodup_append, h, hx]

theorem any_src_of_mem {es : List Edge} {e : Edge} (he : e ∈ es) :
    es.any (fun f => f.source == e.source) = true :=
  List.any_eq_true.mpr ⟨e, he, by simp⟩

theorem any_src_eq_false_of_lt {es : List Edge} {i : Index}
    (h : ∀ e ∈ es, e.source < i) : es.any (fun e => e.source == i) = false :=
  List.any_eq_false.mpr (fun e he => by simpa using Nat.ne_of_lt (h e he))

theorem countP_source_distinct {es : List Edge}
    (hp : List.Pairwise (fun e f => e.source ≠ f.source) es) (j : Index) :
    es.countP (fun e => e.source == j)
      = if es.any (fun e => e.source == j) then 1 else 0 := by
  induction es with
  | nil => rfl
  | cons e es ih =>
    obtain ⟨he, hes⟩ := List.pairwise_cons.mp hp
    rw [List.countP_cons, List.any_cons]
    by_cases hej : e.source = j
    · have hz : es.countP (fun f => f.source == j) = 0 :=
        List.countP_eq_zero.mpr (fun f hf => by
          simpa using fun hc => he f hf (hej.trans hc.symm))
      simp [hej, hz]
    · rw [ih hes]
      simp [hej]

theorem dcount_map_entries (es : List Edge) (i j : Index) :
    dcount (es.map (fun e => (i, e.source))) j
      = es.countP (fun e => e.source == j) := by
  unfold dcount
  rw [List.countP_map]
  rfl

theorem dcount_single (o x j : Index) :
    dcount [(o, x)] j = if x = j then 1 else 0 := by
  unfold dcount
  rw [List.countP_cons]
  by_cases h : x = j
  · simp [h]
  · simp [h]

theorem nodup_subset_of_le {A B : List Index} (hA : A.Nodup) (hB : B.Nodup)
    (hBA : B ⊆ A) (hl : A.length ≤ B.length) : A ⊆ B := by
  intro a ha
  have h1 : B.toFinset ⊆ A.toFinset := by
    intro x hx
    simp only [List.mem_toFinset] at hx ⊢
    exact hBA hx
  have h2 : A.toFinset.card ≤ B.toFinset.card := by
    rw [List.toFinset_card_of_nodup hA, List.toFinset_card_of_nodup hB]
    exact hl
  have h3 : B.toFinset = A.toFinset := Finset.eq_of_subset_of_card_le h1 h2
  have h4 : a ∈ A.toFinset := List.mem_toFinset.mpr ha
  rw [← h3] at h4
  exact List.mem_toFinset.mp h4

theorem rcOf_of_find? {s : TapeState} {i : Index} {n : Node}
    (hf : s.find? i = some n) : rcOf s i = n.ref_count := by
  unfold rcOf
  rw [hf]
  rfl

/-- Decrementing the reference count of a present node with a non-zero
count keeps the ledgered invariants, whether the consumed reference is an
external one (ledger unchanged) or the one a dying owner's edge held
(ledger extended by that edge's entry). -/
theorem decrement_invD {s : TapeState} {D D' : List (Index × Index)}
    {i : Index} {n : Node}
    (hInv : InvD s D) (hf : s.find? i = some n) (hrc : n.ref_count ≠ 0)
    (hmode : (D' = D ∧ edgeRefs s i < rcOf s i + dcount D i)
        ∨ (∃ o om, D' = D ++ [(o, i)] ∧ s.find? o = some om ∧
            om.ref_count = 0 ∧ om.edges.any (fun e => e.source == i) = true ∧
            (o, i) ∉ D)) :
    InvD (s.setNode i { n with ref_count := n.ref_count - 1 }) D' := by
  have hrcs : rcOf s i = n.ref_count := rcOf_of_find? hf
  have hDni : ∀ x, (i, x) ∈ D → False := by
    intro x hx
    have := hInv.drc (i, x) hx
    rw [hrcs] at this
    exact hrc this
  have hDsub : ∀ q ∈ D, q ∈ D' := by
    rcases hmode with ⟨rfl, _⟩ | ⟨o, om, rfl, _⟩
    · exact fun q hq => hq
    · exact fun q hq => List.mem_append_left _ hq
  have hDq1 : ∀ q ∈ D', q.1 ≠ i := by
    rcases hmode with ⟨rfl, _⟩ | ⟨o, om, rfl, hfo, hrco, _, _⟩
    · intro q hq he
      exact hDni q.2 (by rw [← he]; simpa using hq)
    · intro q hq he
      rcases List.mem_append.mp hq with hq' | hq'
      · exact hDni q.2 (by rw [← he]; simpa using hq')
      · have : q = (o, i) := by simpa using hq'
        rw [this] at he
        simp only at he
        rw [he] at hfo
        rw [hf] at hfo
        cases Option.some.inj hfo
        exact hrc hrco
  refine ⟨?_, ?_, ?_, ?_, ?_, ?_, ?_, ?_, ?_, ?_⟩
  · exact hInv.cpos
  · intro k hk
    rw [setNode_nodes, keys_substNode] at hk
    exact hInv.keys k hk
  · rw [setNode_nodes, keys_substNode]
    exact hInv.knodup
  · intro t n' hf' e he
    by_cases ht : t = i
    · subst ht
      rw [find?_setNode_self hf] at hf'
      cases Option.some.inj hf'
      exact hInv.eord t n hf e he
    · rw [find?_setNode_ne _ ht] at hf'
      exact hInv.eord t n' hf' e he
  · intro t n' hf' e he
    by_cases ht : t = i
    · subst ht
      rw [find?_setNode_self hf] at hf'
      cases Option.some.inj hf'
      rcases hInv.epres t n hf e he with hs | hd
      · exact Or.inl (by rw [isSome_setNode _ hf]; exact hs)
      · exact Or.inr (hDsub _ hd)
    · rw [find?_setNode_ne _ ht] at hf'
      rcases hInv.epres t n' hf' e he with hs | hd
      · exact Or.inl (by rw [isSome_setNode _ hf]; exact hs)
      · exact Or.inr (hDsub _ hd)
  · intro t n' hf'
    by_cases ht : t = i
    · subst ht
      rw [find?_setNode_self hf] at hf'
      cases Option.some.inj hf'
      exact hInv.euniq t n hf
    · rw [find?_setNode_ne _ ht] at hf'
      exact hInv.euniq t n' hf'
  · intro j
    have he : edgeRefs (s.setNode i { n with ref_count := n.ref_count - 1 }) j
        = edgeRefs s j :=
      edgeRefs_setNode _ hInv.knodup hf rfl
    rw [he]
    by_cases hj : j = i
    · subst hj
      rw [rcOf_setNode_self _ hf]
      have hdn : ({ n with ref_count := n.ref_count - 1 } : Node).ref_count
          = n.ref_count - 1 := rfl
      rw [hdn]
      rcases hmode with ⟨rfl, hlt⟩ | ⟨o, om, rfl, _, _, _, _⟩
      · rw [hrcs] at hlt
        omega
      · rw [dcount_append, dcount_single, if_pos rfl]
        have := hInv.refs j
        rw [hrcs] at this
        omega
    · rw [rcOf_setNode_ne _ hj]
      have hd : dcount D' j = dcount D j := by
        rcases hmode with ⟨rfl, _⟩ | ⟨o, om, rfl, _, _, _, _⟩
        · rfl
        · rw [dcount_append, dcount_single, if_neg (fun e => hj e.symm)]
          omega
      rw [hd]
      exact hInv.refs j
  · intro q hq
    have hq1 : q.1 ≠ i := hDq1 q hq
    rcases hmode with ⟨rfl, _⟩ | ⟨o, om, rfl, hfo, hrco, hany, _⟩
    · obtain ⟨m, hm, ha⟩ := hInv.dphys q hq
      exact ⟨m, by rw [find?_setNode_ne _ hq1]; exact hm, ha⟩
    · rcases List.mem_append.mp hq with hq' | hq'
      · obtain ⟨m, hm, ha⟩ := hInv.dphys q hq'
        exact ⟨m, by rw [find?_setNode_ne _ hq1]; exact hm, ha⟩
      · have hqo : q = (o, i) := by simpa using hq'
        subst hqo
        exact ⟨om, by rw [find?_setNode_ne _ hq1]; exact hfo, hany⟩
  · rcases hmode with ⟨rfl, _⟩ | ⟨o, om, rfl, _, _, _, hnotin⟩
    · exact hInv.dnodup
    · exact nodup_append_single hInv.dnodup hnotin
  · intro q hq
    have hq1 : q.1 ≠ i := hDq1 q hq
    rw [rcOf_setNode_ne _ hq1]
    rcases hmode with ⟨rfl, _⟩ | ⟨o, om, rfl, hfo, hrco, _, _⟩
    · exact hInv.drc q hq
    · rcases List.mem_append.mp hq with hq' | hq'
      · exact hInv.drc q hq'
      · have hqo : q = (o, i) := by simpa using hq'
        subst hqo
        rw [rcOf_of_find? hfo]
        exact hrco

end Enoki

namespace Enoki

/-- When the reference count of `i` has reached zero, the accounting
inequality forces every physically present edge into `i` to be one whose
reference the ledger already released: distinct ledger entries correspond
to distinct owning nodes, and there are at least as many entries as owners. -/
theorem all_edges_released {s : TapeState} {D : List (Index × Index)}
    {i : Index}
    (hnd : (s.nodes.map Prod.fst).Nodup)
    (hrefs : edgeRefs s i ≤ dcount D i)
    (hphys : ∀ q ∈ D, ∃ n, s.find? q.1 = some n ∧
      n.edges.any (fun e => e.source == q.2) = true)
    (hDnd : D.Nodup) :
    ∀ t n, s.find? t = some n →
      n.edges.any (fun e => e.source == i) = true → (t, i) ∈ D := by
  intro t n hf ha
  set A : List Index := (s.nodes.filter (fun p => ownsEdge p i)).map Prod.fst
    with hA
  set B : List Index := (D.filter (fun q => q.2 == i)).map Prod.fst with hB
  have hAnd : A.Nodup := by
    rw [hA]
    exact hnd.sublist ((s.nodes.filter_sublist).map Prod.fst)
  have hBnd : B.Nodup := by
    rw [hB]
    refine List.Nodup.map_on ?_ (hDnd.filter _)
    intro x hx y hy hxy
    have hx2 : x.2 = i := by simpa using (List.of_mem_filter hx)
    have hy2 : y.2 = i := by simpa using (List.of_mem_filter hy)
    exact Prod.ext hxy (hx2.trans hy2.symm)
  have hBA : B ⊆ A := by
    intro b hb
    rw [hB] at hb
    obtain ⟨q, hq, hq1⟩ := List.mem_map.mp hb
    have hqD : q ∈ D := List.mem_of_mem_filter hq
    have hq2 : q.2 = i := by simpa using (List.of_mem_filter hq)
    obtain ⟨m, hm, hma⟩ := hphys q hqD
    rw [hA]
    refine List.mem_map.mpr ⟨(q.1, m), ?_, hq1⟩
    refine List.mem_filter.mpr ⟨findVal_mem hm, ?_⟩
    show ownsEdge (q.1, m) i = true
    unfold ownsEdge
    rw [← hq2]
    exact hma
  have hlen : A.length ≤ B.length := by
    rw [hA, hB, List.length_map, List.length_map,
      ← List.countP_eq_length_filter, ← List.countP_eq_length_filter]
    exact hrefs
  have hAB : A ⊆ B := nodup_subset_of_le hAnd hBnd hBA hlen
  have htA : t ∈ A := by
    rw [hA]
    refine List.mem_map.mpr ⟨(t, n), ?_, rfl⟩
    exact List.mem_filter.mpr ⟨findVal_mem hf, ha⟩
  have htB : t ∈ B := hAB htA
  rw [hB] at htB
  obtain ⟨q, hq, hq1⟩ := List.mem_map.mp htB
  have hq2 : q.2 = i := by simpa using (List.of_mem_filter hq)
  have : q = (t, i) := Prod.ext hq1 hq2
  rw [← this]
  exact List.mem_of_mem_filter hq

/-- Once the cascade has released every reference the dying node's edges
held (the ledger tail), erasing the node restores the invariants at the
caller's ledger: the node's own edges leave the store together with their
ledger entries, and the accounting shows no surviving node still points at
the erased id. -/
theorem erase_invD {s : TapeState} {D : List (Index × Index)} {i : Index}
    {ni : Node}
    (hInv : InvD s (D ++ ni.edges.map (fun e => (i, e.source))))
    (hf : s.find? i = some ni) (hrc : ni.ref_count = 0)
    (hno : ∀ x, (i, x) ∉ D) :
    InvD (s.eraseNode i) D := by
  set S : List (Index × Index) := ni.edges.map (fun e => (i, e.source))
    with hS
  have hpair : List.Pairwise (fun e f => e.source ≠ f.source) ni.edges :=
    hInv.euniq i ni hf
  have hsrc_lt : ∀ e ∈ ni.edges, e.source < i :=
    fun e he => (hInv.eord i ni hf e he).1
  have hdS : ∀ j, dcount S j = if ownsEdge (i, ni) j then 1 else 0 := by
    intro j
    rw [hS, dcount_map_entries, countP_source_distinct hpair]
    rfl
  have hrcs : rcOf s i = 0 := by
    rw [rcOf_of_find? hf, hrc]
  have hown_i : ownsEdge (i, ni) i = false := any_src_eq_false_of_lt hsrc_lt
  have hrefs_i : edgeRefs s i ≤ dcount D i := by
    have := hInv.refs i
    rw [hrcs, dcount_append, hdS i, hown_i] at this
    simpa using this
  have hDnd : D.Nodup := hInv.dnodup.sublist (List.sublist_append_left D S)
  have hphysD : ∀ q ∈ D, ∃ n, s.find? q.1 = some n ∧
      n.edges.any (fun e => e.source == q.2) = true :=
    fun q hq => hInv.dphys q (List.mem_append_left S hq)
  have hq1ne : ∀ q ∈ D, q.1 ≠ i := by
    intro q hq he
    exact hno q.2 (by rw [← he]; simpa using hq)
  have herase : ∀ j, edgeRefs (s.eraseNode i) j
      + (if ownsEdge (i, ni) j then 1 else 0) = edgeRefs s j :=
    fun j => edgeRefs_eraseNode hInv.knodup hf j
  refine ⟨?_, ?_, ?_, ?_, ?_, ?_, ?_, ?_, ?_, ?_⟩
  · exact hInv.cpos
  · intro k hk
    rw [eraseNode_nodes, keys_erase] at hk
    exact hInv.keys k (List.mem_of_mem_filter hk)
  · rw [eraseNode_nodes, keys_erase]
    exact hInv.knodup.filter _
  · intro t n hft e he
    rw [find?_eraseNode] at hft
    by_cases ht : t = i
    · rw [if_pos ht] at hft; exact Option.noConfusion hft
    · rw [if_neg ht] at hft
      exact hInv.eord t n hft e he
  · intro t n hft e he
    rw [find?_eraseNode] at hft
    by_cases ht : t = i
    · rw [if_pos ht] at hft; exact Option.noConfusion hft
    · rw [if_neg ht] at hft
      rcases hInv.epres t n hft e he with hs | hd
      · by_cases hei : e.source = i
        · subst hei
          refine Or.inr (all_edges_released hInv.knodup hrefs_i hphysD hDnd
            t n hft (any_src_of_mem he))
        · refine Or.inl ?_
          rw [find?_eraseNode, if_neg hei]
          exact hs
      · rcases List.mem_append.mp hd with hd' | hd'
        · exact Or.inr hd'
        · exfalso
          rw [hS] at hd'
          obtain ⟨f, _, hfe⟩ := List.mem_map.mp hd'
          exact ht (by rw [← (Prod.mk.injEq _ _ _ _).mp hfe.symm |>.1])
  · intro t n hft
    rw [find?_eraseNode] at hft
    by_cases ht : t = i
    · rw [if_pos ht] at hft; exact Option.noConfusion hft
    · rw [if_neg ht] at hft
      exact hInv.euniq t n hft
  · intro j
    have h1 := hInv.refs j
    rw [dcount_append, hdS j] at h1
    have h2 := herase j
    by_cases hj : j = i
    · subst hj
      rw [rcOf_eraseNode_self]
      rw [hown_i] at h2
      omega
    · rw [rcOf_eraseNode_ne _ hj]
      omega
  · intro q hq
    obtain ⟨m, hm, hma⟩ := hphysD q hq
    refine ⟨m, ?_, hma⟩
    rw [find?_eraseNode, if_neg (hq1ne q hq)]
    exact hm
  · exact hDnd
  · intro q hq
    rw [rcOf_eraseNode_ne _ (hq1ne q hq)]
    exact hInv.drc q (List.mem_append_left S hq)

end Enoki

namespace Enoki

/-- `dec_ref` preserves the ledgered graph invariants.  The consumed
reference is either an external one (the strict accounting bound, ledger
unchanged) or the one a dying owner's still-present edge held (ledger
extended by that edge's entry).  A count hitting zero runs the inlined
`free_node`: the cascade releases the reference of each of the node's own
edges — each release is a recursive `dec_ref` at one fuel less, justified
by the dying-owner mode — and the final erasure drops the node together
with its ledger entries. -/
theorem decRef_invD : ∀ (fuel : ℕ) (i : Index) (s s' : TapeState)
    (D D' : List (Index × Index)),
    InvD s D →
    ((D' = D ∧ (i = 0 ∨ edgeRefs s i < rcOf s i + dcount D i))
      ∨ (∃ o om, D' = D ++ [(o, i)] ∧ s.find? o = some om ∧
          om.ref_count = 0 ∧ om.edges.any (fun e => e.source == i) = true ∧
          (o, i) ∉ D)) →
    decRef fuel s i = .ok s' → InvD s' D' := by
  intro fuel
  induction fuel with
  | zero =>
    intro i s s' D D' hInv hmode h
    cases i with
    | zero =>
      rw [decRef_zero] at h
      cases Except.ok.inj h
      rcases hmode with ⟨rfl, _⟩ | ⟨o, om, rfl, hfo, hrco, hany, hnin⟩
      · exact hInv
      · obtain ⟨e, he, hbe⟩ := List.any_eq_true.mp hany
        have h0 : e.source = 0 := by simpa using hbe
        exact absurd h0 (hInv.eord o om hfo e he).2
    | succ k => exact Except.noConfusion h
  | succ fuel ih =>
    intro i s s' D D' hInv hmode h
    cases i with
    | zero =>
      rw [decRef_zero] at h
      cases Except.ok.inj h
      rcases hmode with ⟨rfl, _⟩ | ⟨o, om, rfl, hfo, hrco, hany, hnin⟩
      · exact hInv
      · obtain ⟨e, he, hbe⟩ := List.any_eq_true.mp hany
        have h0 : e.source = 0 := by simpa using hbe
        exact absurd h0 (hInv.eord o om hfo e he).2
    | succ k =>
      cases hfi : s.find? (k + 1) with
      | none =>
        rw [decRef_succ_notfound (Nat.succ_ne_zero k) hfi] at h
        exact Except.noConfusion h
      | some n =>
        rw [decRef_succ_found (Nat.succ_ne_zero k) hfi] at h
        by_cases hrc : n.ref_count = 0
        · rw [if_pos hrc] at h
          exact Except.noConfusion h
        · rw [if_neg hrc] at h
          have hmode' : (D' = D ∧
                edgeRefs s (k+1) < rcOf s (k+1) + dcount D (k+1))
              ∨ (∃ o om, D' = D ++ [(o, k+1)] ∧ s.find? o = some om ∧
                  om.ref_count = 0 ∧
                  om.edges.any (fun e => e.source == k+1) = true ∧
                  (o, k+1) ∉ D) := by
            rcases hmode with ⟨hD, hA⟩ | hB
            · rcases hA with h0 | hA
              · exact absurd h0 (Nat.succ_ne_zero k)
              · exact Or.inl ⟨hD, hA⟩
            · exact Or.inr hB
          have hInv₁ : InvD (s.setNode (k+1)
              { n with ref_count := n.ref_count - 1 }) D' :=
            decrement_invD hInv hfi hrc hmode'
          by_cases hz : n.ref_count - 1 = 0
          · rw [if_pos hz] at h
            have hf₁ : (s.setNode (k+1)
                { n with ref_count := n.ref_count - 1 }).find? (k+1)
                = some { n with ref_count := n.ref_count - 1 } :=
              find?_setNode_self hfi
            rw [freeNode_found hf₁] at h
            have hrcni : ({ n with ref_count := n.ref_count - 1 }
                : Node).ref_count = 0 := hz
            have hnoD' : ∀ x, ((k+1 : Index), x) ∉ D' := by
              intro x hx
              rcases hmode' with ⟨rfl, _⟩ | ⟨o, om, rfl, hfo, hrco, _, _⟩
              · have := hInv.drc (k+1, x) hx
                rw [rcOf_of_find? hfi] at this
                exact hrc this
              · rcases List.mem_append.mp hx with hx' | hx'
                · have := hInv.drc (k+1, x) hx'
                  rw [rcOf_of_find? hfi] at this
                  exact hrc this
                · have hxe : ((k+1 : Index), x) = (o, k+1) := by
                    simpa using hx'
                  have hko : (k+1 : Index) = o :=
                    ((Prod.mk.injEq _ _ _ _).mp hxe).1
                  rw [← hko] at hfo
                  rw [hfi] at hfo
                  cases Option.some.inj hfo
                  exact hrc hrco
            have fold_inv : ∀ (es : List Edge) (s₀ s₁ : TapeState)
                (D₀ : List (Index × Index)),
                InvD s₀ D₀ →
                s₀.find? (k+1) = some { n with ref_count := n.ref_count - 1 } →
                (∀ e ∈ es, e ∈ ({ n with ref_count := n.ref_count - 1 }
                  : Node).edges) →
                (∀ e ∈ es, ((k+1 : Index), e.source) ∉ D₀) →
                List.Pairwise (fun e f => e.source ≠ f.source) es →
                es.foldlM (fun s e => decRef fuel s e.source) s₀ = .ok s₁ →
                InvD s₁ (D₀ ++ es.map (fun e => ((k+1 : Index), e.source))) ∧
                  s₁.find? (k+1)
                    = some { n with ref_count := n.ref_count - 1 } := by
              intro es
              induction es with
              | nil =>
                intro s₀ s₁ D₀ hI hfs _ _ _ hh
                rw [List.foldlM_nil] at hh
                cases Except.ok.inj hh
                rw [List.map_nil, List.append_nil]
                exact ⟨hI, hfs⟩
              | cons e es ihe =>
                intro s₀ s₁ D₀ hI hfs hsub hfr hpw hh
                rw [List.foldlM_cons] at hh
                cases hs : decRef fuel s₀ e.source with
                | error er => rw [hs] at hh; exact Except.noConfusion hh
                | ok s₂ =>
                  rw [hs] at hh
                  have he_mem := hsub e (List.mem_cons_self e es)
                  have hI₂ : InvD s₂
                      (D₀ ++ [((k+1 : Index), e.source)]) :=
                    ih e.source s₀ s₂ D₀ _ hI
                      (Or.inr ⟨k+1, { n with ref_count := n.ref_count - 1 },
                        rfl, hfs, hrcni, any_src_of_mem he_mem,
                        hfr e (List.mem_cons_self e es)⟩) hs
                  have hlt : e.source < k+1 :=
                    (hI.eord (k+1) _ hfs e he_mem).1
                  have hfr₂ : s₂.find? (k+1)
                      = some { n with ref_count := n.ref_count - 1 } := by
                    obtain ⟨_, hfrm⟩ :=
                      decRef_frame fuel e.source s₀ s₂ hI.toEord hs
                    rw [hfrm (k+1) hlt]
                    exact hfs
                  obtain ⟨hI₃, hfs₃⟩ := ihe s₂ s₁
                    (D₀ ++ [((k+1 : Index), e.source)]) hI₂ hfr₂
                    (fun f hf => hsub f (List.mem_cons_of_mem e hf))
                    (fun f hf hmem => by
                      rcases List.mem_append.mp hmem with hm | hm
                      · exact hfr f (List.mem_cons_of_mem e hf) hm
                      · have hfe : f.source = e.source := by simpa using hm
                        exact (List.pairwise_cons.mp hpw).1 f hf hfe.symm)
                    (List.pairwise_cons.mp hpw).2 hh
                  refine ⟨?_, hfs₃⟩
                  rw [List.map_cons, List.append_cons]
                  exact hI₃
            cases hfold : ({ n with ref_count := n.ref_count - 1 }
                : Node).edges.foldlM (fun s e => decRef fuel s e.source)
                (s.setNode (k+1) { n with ref_count := n.ref_count - 1 }) with
            | error er => rw [hfold] at h; exact Except.noConfusion h
            | ok sf =>
              rw [hfold] at h
              have h2 : (.ok (sf.eraseNode (k+1))
                  : Except Err TapeState) = .ok s' := h
              cases Except.ok.inj h2
              obtain ⟨hIf, hff⟩ := fold_inv _ _ sf D' hInv₁ hf₁
                (fun e he => he) (fun e _ => hnoD' e.source)
                (hInv₁.euniq (k+1) _ hf₁) hfold
              exact erase_invD hIf hff hrcni hnoD'
          · rw [if_neg hz] at h
            cases Except.ok.inj h
            exact hInv₁

end Enoki

namespace Enoki

theorem Inv.pres {st : TapeState} (h : Inv st) :
    ∀ t n, st.find? t = some n → ∀ e ∈ n.edges,
      (st.find? e.source).isSome :=
  fun t n hf e he => (h.epres t n hf e he).resolve_right
    (fun hx => absurd hx (List.not_mem_nil _))

theorem Inv.refs0 {st : TapeState} (h : Inv st) :
    ∀ j, edgeRefs st j ≤ rcOf st j := by
  intro j
  have := h.refs j
  simpa [dcount] using this

theorem inv_mk {st : TapeState}
    (cpos : 0 < st.node_counter)
    (keys : ∀ k ∈ st.nodes.map Prod.fst, k ≠ 0 ∧ k < st.node_counter)
    (knodup : (st.nodes.map Prod.fst).Nodup)
    (eord : ∀ t n, st.find? t = some n → ∀ e ∈ n.edges,
      e.source < t ∧ e.source ≠ 0)
    (pres : ∀ t n, st.find? t = some n → ∀ e ∈ n.edges,
      (st.find? e.source).isSome)
    (euniq : ∀ t n, st.find? t = some n →
      List.Pairwise (fun e f => e.source ≠ f.source) n.edges)
    (refs : ∀ j, edgeRefs st j ≤ rcOf st j) : Inv st :=
  ⟨cpos, keys, knodup, eord,
    fun t n hf e he => Or.inl (pres t n hf e he), euniq,
    fun j => by have := refs j; simpa [dcount] using this,
    fun q hq => absurd hq (List.not_mem_nil q),
    List.nodup_nil,
    fun q hq => absurd hq (List.not_mem_nil q)⟩

theorem any_source_map (es : List Edge) (j : Index) :
    es.any (fun e => e.source == j)
      = (es.map (fun e => e.source)).any (fun k => k == j) := by
  induction es with
  | nil => rfl
  | cons e es ih => rw [List.any_cons, List.map_cons, List.any_cons, ih]

/-- Swapping a node for one with the same edge sources (in order) and a
reference count at least as large preserves the graph invariants. -/
theorem setNode_sources_inv {st : TapeState} {i : Index} {n : Node}
    (hInv : Inv st) (hf : st.find? i = some n) (m : Node)
    (hsrc : m.edges.map (fun e => e.source)
      = n.edges.map (fun e => e.source))
    (hrc : n.ref_count ≤ m.ref_count) : Inv (st.setNode i m) := by
  have hmem : ∀ e ∈ m.edges, ∃ f ∈ n.edges, f.source = e.source := by
    intro e he
    have : e.source ∈ n.edges.map (fun e => e.source) := by
      rw [← hsrc]
      exact List.mem_map_of_mem _ he
    obtain ⟨f, hf', hfe⟩ := List.mem_map.mp this
    exact ⟨f, hf', hfe⟩
  have howns : ∀ j, ownsEdge (i, m) j = ownsEdge (i, n) j := by
    intro j
    show m.edges.any (fun e => e.source == j) = n.edges.any (fun e => e.source == j)
    rw [any_source_map, any_source_map, hsrc]
  refine inv_mk hInv.cpos ?_ ?_ ?_ ?_ ?_ ?_
  · intro k hk
    rw [setNode_nodes, keys_substNode] at hk
    exact hInv.keys k hk
  · rw [setNode_nodes, keys_substNode]
    exact hInv.knodup
  · intro t n' hf' e he
    by_cases ht : t = i
    · subst ht
      rw [find?_setNode_self hf] at hf'
      cases Option.some.inj hf'
      obtain ⟨f, hfm, hfe⟩ := hmem e he
      rw [← hfe]
      exact hInv.eord t n hf f hfm
    · rw [find?_setNode_ne _ ht] at hf'
      exact hInv.eord t n' hf' e he
  · intro t n' hf' e he
    rw [isSome_setNode _ hf]
    by_cases ht : t = i
    · subst ht
      rw [find?_setNode_self hf] at hf'
      cases Option.some.inj hf'
      obtain ⟨f, hfm, hfe⟩ := hmem e he
      rw [← hfe]
      exact hInv.pres t n hf f hfm
    · rw [find?_setNode_ne _ ht] at hf'
      exact hInv.pres t n' hf' e he
  · intro t n' hf'
    by_cases ht : t = i
    · subst ht
      rw [find?_setNode_self hf] at hf'
      cases Option.some.inj hf'
      have h1 : List.Pairwise (fun a b => a ≠ b)
          (m.edges.map (fun e => e.source)) := by
        rw [hsrc]
        exact (List.pairwise_map).mpr (hInv.euniq t n hf)
      exact (List.pairwise_map).mp h1
    · rw [find?_setNode_ne _ ht] at hf'
      exact hInv.euniq t n' hf'
  · intro j
    rw [edgeRefs_setNode m hInv.knodup hf (howns j)]
    by_cases hj : j = i
    · subst hj
      rw [rcOf_setNode_self _ hf]
      exact le_trans (hInv.refs0 j) (by rw [rcOf_of_find? hf]; exact hrc)
    · rw [rcOf_setNode_ne _ hj]
      exact hInv.refs0 j

theorem mergeWeight_sources (es : List Edge) (src : Index)
    (f : Value → Value) :
    (mergeWeight es src f).map (fun e => e.source)
      = es.map (fun e => e.source) := by
  induction es with
  | nil => rfl
  | cons e es ih =>
    unfold mergeWeight
    by_cases he : e.source = src
    · rw [if_pos he]
      rfl
    · rw [if_neg he, List.map_cons, List.map_cons, ih]

/-- The weight-merging branch of `append_edge`/`append_edge_prod`. -/
theorem merge_inv {st : TapeState} {tgt : Index} {target : Node}
    (src : Index) (f : Value → Value)
    (hInv : Inv st) (hft : st.find? tgt = some target) :
    Inv (st.setNode tgt
      { target with edges := mergeWeight target.edges src f }) :=
  setNode_sources_inv hInv hft _ (mergeWeight_sources target.edges src f)
    (le_refl _)

theorem inv_scheduled {st : TapeState} (hInv : Inv st) (l : List Index) :
    Inv { st with scheduled := l } :=
  ⟨hInv.cpos, hInv.keys, hInv.knodup, hInv.eord, hInv.epres, hInv.euniq,
    hInv.refs, hInv.dphys, hInv.dnodup, hInv.drc⟩

end Enoki

namespace Enoki

/-- No stored edge points at an id the counter has not issued yet. -/
theorem edgeRefs_fresh {st : TapeState} (hInv : Inv st) :
    ∀ j, st.node_counter ≤ j → edgeRefs st j = 0 := by
  intro j hj
  refine List.countP_eq_zero.mpr ?_
  intro p hp
  have hkey := hInv.keys p.1 (List.mem_map_of_mem Prod.fst hp)
  have hfp : st.find? p.1 = some p.2 := findVal_of_mem hInv.knodup hp
  have hsrc : ∀ e ∈ p.2.edges, e.source < j := by
    intro e he
    exact lt_of_lt_of_le (lt_trans (hInv.eord p.1 p.2 hfp e he).1
      (lt_of_lt_of_le hkey.2 hj)) (le_refl j)
  intro hc
  have h0 : ownsEdge p j = false := any_src_eq_false_of_lt hsrc
  rw [h0] at hc
  exact Bool.noConfusion hc

/-- The prefixed label `append_node` computes. -/
def pfxLabel (st : TapeState) (label : String) : String :=
  st.prefixes.foldr (fun p acc => p ++ "/" ++ acc) label

theorem appendNode_find? (st : TapeState) (size : ℕ) (label : String)
    (j : Index) :
    (appendNode st size label).2.find? j =
      if j = st.node_counter then
        some { label := pfxLabel st label, size := size, ref_count := 1 }
      else st.find? j := by
  by_cases hj : j = st.node_counter
  · rw [if_pos hj, hj]
    exact findVal_cons_self
  · rw [if_neg hj]
    show findVal (_ :: st.nodes) j = st.find? j
    rw [findVal_cons_ne (fun e => hj e.symm)]
    rfl

theorem appendNode_inv {st : TapeState} (hInv : Inv st) (size : ℕ)
    (label : String) : Inv (appendNode st size label).2 := by
  set c := st.node_counter with hc
  set nd : Node := { label := pfxLabel st label, size := size, ref_count := 1 } with hnd
  have hfind : ∀ j, (appendNode st size label).2.find? j
      = if j = c then some nd else st.find? j :=
    appendNode_find? st size label
  have hkeys : (appendNode st size label).2.nodes.map Prod.fst
      = c :: st.nodes.map Prod.fst := rfl
  have hrefs : ∀ j, edgeRefs (appendNode st size label).2 j
      = edgeRefs st j := by
    intro j
    show ((c, nd) :: st.nodes).countP (fun p => ownsEdge p j) = _
    rw [List.countP_cons]
    have : ownsEdge (c, nd) j = false := rfl
    simp [this, edgeRefs]
  refine inv_mk ?_ ?_ ?_ ?_ ?_ ?_ ?_
  · exact Nat.succ_pos c
  · intro k hk
    rw [hkeys] at hk
    rcases List.mem_cons.mp hk with rfl | hk'
    · exact ⟨Nat.pos_iff_ne_zero.mp hInv.cpos, Nat.lt_succ_self c⟩
    · obtain ⟨h1, h2⟩ := hInv.keys k hk'
      exact ⟨h1, Nat.lt_succ_of_lt h2⟩
  · rw [hkeys]
    refine List.nodup_cons.mpr ⟨?_, hInv.knodup⟩
    intro hmem
    exact absurd (hInv.keys c hmem).2 (lt_irrefl c)
  · intro t n hf e he
    rw [hfind] at hf
    by_cases ht : t = c
    · rw [if_pos ht] at hf
      cases Option.some.inj hf
      exact absurd he (List.not_mem_nil e)
    · rw [if_neg ht] at hf
      exact hInv.eord t n hf e he
  · intro t n hf e he
    rw [hfind t] at hf
    rw [hfind e.source]
    by_cases ht : t = c
    · rw [if_pos ht] at hf
      cases Option.some.inj hf
      exact absurd he (List.not_mem_nil e)
    · rw [if_neg ht] at hf
      by_cases hs : e.source = c
      · rw [if_pos hs]
        rfl
      · rw [if_neg hs]
        exact hInv.pres t n hf e he
  · intro t n hf
    rw [hfind] at hf
    by_cases ht : t = c
    · rw [if_pos ht] at hf
      cases Option.some.inj hf
      exact List.Pairwise.nil
    · rw [if_neg ht] at hf
      exact hInv.euniq t n hf
  · intro j
    rw [hrefs]
    by_cases hj : j = c
    · subst hj
      rw [edgeRefs_fresh hInv c (le_refl c)]
      exact Nat.zero_le _
    · have : rcOf (appendNode st size label).2 j = rcOf st j := by
        unfold rcOf
        rw [hfind, if_neg hj]
      rw [this]
      exact hInv.refs0 j

theorem appendLeaf_inv {st : TapeState} {size : ℕ} {idx : Index}
    {st' : TapeState} (hInv : Inv st)
    (h : appendLeaf st size = .ok (idx, st')) : Inv st' := by
  have hInv₁ := appendNode_inv hInv size "'unnamed'"
  set nd : Node := { label := pfxLabel st "'unnamed'", size := size, ref_count := 1 } with hnd
  have hf : (appendNode st size "'unnamed'").2.find? st.node_counter
      = some nd := by
    rw [appendNode_find?, if_pos rfl]
  have h' : (getNode (appendNode st size "'unnamed'").2
        st.node_counter).bind (fun n =>
      .ok (st.node_counter, (appendNode st size "'unnamed'").2.setNode
        st.node_counter { n with grad := zeroV n.size }))
      = .ok (idx, st') := h
  rw [getNode_ok.mpr hf] at h'
  have h2 : (.ok (st.node_counter,
      (appendNode st size "'unnamed'").2.setNode st.node_counter
        { nd with grad := zeroV nd.size })
      : Except Err (Index × TapeState)) = .ok (idx, st') := h'
  have h3 := Prod.mk.injEq _ _ _ _ |>.mp (Except.ok.inj h2)
  rw [← h3.2]
  exact setNode_sources_inv hInv₁ hf _ rfl (le_refl _)

theorem incRef_inv {st : TapeState} {i : Index} {st' : TapeState}
    (hInv : Inv st) (h : incRef st i = .ok st') : Inv st' := by
  unfold incRef at h
  by_cases hi : i = 0
  · rw [if_pos hi] at h
    cases Except.ok.inj h
    exact hInv
  · rw [if_neg hi] at h
    cases hf : st.find? i with
    | none =>
      rw [show getNode st i = .error (.unknownNode i) by
        unfold getNode; rw [hf]] at h
      exact Except.noConfusion h
    | some n =>
      rw [getNode_ok.mpr hf] at h
      have h2 : (.ok (st.setNode i { n with ref_count := n.ref_count + 1 })
          : Except Err TapeState) = .ok st' := h
      cases Except.ok.inj h2
      exact setNode_sources_inv hInv hf _ rfl (Nat.le_succ _)

/-- The fresh-edge branch: tail-append an edge `src → tgt` and take a
reference on `src`. -/
theorem fresh_inv {st : TapeState} {src tgt : Index} {source target : Node}
    {w : Value} {st' : TapeState}
    (hInv : Inv st) (hsrc0 : src ≠ 0) (hlt : src < tgt)
    (hfs : st.find? src = some source) (hft : st.find? tgt = some target)
    (hany : target.edges.any (fun e => e.source == src) = false)
    (h : incRef (st.setNode tgt
      (target.appendEdgeRaw { source := src, weight := w })) src
      = .ok st') : Inv st' := by
  set m : Node := target.appendEdgeRaw { source := src, weight := w }
    with hm
  set st₁ : TapeState := st.setNode tgt m with hst₁
  have hne : src ≠ tgt := Nat.ne_of_lt hlt
  have hf₁ : st₁.find? src = some source := by
    rw [hst₁, find?_setNode_ne _ hne]
    exact hfs
  have hft₁ : st₁.find? tgt = some m := by
    rw [hst₁]
    exact find?_setNode_self hft
  unfold incRef at h
  rw [if_neg hsrc0, getNode_ok.mpr hf₁] at h
  have h2 : (.ok (st₁.setNode src
      { source with ref_count := source.ref_count + 1 })
      : Except Err TapeState) = .ok st' := h
  cases Except.ok.inj h2
  have hkeys₁ : st₁.nodes.map Prod.fst = st.nodes.map Prod.fst := by
    rw [hst₁, setNode_nodes, keys_substNode]
  have hnd₁ : (st₁.nodes.map Prod.fst).Nodup := by
    rw [hkeys₁]; exact hInv.knodup
  have hfind₁ : ∀ j, st₁.find? j = if j = tgt then some m else st.find? j := by
    intro j
    by_cases hj : j = tgt
    · rw [if_pos hj, hj, hst₁, find?_setNode_self hft]
    · rw [if_neg hj, hst₁, find?_setNode_ne _ hj]
  have hfind : ∀ j, (st₁.setNode src
      { source with ref_count := source.ref_count + 1 }).find? j
      = if j = src then some { source with
          ref_count := source.ref_count + 1 }
        else st₁.find? j := by
    intro j
    by_cases hj : j = src
    · rw [if_pos hj, hj, find?_setNode_self hf₁]
    · rw [if_neg hj, find?_setNode_ne _ hj]
  have hmem_edges : ∀ e ∈ m.edges,
      e ∈ target.edges ∨ e = { source := src, weight := w } := by
    intro e he
    have he' : e ∈ target.edges ++ [{ source := src, weight := w }] := he
    rcases List.mem_append.mp he' with h1 | h1
    · exact Or.inl h1
    · exact Or.inr (by simpa using h1)
  have howns_m : ∀ j, j ≠ src → ownsEdge (tgt, m) j = ownsEdge (tgt, target) j := by
    intro j hj
    show (target.edges ++ [({ source := src, weight := w } : Edge)]).any
        (fun e => e.source == j) = target.edges.any (fun e => e.source == j)
    rw [List.any_append]
    have : ([{ source := src, weight := w }] : List Edge).any
        (fun e => e.source == j) = false := by
      simp only [List.any_cons, List.any_nil, Bool.or_false]
      simpa using Ne.symm hj
    rw [this, Bool.or_false]
  have howns_src : ownsEdge (tgt, m) src = true := by
    show (target.edges ++ [({ source := src, weight := w } : Edge)]).any
        (fun e => e.source == src) = true
    rw [List.any_append]
    simp
  have hrefs₁ : ∀ j, j ≠ src → edgeRefs st₁ j = edgeRefs st j := by
    intro j hj
    rw [hst₁]
    exact edgeRefs_setNode m hInv.knodup hft (howns_m j hj)
  have hrefs₁s : edgeRefs st₁ src = edgeRefs st src + 1 := by
    rw [hst₁]
    exact edgeRefs_setNode_flip m hInv.knodup hft hany howns_src
  have hrefs₂ : ∀ j, edgeRefs (st₁.setNode src
      { source with ref_count := source.ref_count + 1 }) j
      = edgeRefs st₁ j := by
    intro j
    exact edgeRefs_setNode _ hnd₁ hf₁ rfl
  refine inv_mk hInv.cpos ?_ ?_ ?_ ?_ ?_ ?_
  · intro k hk
    rw [setNode_nodes, keys_substNode, hkeys₁] at hk
    exact hInv.keys k hk
  · rw [setNode_nodes, keys_substNode, hkeys₁]
    exact hInv.knodup
  · intro t n hf' e he
    rw [hfind] at hf'
    by_cases ht : t = src
    · rw [if_pos ht] at hf'
      cases Option.some.inj hf'
      subst ht
      exact hInv.eord t source hfs e he
    · rw [if_neg ht, hfind₁] at hf'
      by_cases ht' : t = tgt
      · rw [if_pos ht'] at hf'
        cases Option.some.inj hf'
        subst ht'
        rcases hmem_edges e he with h1 | h1
        · exact hInv.eord t target hft e h1
        · rw [h1]
          exact ⟨hlt, hsrc0⟩
      · rw [if_neg ht'] at hf'
        exact hInv.eord t n hf' e he
  · intro t n hf' e he
    have hiso : ∀ j, ((st₁.setNode src { source with
        ref_count := source.ref_count + 1 }).find? j).isSome
        = (st.find? j).isSome := by
      intro j
      rw [isSome_setNode _ hf₁, hst₁, isSome_setNode _ hft]
    rw [hiso]
    rw [hfind] at hf'
    by_cases ht : t = src
    · rw [if_pos ht] at hf'
      cases Option.some.inj hf'
      subst ht
      exact hInv.pres t source hfs e he
    · rw [if_neg ht, hfind₁] at hf'
      by_cases ht' : t = tgt
      · rw [if_pos ht'] at hf'
        cases Option.some.inj hf'
        subst ht'
        rcases hmem_edges e he with h1 | h1
        · exact hInv.pres t target hft e h1
        · rw [h1]
          show (st.find? src).isSome
          rw [hfs]
          rfl
      · rw [if_neg ht'] at hf'
        exact hInv.pres t n hf' e he
  · intro t n hf'
    rw [hfind] at hf'
    by_cases ht : t = src
    · rw [if_pos ht] at hf'
      cases Option.some.inj hf'
      exact hInv.euniq src source hfs
    · rw [if_neg ht, hfind₁] at hf'
      by_cases ht' : t = tgt
      · rw [if_pos ht'] at hf'
        cases Option.some.inj hf'
        show List.Pairwise (fun e f => e.source ≠ f.source)
          (target.edges ++ [{ source := src, weight := w }])
        rw [List.pairwise_append]
        refine ⟨hInv.euniq tgt target hft, List.pairwise_singleton _ _, ?_⟩
        intro e he f hfm
        have hf1 : f = { source := src, weight := w } := by simpa using hfm
        rw [hf1]
        intro hc
        have := List.any_eq_false.mp hany e he
        simp only at this
        exact this (by simpa using hc)
      · rw [if_neg ht'] at hf'
        exact hInv.euniq t n hf'
  · intro j
    rw [hrefs₂ j]
    have hrc : rcOf (st₁.setNode src { source with
        ref_count := source.ref_count + 1 }) j
        = if j = src then source.ref_count + 1 else rcOf st j := by
      by_cases hj : j = src
      · rw [if_pos hj, hj]
        unfold rcOf
        rw [find?_setNode_self hf₁]
        rfl
      · rw [if_neg hj]
        unfold rcOf
        rw [find?_setNode_ne _ hj, hfind₁]
        by_cases hj' : j = tgt
        · rw [if_pos hj', hj']
          rw [show st.find? tgt = some target from hft]
          rfl
        · rw [if_neg hj']
    rw [hrc]
    by_cases hj : j = src
    · subst hj
      rw [if_pos rfl, hrefs₁s]
      have := hInv.refs0 j
      rw [rcOf_of_find? hfs] at this
      omega
    · rw [if_neg hj, hrefs₁ j hj]
      exact hInv.refs0 j

end Enoki

namespace Enoki

theorem appendEdgeProd_inv : ∀ (fuel : ℕ) (st : TapeState)
    (src tgt : Index) (w1 w2 : Value) (st' : TapeState), Inv st →
    src < tgt → appendEdgeProd fuel st src tgt w1 w2 = .ok st' →
    Inv st' := by
  intro fuel
  induction fuel with
  | zero =>
    intro st src tgt w1 w2 st' _ _ h
    exact Except.noConfusion h
  | succ fuel ih =>
    intro st src tgt w1 w2 st' hInv hlt h
    by_cases hsrc : src = 0
    · subst hsrc
      have h0 : appendEdgeProd (fuel + 1) st 0 tgt w1 w2 = .ok st := by
        conv_lhs => rw [appendEdgeProd]
        rw [if_pos rfl]
      rw [h0] at h
      cases Except.ok.inj h
      exact hInv
    · rw [appendEdgeProd_succ fuel st src tgt w1 w2 hsrc] at h
      cases hfs : getNode st src with
      | error e => rw [hfs] at h; exact Except.noConfusion h
      | ok source =>
        rw [hfs] at h
        cases hft : getNode st tgt with
        | error e => rw [hft] at h; exact Except.noConfusion h
        | ok target =>
          rw [hft] at h
          have h' : (if ¬source.hasSpecial ∧ source.size = target.size ∧
                0 < source.degree ∧ st.contract_edges then
              source.edges.foldlM (fun s e =>
                appendEdgeProd fuel s e.source tgt (safe_mul w1 w2) e.weight)
                st
            else if target.edges.any (fun e => e.source == src) then
              .ok (st.setNode tgt { target with
                edges := mergeWeight target.edges src (safe_fmadd w1 w2) })
            else incRef (st.setNode tgt (target.appendEdgeRaw
              { source := src, weight := safe_mul w1 w2 })) src)
              = .ok st' := h
          by_cases hcon : ¬source.hasSpecial ∧ source.size = target.size ∧
              0 < source.degree ∧ st.contract_edges
          · rw [if_pos hcon] at h'
            refine foldlM_ind_mem (P := fun (a b : TapeState) =>
              Inv a → Inv b) source.edges (fun s hs => hs)
              (fun a b c hab hbc ha => hbc (hab ha)) ?_ st st' h' hInv
            intro s e s₂ he hs ha
            have hes : e.source < tgt :=
              lt_trans (hInv.eord src source (getNode_ok.mp hfs) e he).1 hlt
            exact ih s e.source tgt (safe_mul w1 w2) e.weight s₂ ha hes hs
          · rw [if_neg hcon] at h'
            by_cases hany : target.edges.any (fun e => e.source == src)
                = true
            · rw [if_pos hany] at h'
              cases Except.ok.inj h'
              exact merge_inv src _ hInv (getNode_ok.mp hft)
            · rw [if_neg hany] at h'
              have hanyf : target.edges.any (fun e => e.source == src)
                  = false := by simpa using hany
              exact fresh_inv hInv hsrc hlt (getNode_ok.mp hfs)
                (getNode_ok.mp hft) hanyf h'

theorem appendEdge_inv {fuel : ℕ} {st : TapeState} {src tgt : Index}
    {weight : Value} {st' : TapeState} (hInv : Inv st) (hlt : src < tgt)
    (h : appendEdge fuel st src tgt weight = .ok st') : Inv st' := by
  unfold appendEdge at h
  by_cases hsrc : src = 0
  · rw [if_pos hsrc] at h
    cases Except.ok.inj h
    exact hInv
  · rw [if_neg hsrc] at h
    cases hfs : getNode st src with
    | error e => rw [hfs] at h; exact Except.noConfusion h
    | ok source =>
      rw [hfs] at h
      cases hft : getNode st tgt with
      | error e => rw [hft] at h; exact Except.noConfusion h
      | ok target =>
        rw [hft] at h
        have h' : (if ¬source.hasSpecial ∧ source.size = target.size ∧
              0 < source.degree ∧ st.contract_edges then
            source.edges.foldlM (fun s e =>
              appendEdgeProd fuel s e.source tgt weight e.weight) st
          else if target.edges.any (fun e => e.source == src) then
            .ok (st.setNode tgt { target with
              edges := mergeWeight target.edges src
                (fun w => addV w weight) })
          else incRef (st.setNode tgt (target.appendEdgeRaw
            { source := src, weight := weight })) src)
            = .ok st' := h
        by_cases hcon : ¬source.hasSpecial ∧ source.size = target.size ∧
            0 < source.degree ∧ st.contract_edges
        · rw [if_pos hcon] at h'
          refine foldlM_ind_mem (P := fun (a b : TapeState) =>
            Inv a → Inv b) source.edges (fun s hs => hs)
            (fun a b c hab hbc ha => hbc (hab ha)) ?_ st st' h' hInv
          intro s e s₂ he hs ha
          have hes : e.source < tgt :=
            lt_trans (hInv.eord src source (getNode_ok.mp hfs) e he).1 hlt
          exact appendEdgeProd_inv fuel s e.source tgt weight e.weight s₂
            ha hes hs
        · rw [if_neg hcon] at h'
          by_cases hany : target.edges.any (fun e => e.source == src) = true
          · rw [if_pos hany] at h'
            cases Except.ok.inj h'
            exact merge_inv src _ hInv (getNode_ok.mp hft)
          · rw [if_neg hany] at h'
            have hanyf : target.edges.any (fun e => e.source == src)
                = false := by simpa using hany
            exact fresh_inv hInv hsrc hlt (getNode_ok.mp hfs)
              (getNode_ok.mp hft) hanyf h'

theorem append1_inv {st : TapeState} {label : String} {size : ℕ}
    {i1 : Index} {w1 : Value} {idx : Index} {st' : TapeState}
    (hInv : Inv st) (h1 : i1 < st.node_counter)
    (h : append1 st label size i1 w1 = .ok (idx, st')) : Inv st' := by
  unfold append1 at h
  by_cases hi : i1 = 0
  · rw [if_pos hi] at h
    have h2 := (Prod.mk.injEq _ _ _ _).mp (Except.ok.inj h)
    rw [← h2.2]
    exact hInv
  · rw [if_neg hi] at h
    have h' : (appendEdge st.node_counter (appendNode st size label).2 i1
        st.node_counter w1).bind
        (fun st₂ => .ok (st.node_counter, st₂)) = .ok (idx, st') := h
    cases hae : appendEdge st.node_counter (appendNode st size label).2 i1
        st.node_counter w1 with
    | error e => rw [hae] at h'; exact Except.noConfusion h'
    | ok st₂ =>
      rw [hae] at h'
      have h2 := (Prod.mk.injEq _ _ _ _).mp (Except.ok.inj h')
      rw [← h2.2]
      exact appendEdge_inv (appendNode_inv hInv size label) h1 hae

theorem append2_inv {st : TapeState} {label : String} {size : ℕ}
    {i1 i2 : Index} {w1 w2 : Value} {idx : Index} {st' : TapeState}
    (hInv : Inv st) (h1 : i1 < st.node_counter) (h2 : i2 < st.node_counter)
    (h : append2 st label size i1 i2 w1 w2 = .ok (idx, st')) : Inv st' := by
  unfold append2 at h
  by_cases hi : i1 = 0 ∧ i2 = 0
  · rw [if_pos hi] at h
    have hp := (Prod.mk.injEq _ _ _ _).mp (Except.ok.inj h)
    rw [← hp.2]
    exact hInv
  · rw [if_neg hi] at h
    have h' : (appendEdge st.node_counter (appendNode st size label).2 i1
        st.node_counter w1).bind (fun st₂ =>
          (appendEdge st.node_counter st₂ i2 st.node_counter w2).bind
            (fun st₃ => .ok (st.node_counter, st₃))) = .ok (idx, st') := h
    cases hae : appendEdge st.node_counter (appendNode st size label).2 i1
        st.node_counter w1 with
    | error e => rw [hae] at h'; exact Except.noConfusion h'
    | ok st₂ =>
      rw [hae] at h'
      have h'' : (appendEdge st.node_counter st₂ i2
          st.node_counter w2).bind
          (fun st₃ => .ok (st.node_counter, st₃)) = .ok (idx, st') := h'
      cases hae2 : appendEdge st.node_counter st₂ i2 st.node_counter w2 with
      | error e => rw [hae2] at h''; exact Except.noConfusion h''
      | ok st₃ =>
        rw [hae2] at h''
        have hp := (Prod.mk.injEq _ _ _ _).mp (Except.ok.inj h'')
        rw [← hp.2]
        exact appendEdge_inv
          (appendEdge_inv (appendNode_inv hInv size label) h1 hae) h2 hae2

theorem append3_inv {st : TapeState} {label : String} {size : ℕ}
    {i1 i2 i3 : Index} {w1 w2 w3 : Value} {idx : Index} {st' : TapeState}
    (hInv : Inv st) (h1 : i1 < st.node_counter) (h2 : i2 < st.node_counter)
    (h3 : i3 < st.node_counter)
    (h : append3 st label size i1 i2 i3 w1 w2 w3 = .ok (idx, st')) :
    Inv st' := by
  unfold append3 at h
  by_cases hi : i1 = 0 ∧ i2 = 0 ∧ i3 = 0
  · rw [if_pos hi] at h
    have hp := (Prod.mk.injEq _ _ _ _).mp (Except.ok.inj h)
    rw [← hp.2]
    exact hInv
  · rw [if_neg hi] at h
    have h' : (appendEdge st.node_counter (appendNode st size label).2 i1
        st.node_counter w1).bind (fun st₂ =>
          (appendEdge st.node_counter st₂ i2 st.node_counter w2).bind
            (fun st₃ =>
              (appendEdge st.node_counter st₃ i3 st.node_counter w3).bind
                (fun st₄ => .ok (st.node_counter, st₄))))
        = .ok (idx, st') := h
    cases hae : appendEdge st.node_counter (appendNode st size label).2 i1
        st.node_counter w1 with
    | error e => rw [hae] at h'; exact Except.noConfusion h'
    | ok st₂ =>
      rw [hae] at h'
      have ha : (appendEdge st.node_counter st₂ i2 st.node_counter w2).bind
          (fun st₃ =>
            (appendEdge st.node_counter st₃ i3 st.node_counter w3).bind
              (fun st₄ => .ok (st.node_counter, st₄)))
          = .ok (idx, st') := h'
      cases hae2 : appendEdge st.node_counter st₂ i2 st.node_counter w2 with
      | error e => rw [hae2] at ha; exact Except.noConfusion ha
      | ok st₃ =>
        rw [hae2] at ha
        have hb : (appendEdge st.node_counter st₃ i3
            st.node_counter w3).bind
            (fun st₄ => .ok (st.node_counter, st₄)) = .ok (idx, st') := ha
        cases hae3 : appendEdge st.node_counter st₃ i3
            st.node_counter w3 with
        | error e => rw [hae3] at hb; exact Except.noConfusion hb
        | ok st₄ =>
          rw [hae3] at hb
          have hp := (Prod.mk.injEq _ _ _ _).mp (Except.ok.inj hb)
          rw [← hp.2]
          exact appendEdge_inv (appendEdge_inv
            (appendEdge_inv (appendNode_inv hInv size label) h1 hae)
            h2 hae2) h3 hae3

end Enoki

namespace Enoki

theorem inv_prefixes {st : TapeState} (hInv : Inv st) (l : List String) :
    Inv { st with prefixes := l } :=
  ⟨hInv.cpos, hInv.keys, hInv.knodup, hInv.eord, hInv.epres, hInv.euniq,
    hInv.refs, hInv.dphys, hInv.dnodup, hInv.drc⟩

theorem computeGradients_inv {st st' : TapeState} {sp : Special}
    {tgt : Index} {e : Edge} (hInv : Inv st)
    (h : computeGradients st sp tgt e = .ok st') : Inv st' := by
  unfold computeGradients at h
  cases htn : getNode st tgt with
  | error er => rw [htn] at h; exact Except.noConfusion h
  | ok tn =>
    rw [htn] at h
    cases hsn : getNode st e.source with
    | error er =>
      rw [hsn] at h
      cases sp <;> exact Except.noConfusion h
    | ok sn =>
      rw [hsn] at h
      cases sp with
      | gather offset mask size permute =>
        have h2 : (.ok (st.setNode e.source { sn with
            grad := if permute then scatterV sn.grad tn.grad offset mask
                    else scatterAddV sn.grad tn.grad offset mask })
            : Except Err TapeState) = .ok st' := h
        cases Except.ok.inj h2
        exact setNode_sources_inv hInv (getNode_ok.mp hsn) _ rfl (le_refl _)
      | scat offset mask =>
        have h2 : (.ok (st.setNode e.source { sn with
            grad := addV sn.grad (gatherV tn.grad offset mask) })
            : Except Err TapeState) = .ok st' := h
        cases Except.ok.inj h2
        exact setNode_sources_inv hInv (getNode_ok.mp hsn) _ rfl (le_refl _)

theorem edgeStep_false_inv {fuel : ℕ} {tgt : Index} {s s' : TapeState}
    {e : Edge} (hInv : Inv s) (h : edgeStep fuel false tgt s e = .ok s') :
    Inv s' := by
  unfold edgeStep at h
  cases hsp : e.special with
  | none =>
    rw [hsp] at h
    cases htn : getNode s tgt with
    | error er => rw [htn] at h; exact Except.noConfusion h
    | ok tn =>
      rw [htn] at h
      cases hsn : getNode s e.source with
      | error er => rw [hsn] at h; exact Except.noConfusion h
      | ok sn =>
        rw [hsn] at h
        have h2 : (.ok (s.setNode e.source { sn with
            grad := safe_fmadd e.weight tn.grad sn.grad })
            : Except Err TapeState) = .ok s' := h
        cases Except.ok.inj h2
        exact setNode_sources_inv hInv (getNode_ok.mp hsn) _ rfl (le_refl _)
  | some sp =>
    rw [hsp] at h
    have h1 : (computeGradients s sp tgt e).bind
        (fun s₁ => if false then decRef fuel s₁ e.source else .ok s₁)
        = .ok s' := h
    cases hcg : computeGradients s sp tgt e with
    | error er => rw [hcg] at h1; exact Except.noConfusion h1
    | ok s₁ =>
      rw [hcg] at h1
      have h2 : (.ok s₁ : Except Err TapeState) = .ok s' := h1
      cases Except.ok.inj h2
      exact computeGradients_inv hInv hcg

theorem processTarget_false_inv {fuel : ℕ} {st st' : TapeState}
    {tgt : Index} (hInv : Inv st)
    (h : processTarget fuel st false tgt = .ok st') : Inv st' := by
  rw [processTarget_eq] at h
  cases hg : getNode st tgt with
  | error er => rw [hg] at h; exact Except.noConfusion h
  | ok n =>
    rw [hg] at h
    have hInv₀ : Inv (if n.is_scalar ∧ n.grad.length ≠ 1 then
        st.setNode tgt { n with grad := hsumV n.grad } else st) := by
      by_cases hc : (n.is_scalar : Prop) ∧ n.grad.length ≠ 1
      · rw [if_pos hc]
        exact setNode_sources_inv hInv (getNode_ok.mp hg) _ rfl (le_refl _)
      · rw [if_neg hc]
        exact hInv
    have h2 : (getNode (if n.is_scalar ∧ n.grad.length ≠ 1 then
          st.setNode tgt { n with grad := hsumV n.grad } else st) tgt).bind
        (fun t₁ =>
          (t₁.edges.foldlM (edgeStep fuel false tgt)
            (if n.is_scalar ∧ n.grad.length ≠ 1 then
              st.setNode tgt { n with grad := hsumV n.grad } else st)).bind
            (fun st₁ =>
              if false then
                (getNode st₁ tgt).bind (fun tn =>
                  decRef fuel (st₁.setNode tgt { tn with edges := [] }) tgt)
              else .ok st₁)) = .ok st' := h
    cases hg1 : getNode (if n.is_scalar ∧ n.grad.length ≠ 1 then
        st.setNode tgt { n with grad := hsumV n.grad } else st) tgt with
    | error er => rw [hg1] at h2; exact Except.noConfusion h2
    | ok t₁ =>
      rw [hg1] at h2
      have h3 : (t₁.edges.foldlM (edgeStep fuel false tgt)
          (if n.is_scalar ∧ n.grad.length ≠ 1 then
            st.setNode tgt { n with grad := hsumV n.grad } else st)).bind
          (fun st₁ =>
            if false then
              (getNode st₁ tgt).bind (fun tn =>
                decRef fuel (st₁.setNode tgt { tn with edges := [] }) tgt)
            else .ok st₁) = .ok st' := h2
      cases hfold : t₁.edges.foldlM (edgeStep fuel false tgt)
          (if n.is_scalar ∧ n.grad.length ≠ 1 then
            st.setNode tgt { n with grad := hsumV n.grad } else st) with
      | error er => rw [hfold] at h3; exact Except.noConfusion h3
      | ok st₁ =>
        rw [hfold] at h3
        have h4 : (.ok st₁ : Except Err TapeState) = .ok st' := h3
        cases Except.ok.inj h4
        refine foldlM_ind_mem (P := fun (a b : TapeState) => Inv a → Inv b)
          t₁.edges (fun s hs => hs) (fun a b c hab hbc ha => hbc (hab ha))
          ?_ _ st' hfold hInv₀
        intro s e s₂ _ hs ha
        exact edgeStep_false_inv ha hs

theorem dfs_inv : ∀ (fuel : ℕ) (k : Index) (c : Bool) (st st' : TapeState),
    Inv st → dfs fuel k c st = .ok st' → Inv st' := by
  intro fuel
  induction fuel with
  | zero =>
    intro k c st st' _ h
    exact Except.noConfusion h
  | succ fuel ih =>
    intro k c st st' hInv h
    by_cases hk : k ∈ st.scheduled
    · rw [dfs_mem_noop hk] at h
      cases Except.ok.inj h
      exact hInv
    · rw [dfs_succ_not_mem hk] at h
      have hInv₁ : Inv { st with scheduled := sinsert k st.scheduled } :=
        inv_scheduled hInv _
      cases hn : getNode { st with scheduled := sinsert k st.scheduled }
          k with
      | error e => rw [hn] at h; exact Except.noConfusion h
      | ok n =>
        rw [hn] at h
        have h' : n.edges.foldlM (fun s e => dfs fuel e.source c s)
            (if c then ({ st with
                scheduled := sinsert k st.scheduled } : TapeState).setNode k
                { n with grad := zeroV n.size }
              else { st with scheduled := sinsert k st.scheduled })
            = .ok st' := h
        have hInv₂ : Inv (if c then ({ st with
            scheduled := sinsert k st.scheduled } : TapeState).setNode k
            { n with grad := zeroV n.size }
          else { st with scheduled := sinsert k st.scheduled }) := by
          cases c
          · exact hInv₁
          · exact setNode_sources_inv hInv₁ (getNode_ok.mp hn) _ rfl
              (le_refl _)
        refine foldlM_ind_mem (P := fun (a b : TapeState) => Inv a → Inv b)
          n.edges (fun s hs => hs) (fun a b c hab hbc ha => hbc (hab ha))
          ?_ _ st' h' hInv₂
        intro s e s₂ _ hs ha
        exact ih e.source c s s₂ ha hs

theorem setGradient_inv {st : TapeState} {i : Index} {v : Value}
    {st' : TapeState} (hInv : Inv st)
    (h : setGradient st i v = .ok st') : Inv st' := by
  unfold setGradient at h
  by_cases hi : i = 0
  · rw [if_pos hi] at h
    exact Except.noConfusion h
  · rw [if_neg hi] at h
    cases hd : dfs (i + 1) i true st with
    | error e => rw [hd] at h; exact Except.noConfusion h
    | ok st₁ =>
      rw [hd] at h
      have h1 : (getNode st₁ i).bind (fun n =>
          .ok (st₁.setNode i { n with grad := v })) = .ok st' := h
      cases hn : getNode st₁ i with
      | error e => rw [hn] at h1; exact Except.noConfusion h1
      | ok n =>
        rw [hn] at h1
        have h2 : (.ok (st₁.setNode i { n with grad := v })
            : Except Err TapeState) = .ok st' := h1
        cases Except.ok.inj h2
        exact setNode_sources_inv (dfs_inv _ i true st st₁ hInv hd)
          (getNode_ok.mp hn) _ rfl (le_refl _)

theorem backward_false_inv {st st' : TapeState} (hInv : Inv st)
    (h : backward st false = .ok st') : Inv st' := by
  have h1 : (st.scheduled.reverse.foldlM
      (fun s u => processTarget s.node_counter s false u) st).bind
      (fun stf => (.ok { stf with scheduled := [] } : Except Err TapeState))
      = .ok st' := h
  cases hfold : st.scheduled.reverse.foldlM
      (fun s u => processTarget s.node_counter s false u) st with
  | error er => rw [hfold] at h1; exact Except.noConfusion h1
  | ok stf =>
    rw [hfold] at h1
    have h2 : (.ok { stf with scheduled := [] } : Except Err TapeState)
        = .ok st' := h1
    cases Except.ok.inj h2
    refine inv_scheduled ?_ []
    refine foldlM_ind_mem (P := fun (a b : TapeState) => Inv a → Inv b)
      st.scheduled.reverse (fun s hs => hs)
      (fun a b c hab hbc ha => hbc (hab ha)) ?_ _ stf hfold hInv
    intro s u s₂ _ hs ha
    exact processTarget_false_inv ha hs

theorem graphvizState_inv {st : TapeState} {roots : List Index}
    {st' : TapeState} (hInv : Inv st)
    (h : graphvizState st roots = .ok st') : Inv st' := by
  unfold graphvizState at h
  cases hfold : roots.foldlM (fun s i => dfs (i + 1) i false s) st with
  | error er => rw [hfold] at h; exact Except.noConfusion h
  | ok st₁ =>
    rw [hfold] at h
    have h2 : (.ok { st₁ with scheduled := [] } : Except Err TapeState)
        = .ok st' := h
    cases Except.ok.inj h2
    refine inv_scheduled ?_ []
    refine foldlM_ind_mem (P := fun (a b : TapeState) => Inv a → Inv b)
      roots (fun s hs => hs) (fun a b c hab hbc ha => hbc (hab ha))
      ?_ _ st₁ hfold hInv
    intro s u s₂ _ hs ha
    exact dfs_inv _ u false s s₂ ha hs

theorem popPrefix_inv {st st' : TapeState} (hInv : Inv st)
    (h : popPrefix st = .ok st') : Inv st' := by
  unfold popPrefix at h
  by_cases hp : st.prefixes = []
  · rw [if_pos hp] at h
    exact Except.noConfusion h
  · rw [if_neg hp] at h
    cases Except.ok.inj h
    exact inv_prefixes hInv _

end Enoki

namespace Enoki

theorem initTape_inv : Inv initTape := by
  refine inv_mk (by decide) ?_ ?_ ?_ ?_ ?_ ?_
  · intro k hk
    exact absurd hk (List.not_mem_nil k)
  · exact List.nodup_nil
  · intro t n hf
    exact Option.noConfusion hf
  · intro t n hf
    exact Option.noConfusion hf
  · intro t n hf
    exact Option.noConfusion hf
  · intro j
    exact Nat.zero_le _

/-- **C6.** The graph invariants — every stored edge points at a strictly
smaller, non-zero id whose node is present in the store, and each node's
edge list has pairwise-distinct sources (at most one edge per
(source, target) pair) — hold in the initial tape and are preserved by
every modeled operation: `append_leaf`, the one/two/three-parent
`append` (parents below the counter), `inc_ref`, `dec_ref` (consuming an
external reference, i.e. one beyond those the edges hold — the cascade
through `free_node` is covered), `set_gradient`, the non-freeing
`backward`, `graphviz`, and the label-prefix stack; and `append_edge`
enforces the uniqueness invariant by merging a repeated edge's weight
(`edge.weight += weight`) into the existing edge — leaving the source
list unchanged — instead of appending a second edge from the same
source. -/
theorem claim_C6 :
    Inv initTape ∧
    (∀ st, Inv st → ∀ t n, st.find? t = some n →
      (∀ e ∈ n.edges, e.source < t ∧ e.source ≠ 0 ∧
        (st.find? e.source).isSome) ∧
      List.Pairwise (fun e f => e.source ≠ f.source) n.edges) ∧
    (∀ st size idx st', Inv st → appendLeaf st size = .ok (idx, st') →
      Inv st') ∧
    (∀ st label size i1 w1 idx st', Inv st → i1 < st.node_counter →
      append1 st label size i1 w1 = .ok (idx, st') → Inv st') ∧
    (∀ st label size i1 i2 w1 w2 idx st', Inv st →
      i1 < st.node_counter → i2 < st.node_counter →
      append2 st label size i1 i2 w1 w2 = .ok (idx, st') → Inv st') ∧
    (∀ st label size i1 i2 i3 w1 w2 w3 idx st', Inv st →
      i1 < st.node_counter → i2 < st.node_counter →
      i3 < st.node_counter →
      append3 st label size i1 i2 i3 w1 w2 w3 = .ok (idx, st') →
      Inv st') ∧
    (∀ st i st', Inv st → incRef st i = .ok st' → Inv st') ∧
    (∀ fuel st i st', Inv st → (i = 0 ∨ edgeRefs st i < rcOf st i) →
      decRef fuel st i = .ok st' → Inv st') ∧
    (∀ st i v st', Inv st → setGradient st i v = .ok st' → Inv st') ∧
    (∀ st st', Inv st → backward st false = .ok st' → Inv st') ∧
    (∀ st roots st', Inv st → graphvizState st roots = .ok st' →
      Inv st') ∧
    (∀ st s, Inv st → Inv (pushPrefix st s)) ∧
    (∀ st st', Inv st → popPrefix st = .ok st' → Inv st') ∧
    (∀ fuel st src tgt w source target, src ≠ 0 →
      st.find? src = some source → st.find? tgt = some target →
      ¬(¬source.hasSpecial ∧ source.size = target.size ∧
        0 < source.degree ∧ st.contract_edges) →
      target.edges.any (fun e => e.source == src) = true →
      appendEdge fuel st src tgt w = .ok (st.setNode tgt { target with
        edges := mergeWeight target.edges src (fun w0 => addV w0 w) }) ∧
      (mergeWeight target.edges src (fun w0 => addV w0 w)).map
          (fun e => e.source)
        = target.edges.map (fun e => e.source)) := by
  refine ⟨initTape_inv, ?_, ?_, ?_, ?_, ?_, ?_, ?_, ?_, ?_, ?_, ?_, ?_, ?_⟩
  · intro st hInv t n hf
    refine ⟨fun e he => ?_, hInv.euniq t n hf⟩
    obtain ⟨h1, h2⟩ := hInv.eord t n hf e he
    exact ⟨h1, h2, hInv.pres t n hf e he⟩
  · intro st size idx st' hInv h
    exact appendLeaf_inv hInv h
  · intro st label size i1 w1 idx st' hInv h1 h
    exact append1_inv hInv h1 h
  · intro st label size i1 i2 w1 w2 idx st' hInv h1 h2 h
    exact append2_inv hInv h1 h2 h
  · intro st label size i1 i2 i3 w1 w2 w3 idx st' hInv h1 h2 h3 h
    exact append3_inv hInv h1 h2 h3 h
  · intro st i st' hInv h
    exact incRef_inv hInv h
  · intro fuel st i st' hInv hext h
    refine decRef_invD fuel i st st' [] [] hInv (Or.inl ⟨rfl, ?_⟩) h
    rcases hext with h0 | hlt
    · exact Or.inl h0
    · refine Or.inr ?_
      have : dcount [] i = 0 := rfl
      omega
  · intro st i v st' hInv h
    exact setGradient_inv hInv h
  · intro st st' hInv h
    exact backward_false_inv hInv h
  · intro st roots st' hInv h
    exact graphvizState_inv hInv h
  · intro st s hInv
    exact inv_prefixes hInv _
  · intro st st' hInv h
    exact popPrefix_inv hInv h
  · intro fuel st src tgt w source target hsrc hfs hft hcon hany
    constructor
    · unfold appendEdge
      rw [if_neg hsrc, getNode_ok.mpr hfs, getNode_ok.mpr hft]
      show (if ¬source.hasSpecial ∧ source.size = target.size ∧
            0 < source.degree ∧ st.contract_edges then
          source.edges.foldlM (fun s e =>
            appendEdgeProd fuel s e.source tgt w e.weight) st
        else if target.edges.any (fun e => e.source == src) then
          .ok (st.setNode tgt { target with
            edges := mergeWeight target.edges src (fun w0 => addV w0 w) })
        else incRef (st.setNode tgt (target.appendEdgeRaw
          { source := src, weight := w })) src)
        = .ok (st.setNode tgt { target with
            edges := mergeWeight target.edges src (fun w0 => addV w0 w) })
      rw [if_neg hcon, if_pos hany]
    · exact mergeWeight_sources target.edges src _

end Enoki

namespace Enoki

/-- The contraction recursion only rewrites the target node and reference
counts of ids at or below the folded source: everything else is untouched. -/
theorem appendEdgeProd_frame : ∀ (fuel : ℕ) (s : TapeState)
    (a tgt : Index) (w1 w2 : Value) (s' : TapeState),
    Inv s → a < tgt →
    appendEdgeProd fuel s a tgt w1 w2 = .ok s' →
    ∀ j, j ≠ tgt → a < j → s'.find? j = s.find? j := by
  intro fuel
  induction fuel with
  | zero =>
    intro s a tgt w1 w2 s' _ _ h
    exact Except.noConfusion h
  | succ fuel ih =>
    intro s a tgt w1 w2 s' hInv hlt h j hjt hja
    by_cases ha : a = 0
    · subst ha
      have h0 : appendEdgeProd (fuel + 1) s 0 tgt w1 w2 = .ok s := by
        conv_lhs => rw [appendEdgeProd]
        rw [if_pos rfl]
      rw [h0] at h
      cases Except.ok.inj h
      rfl
    · rw [appendEdgeProd_succ fuel s a tgt w1 w2 ha] at h
      cases hfs : getNode s a with
      | error e => rw [hfs] at h; exact Except.noConfusion h
      | ok source =>
        rw [hfs] at h
        cases hft : getNode s tgt with
        | error e => rw [hft] at h; exact Except.noConfusion h
        | ok target =>
          rw [hft] at h
          have h' : (if ¬source.hasSpecial ∧ source.size = target.size ∧
                0 < source.degree ∧ s.contract_edges then
              source.edges.foldlM (fun x e =>
                appendEdgeProd fuel x e.source tgt (safe_mul w1 w2)
                  e.weight) s
            else if target.edges.any (fun e => e.source == a) then
              .ok (s.setNode tgt { target with
                edges := mergeWeight target.edges a (safe_fmadd w1 w2) })
            else incRef (s.setNode tgt (target.appendEdgeRaw
              { source := a, weight := safe_mul w1 w2 })) a)
              = .ok s' := h
          by_cases hcon : ¬source.hasSpecial ∧ source.size = target.size ∧
              0 < source.degree ∧ s.contract_edges
          · rw [if_pos hcon] at h'
            have main := foldlM_ind_mem (P := fun (x y : TapeState) =>
              Inv x → Inv y ∧ y.find? j = x.find? j) source.edges
              (fun x hx => ⟨hx, rfl⟩)
              (fun x y z hxy hyz hx => by
                obtain ⟨hy, e1⟩ := hxy hx
                obtain ⟨hz, e2⟩ := hyz hy
                exact ⟨hz, e2.trans e1⟩)
              ?_ s s' h' hInv
            · exact (main).2
            · intro x e y he hx hxi
              have hea : e.source < a :=
                (hInv.eord a source (getNode_ok.mp hfs) e he).1
              refine ⟨appendEdgeProd_inv fuel x e.source tgt
                (safe_mul w1 w2) e.weight y hxi (lt_trans hea hlt) hx, ?_⟩
              exact ih x e.source tgt (safe_mul w1 w2) e.weight y hxi
                (lt_trans hea hlt) hx j hjt (lt_trans hea hja)
          · rw [if_neg hcon] at h'
            by_cases hany : target.edges.any (fun e => e.source == a) = true
            · rw [if_pos hany] at h'
              cases Except.ok.inj h'
              exact find?_setNode_ne _ hjt
            · rw [if_neg hany] at h'
              unfold incRef at h'
              rw [if_neg ha] at h'
              have hf₁ : (s.setNode tgt (target.appendEdgeRaw
                  { source := a, weight := safe_mul w1 w2 })).find? a
                  = some source := by
                rw [find?_setNode_ne _ (Nat.ne_of_lt hlt)]
                exact getNode_ok.mp hfs
              rw [getNode_ok.mpr hf₁] at h'
              have h2 : (.ok ((s.setNode tgt (target.appendEdgeRaw
                  { source := a, weight := safe_mul w1 w2 })).setNode a
                  { source with ref_count := source.ref_count + 1 })
                  : Except Err TapeState) = .ok s' := h'
              cases Except.ok.inj h2
              rw [find?_setNode_ne _ (Nat.ne_of_gt hja),
                find?_setNode_ne _ hjt]

/-- **C4 (amended).**  The firing condition and effect of edge
contraction in `Tape::append_edge`: with `source`/`target` stored at
`src`/`tgt`, (1) when `contract_edges` is set, `src` has at least one
incoming edge, `src.size == tgt.size` and none of `src`'s incoming edges
are special, `append_edge` performs no direct insertion but folds every
grandparent edge through `append_edge_prod`; (2) otherwise it merges into
an existing `src → tgt` edge or tail-appends a fresh one; (3) one fold
step on a grandparent edge `gp → src` of weight `w_gp` lands (when no
deeper contraction fires at `gp`) as a direct edge `gp → tgt` of weight
`safe_mul w w_gp`, or is fmadd-merged into an existing `gp → tgt` edge;
and (4) the contraction leaves the node of `src` untouched — it is not
deleted. -/
theorem claim_C4 (fuel : ℕ) (st : TapeState) (src tgt : Index) (w : Value)
    (source target : Node)
    (hsrc : src ≠ 0)
    (hfs : st.find? src = some source) (hft : st.find? tgt = some target)
    (hlt : src < tgt) (hInv : Inv st) :
    (¬source.hasSpecial ∧ source.size = target.size ∧
        0 < source.degree ∧ st.contract_edges →
      appendEdge fuel st src tgt w = source.edges.foldlM
        (fun s e => appendEdgeProd fuel s e.source tgt w e.weight) st) ∧
    (¬(¬source.hasSpecial ∧ source.size = target.size ∧
        0 < source.degree ∧ st.contract_edges) →
      appendEdge fuel st src tgt w =
        (if target.edges.any (fun e => e.source == src) then
          .ok (st.setNode tgt { target with
            edges := mergeWeight target.edges src (fun w0 => addV w0 w) })
        else incRef (st.setNode tgt
          (target.appendEdgeRaw { source := src, weight := w })) src)) ∧
    (∀ (s : TapeState) (gp : Index) (w_gp : Value) (gnode tnode : Node),
      gp ≠ 0 → s.find? gp = some gnode → s.find? tgt = some tnode →
      ¬(¬gnode.hasSpecial ∧ gnode.size = tnode.size ∧
        0 < gnode.degree ∧ s.contract_edges) →
      appendEdgeProd (fuel + 1) s gp tgt w w_gp =
        (if tnode.edges.any (fun e => e.source == gp) then
          .ok (s.setNode tgt { tnode with
            edges := mergeWeight tnode.edges gp (safe_fmadd w w_gp) })
        else incRef (s.setNode tgt
          (tnode.appendEdgeRaw { source := gp, weight := safe_mul w w_gp }))
          gp)) ∧
    (∀ st', ¬source.hasSpecial ∧ source.size = target.size ∧
        0 < source.degree ∧ st.contract_edges →
      appendEdge fuel st src tgt w = .ok st' →
      st'.find? src = st.find? src) := by
  have hunf : ∀ (r : Except Err TapeState),
      (if ¬source.hasSpecial ∧ source.size = target.size ∧
          0 < source.degree ∧ st.contract_edges then
        source.edges.foldlM
          (fun s e => appendEdgeProd fuel s e.source tgt w e.weight) st
      else if target.edges.any (fun e => e.source == src) then
        .ok (st.setNode tgt { target with
          edges := mergeWeight target.edges src (fun w0 => addV w0 w) })
      else incRef (st.setNode tgt
        (target.appendEdgeRaw { source := src, weight := w })) src) = r →
      appendEdge fuel st src tgt w = r := by
    intro r hr
    unfold appendEdge
    rw [if_neg hsrc, getNode_ok.mpr hfs, getNode_ok.mpr hft]
    exact hr
  refine ⟨?_, ?_, ?_, ?_⟩
  · intro hcon
    exact hunf _ (if_pos hcon)
  · intro hcon
    exact hunf _ (if_neg hcon)
  · intro s gp w_gp gnode tnode hgp hfg hftn hncon
    rw [appendEdgeProd_succ fuel s gp tgt w w_gp hgp,
      getNode_ok.mpr hfg, getNode_ok.mpr hftn]
    show (if ¬gnode.hasSpecial ∧ gnode.size = tnode.size ∧
          0 < gnode.degree ∧ s.contract_edges then
        gnode.edges.foldlM (fun x e =>
          appendEdgeProd fuel x e.source tgt (safe_mul w w_gp) e.weight) s
      else if tnode.edges.any (fun e => e.source == gp) then
        .ok (s.setNode tgt { tnode with
          edges := mergeWeight tnode.edges gp (safe_fmadd w w_gp) })
      else incRef (s.setNode tgt (tnode.appendEdgeRaw
        { source := gp, weight := safe_mul w w_gp })) gp) = _
    rw [if_neg hncon]
  · intro st' hcon h
    have heq : appendEdge fuel st src tgt w = source.edges.foldlM
        (fun s e => appendEdgeProd fuel s e.source tgt w e.weight) st :=
      hunf _ (if_pos hcon)
    rw [heq] at h
    have main := foldlM_ind_mem (P := fun (x y : TapeState) =>
      Inv x → Inv y ∧ y.find? src = x.find? src) source.edges
      (fun x hx => ⟨hx, rfl⟩)
      (fun x y z hxy hyz hx => by
        obtain ⟨hy, e1⟩ := hxy hx
        obtain ⟨hz, e2⟩ := hyz hy
        exact ⟨hz, e2.trans e1⟩)
      ?_ st st' h hInv
    · exact main.2
    · intro x e y he hx hxi
      have hea : e.source < src := (hInv.eord src source hfs e he).1
      refine ⟨appendEdgeProd_inv fuel x e.source tgt w e.weight y hxi
        (lt_trans hea hlt) hx, ?_⟩
      exact appendEdgeProd_frame fuel x e.source tgt w e.weight y hxi
        (lt_trans hea hlt) hx src (Nat.ne_of_lt hlt) hea

end Enoki

namespace Enoki

/-- A two-node store (both edge-free) for exercising `claim_C4`. -/
def c4wSt : TapeState :=
  { node_counter := 3
    nodes := [(1, { label := "x", ref_count := 1, size := 1 }),
      (2, { label := "y", ref_count := 1, size := 1 })] }

theorem c4wSt_inv : Inv c4wSt := by
  refine inv_mk (by decide) ?_ ?_ ?_ ?_ ?_ ?_
  · intro k hk
    have hk' : k ∈ ([1, 2] : List Index) := hk
    rcases List.mem_cons.mp hk' with rfl | hk2
    · decide
    · rcases List.mem_cons.mp hk2 with rfl | hk3
      · decide
      · exact absurd hk3 (List.not_mem_nil k)
  · decide
  · intro t n hf e he
    have hm := findVal_mem hf
    have hm' : (t, n) = (1, { label := "x", ref_count := 1, size := 1 })
        ∨ (t, n) = (2, { label := "y", ref_count := 1, size := 1 }) := by
      simpa [c4wSt] using hm
    rcases hm' with h1 | h1 <;>
      · have hn := ((Prod.mk.injEq _ _ _ _).mp h1).2
        rw [hn] at he
        exact absurd he (List.not_mem_nil e)
  · intro t n hf e he
    have hm := findVal_mem hf
    have hm' : (t, n) = (1, { label := "x", ref_count := 1, size := 1 })
        ∨ (t, n) = (2, { label := "y", ref_count := 1, size := 1 }) := by
      simpa [c4wSt] using hm
    rcases hm' with h1 | h1 <;>
      · have hn := ((Prod.mk.injEq _ _ _ _).mp h1).2
        rw [hn] at he
        exact absurd he (List.not_mem_nil e)
  · intro t n hf
    have hm := findVal_mem hf
    have hm' : (t, n) = (1, { label := "x", ref_count := 1, size := 1 })
        ∨ (t, n) = (2, { label := "y", ref_count := 1, size := 1 }) := by
      simpa [c4wSt] using hm
    rcases hm' with h1 | h1 <;>
      · have hn := ((Prod.mk.injEq _ _ _ _).mp h1).2
        rw [hn]
        exact List.Pairwise.nil
  · intro j
    exact Nat.zero_le _

theorem claim_C4_witness :
    appendEdge 3 c4wSt 1 2 [.fin 1]
      = incRef (c4wSt.setNode 2
        (({ label := "y", ref_count := 1, size := 1 }
          : Node).appendEdgeRaw { source := 1, weight := [.fin 1] })) 1 := by
  have h := (claim_C4 3 c4wSt 1 2 [.fin 1]
    { label := "x", ref_count := 1, size := 1 }
    { label := "y", ref_count := 1, size := 1 }
    (by decide) (by rfl) (by rfl) (by decide) c4wSt_inv).2.1 (by decide)
  rw [h]
  rfl

end Enoki

namespace Enoki

/-- The scenario refuting the gradient-equivalence half of the contraction
claim: leaf `1`, node `2 = f(1)` with vector weight `[2, 3]`, and node
`3 = g(2)` with vector weight `[4, 2]` — all nodes scalar-shaped
(`size = 1`).  Seed `grad[3] = [1]`, sweep without freeing, and read the
leaf's gradient. -/
def c4Run (ce : Bool) : Except Err Value := do
  let st0 := { initTape with contract_edges := ce }
  let (l, st1) ← appendLeaf st0 1
  let (m, st2) ← append1 st1 "f" 1 l [.fin 2, .fin 3]
  let (n, st3) ← append1 st2 "g" 1 m [.fin 4, .fin 2]
  let st4 ← setGradient st3 n [.fin 1]
  let st5 ← backward st4 false
  gradientOf st5 l

def c4st1 (ce : Bool) : TapeState :=
  { node_counter := 2
    nodes := [(1, { label := "'unnamed'", grad := [.fin 0], ref_count := 1, size := 1 })]
    contract_edges := ce }

def c4st2 (ce : Bool) : TapeState :=
  { node_counter := 3
    nodes := [(2, { label := "f", edges := [{ source := 1, weight := [.fin 2, .fin 3] }], ref_count := 1, size := 1 }),
      (1, { label := "'unnamed'", grad := [.fin 0], ref_count := 2, size := 1 })]
    contract_edges := ce }

/-- Post-append store of the contracting run (`w` is the direct edge's
weight, `safe_mul [4,2] [2,3]`). -/
def c4st3T (w : Value) : TapeState :=
  { node_counter := 4
    nodes := [(3, { label := "g", edges := [{ source := 1, weight := w }], ref_count := 1, size := 1 }),
      (2, { label := "f", edges := [{ source := 1, weight := [.fin 2, .fin 3] }], ref_count := 1, size := 1 }),
      (1, { label := "'unnamed'", grad := [.fin 0], ref_count := 3, size := 1 })]
    contract_edges := true }

def c4st4T (w : Value) : TapeState :=
  { node_counter := 4
    nodes := [(3, { label := "g", grad := [.fin 1], edges := [{ source := 1, weight := w }], ref_count := 1, size := 1 }),
      (2, { label := "f", edges := [{ source := 1, weight := [.fin 2, .fin 3] }], ref_count := 1, size := 1 }),
      (1, { label := "'unnamed'", grad := [.fin 0], ref_count := 3, size := 1 })]
    scheduled := [1, 3]
    contract_edges := true }

def c4st5T (w g1 : Value) : TapeState :=
  { node_counter := 4
    nodes := [(3, { label := "g", grad := [.fin 1], edges := [{ source := 1, weight := w }], ref_count := 1, size := 1 }),
      (2, { label := "f", edges := [{ source := 1, weight := [.fin 2, .fin 3] }], ref_count := 1, size := 1 }),
      (1, { label := "'unnamed'", grad := g1, ref_count := 3, size := 1 })]
    contract_edges := true }

/-- Post-append store of the plain (non-contracting) run. -/
def c4st3F : TapeState :=
  { node_counter := 4
    nodes := [(3, { label := "g", edges := [{ source := 2, weight := [.fin 4, .fin 2] }], ref_count := 1, size := 1 }),
      (2, { label := "f", edges := [{ source := 1, weight := [.fin 2, .fin 3] }], ref_count := 2, size := 1 }),
      (1, { label := "'unnamed'", grad := [.fin 0], ref_count := 2, size := 1 })]
    contract_edges := false }

def c4st4F : TapeState :=
  { node_counter := 4
    nodes := [(3, { label := "g", grad := [.fin 1], edges := [{ source := 2, weight := [.fin 4, .fin 2] }], ref_count := 1, size := 1 }),
      (2, { label := "f", grad := [.fin 0], edges := [{ source := 1, weight := [.fin 2, .fin 3] }], ref_count := 2, size := 1 }),
      (1, { label := "'unnamed'", grad := [.fin 0], ref_count := 2, size := 1 })]
    scheduled := [1, 2, 3]
    contract_edges := false }

/-- Mid-sweep store of the plain run after target `3` (`g2` is node `2`'s
accumulated gradient). -/
def c4A (g2 : Value) : TapeState :=
  { node_counter := 4
    nodes := [(3, { label := "g", grad := [.fin 1], edges := [{ source := 2, weight := [.fin 4, .fin 2] }], ref_count := 1, size := 1 }),
      (2, { label := "f", grad := g2, edges := [{ source := 1, weight := [.fin 2, .fin 3] }], ref_count := 2, size := 1 }),
      (1, { label := "'unnamed'", grad := [.fin 0], ref_count := 2, size := 1 })]
    scheduled := [1, 2, 3]
    contract_edges := false }

def c4B (g1 g2 : Value) : TapeState :=
  { node_counter := 4
    nodes := [(3, { label := "g", grad := [.fin 1], edges := [{ source := 2, weight := [.fin 4, .fin 2] }], ref_count := 1, size := 1 }),
      (2, { label := "f", grad := g2, edges := [{ source := 1, weight := [.fin 2, .fin 3] }], ref_count := 2, size := 1 }),
      (1, { label := "'unnamed'", grad := g1, ref_count := 2, size := 1 })]
    scheduled := [1, 2, 3]
    contract_edges := false }

theorem c4_mul : safe_mul [FP.fin 4, FP.fin 2] [FP.fin 2, FP.fin 3]
    = [FP.fin 8, FP.fin 6] := by
  show [FP.fin ((4 : ℚ) * 2), FP.fin ((2 : ℚ) * 3)] = [FP.fin 8, FP.fin 6]
  norm_num

theorem c4_fT : safe_fmadd [FP.fin 8, FP.fin 6] [FP.fin 1] [FP.fin 0]
    = [FP.fin 8, FP.fin 6] := by
  show [FP.fin ((8 : ℚ) * 1 + 0), FP.fin ((6 : ℚ) * 1 + 0)]
    = [FP.fin 8, FP.fin 6]
  norm_num

theorem c4_hT : hsumV [FP.fin 8, FP.fin 6] = [FP.fin 14] := by
  show [FP.fin (((0 : ℚ) + 8) + 6)] = [FP.fin 14]
  norm_num

theorem c4_fA : safe_fmadd [FP.fin 4, FP.fin 2] [FP.fin 1] [FP.fin 0]
    = [FP.fin 4, FP.fin 2] := by
  show [FP.fin ((4 : ℚ) * 1 + 0), FP.fin ((2 : ℚ) * 1 + 0)]
    = [FP.fin 4, FP.fin 2]
  norm_num

theorem c4_hB : hsumV [FP.fin 4, FP.fin 2] = [FP.fin 6] := by
  show [FP.fin (((0 : ℚ) + 4) + 2)] = [FP.fin 6]
  norm_num

theorem c4_fC : safe_fmadd [FP.fin 2, FP.fin 3] [FP.fin 6] [FP.fin 0]
    = [FP.fin 12, FP.fin 18] := by
  show [FP.fin ((2 : ℚ) * 6 + 0), FP.fin ((3 : ℚ) * 6 + 0)]
    = [FP.fin 12, FP.fin 18]
  norm_num

theorem c4_hD : hsumV [FP.fin 12, FP.fin 18] = [FP.fin 30] := by
  show [FP.fin (((0 : ℚ) + 12) + 18)] = [FP.fin 30]
  norm_num

theorem c4Run_true : c4Run true = .ok [FP.fin 14] := by
  have t3 : c4Run true = (do
      let st4 ← setGradient (c4st3T (safe_mul [FP.fin 4, FP.fin 2]
        [FP.fin 2, FP.fin 3])) 3 [FP.fin 1]
      let st5 ← backward st4 false
      gradientOf st5 1) := rfl
  rw [t3, c4_mul]
  have t5 : (do
      let st4 ← setGradient (c4st3T [FP.fin 8, FP.fin 6]) 3 [FP.fin 1]
      let st5 ← backward st4 false
      gradientOf st5 1)
      = (backward (c4st4T [FP.fin 8, FP.fin 6]) false).bind
        (fun st5 => gradientOf st5 1) := rfl
  rw [t5]
  have t6 : backward (c4st4T [FP.fin 8, FP.fin 6]) false
      = .ok (c4st5T [FP.fin 8, FP.fin 6] (hsumV (safe_fmadd
        [FP.fin 8, FP.fin 6] [FP.fin 1] [FP.fin 0]))) := rfl
  rw [t6, c4_fT, c4_hT]
  rfl

theorem c4_p2 : processTarget 4 (c4A [FP.fin 4, FP.fin 2]) false 2
    = .ok (c4B (safe_fmadd [FP.fin 2, FP.fin 3] [FP.fin 6] [FP.fin 0])
        [FP.fin 6]) := by
  have u1 : processTarget 4 (c4A [FP.fin 4, FP.fin 2]) false 2
      = (([{ source := 1, weight := [FP.fin 2, FP.fin 3] }]
          : List Edge).foldlM (edgeStep 4 false 2)
          (c4A (hsumV [FP.fin 4, FP.fin 2]))).bind
        (fun st₁ =>
          if false then
            (getNode st₁ 2).bind (fun tn =>
              decRef 4 (st₁.setNode 2 { tn with edges := [] }) 2)
          else .ok st₁) := rfl
  rw [u1, c4_hB]
  rfl

theorem c4_p1 : processTarget 4 (c4B [FP.fin 12, FP.fin 18] [FP.fin 6])
    false 1 = .ok (c4B (hsumV [FP.fin 12, FP.fin 18]) [FP.fin 6]) := rfl

theorem c4Run_false : c4Run false = .ok [FP.fin 30] := by
  have t3 : c4Run false = (backward c4st4F false).bind
      (fun st5 => gradientOf st5 1) := rfl
  rw [t3]
  have t4 : backward c4st4F false
      = ((([2, 1] : List Index).foldlM
          (fun s u => processTarget s.node_counter s false u)
          (c4A (safe_fmadd [FP.fin 4, FP.fin 2] [FP.fin 1] [FP.fin 0]))).bind
        (fun stf => (.ok { stf with scheduled := [] }
          : Except Err TapeState))) := rfl
  rw [t4, c4_fA]
  have t5 : (([2, 1] : List Index).foldlM
      (fun s u => processTarget s.node_counter s false u)
      (c4A [FP.fin 4, FP.fin 2]))
      = (processTarget 4 (c4A [FP.fin 4, FP.fin 2]) false 2).bind
        (fun s2 => ([1] : List Index).foldlM
          (fun s u => processTarget s.node_counter s false u) s2) := rfl
  rw [t5, c4_p2, c4_fC]
  have t5b : ((Except.ok (c4B [FP.fin 12, FP.fin 18] [FP.fin 6])
      : Except Err TapeState)).bind
      (fun s2 => ([1] : List Index).foldlM
        (fun s u => processTarget s.node_counter s false u) s2)
      = ([1] : List Index).foldlM
        (fun s u => processTarget s.node_counter s false u)
        (c4B [FP.fin 12, FP.fin 18] [FP.fin 6]) := rfl
  rw [t5b]
  have t6 : (([1] : List Index).foldlM
      (fun s u => processTarget s.node_counter s false u)
      (c4B [FP.fin 12, FP.fin 18] [FP.fin 6]))
      = (processTarget 4 (c4B [FP.fin 12, FP.fin 18] [FP.fin 6])
          false 1).bind
        (fun s1 => ([] : List Index).foldlM
          (fun s u => processTarget s.node_counter s false u) s1) := rfl
  rw [t6, c4_p1, c4_hD]
  rfl

/-- **C4, counterexample.**  Enabling vs. disabling `contract_edges` does
*not* always yield the same gradients: on the three-node chain of
`c4Run` — all nodes scalar-shaped but with vector (broadcast) edge
weights — the contracting run pre-multiplies the weights
(`safe_mul [4,2] [2,3] = [8,6]`) and collapses once, giving leaf gradient
`14`, while the plain run collapses the intermediate gradient by
horizontal sum between the two `safe_fmadd` applications, giving `30`. -/
theorem claim_C4_counterexample :
    c4Run true = .ok [FP.fin 14] ∧ c4Run false = .ok [FP.fin 30] ∧
    ([FP.fin 14] : Value) ≠ [FP.fin 30] := by
  refine ⟨c4Run_true, c4Run_false, ?_⟩
  decide

end Enoki
